import Mathlib

/-!
# QIC-40/80 Reed-Solomon error correction (`sbin/i386/ft/ftecc.c`)

A shallow embedding of `ftecc.c` and a verification of its specification.

Conventions of the embedding.

* A value of type `UCHAR` is a natural number below 256, a value of type `int` or
  `ULONG` a natural number; where the C code subtracts (`divide`, `divide_out`,
  `z_of_ab`) the intermediate `int tmp` is an `Int`.  A conversion from `int` to
  `UCHAR` that the C code performs implicitly is an explicit `% 256`.
* Memory reached through `UCHAR *data` is a function from byte offsets to bytes
  (`Buf`); block `b` of a segment occupies offsets `b * 1024 .. b * 1024 + 1023`.
* The small arrays `eblk`, `ss`, `es` and `inv.zs` are functions from indices to
  values, written with `upd`.  The C code leaves them uninitialised; the model
  starts them at 0.  No entry is read before it is written, except `pblk[2]` in
  `calculate_inverse` when `nerrs = 2`, whose value is then unused.
* A constant table is a list, read with `List.getD _ _ 0`.
* `for` loops with a known trip count are structural recursions on the number of
  iterations left; the `while (rptr < data)` loop of `compute_syndromes` carries
  fuel (the byte length of the segment, which always suffices).
* `set_parity` computes `max = sect_count(badmap) - 3`; the model covers
  `sect_count badmap >= 3`, the only case in which the C loop stays inside the
  segment.
-/

namespace Ftecc

/-- Modelled from the spec: the constant of `sys/ftape.h` (not in this repository
snapshot) giving the number of block slots of a segment, canonically 32. -/
def QCV_BLKSEG : Nat := 32

/-- Modelled from the spec: the constant of `sys/ftape.h` giving the byte size of a
block, canonically 1024 (the code also hard-wires it as `<< 10`). -/
def QCV_BLKSIZE : Nat := 1024

/-- Modelled from the spec: the constant of `sys/ftape.h` giving the byte size of a
segment, 32 blocks of 1024 bytes. -/
def QCV_SEGSIZE : Nat := 32 * 1024

/-- Memory behind a `UCHAR *`: byte offset to byte. -/
abbrev Buf := Nat → Nat

/-- Array store `a[i] = v`. -/
def upd (a : Nat → Nat) (i v : Nat) : Nat → Nat := fun j => if j = i then v else a j

/-- Matrix store `m[i][j] = v`. -/
def upd2 (m : Nat → Nat → Nat) (i j v : Nat) : Nat → Nat → Nat :=
  fun k l => if k = i ∧ l = j then v else m k l

/-- Inverse matrix: `struct inv_mat`. -/
structure inv_mat where
  log_denom : Nat
  zs : Nat → Nat → Nat

def alpha_power : List Nat := [
  0x01, 0x02, 0x04, 0x08, 0x10, 0x20, 0x40, 0x80,
  0x87, 0x89, 0x95, 0xad, 0xdd, 0x3d, 0x7a, 0xf4,
  0x6f, 0xde, 0x3b, 0x76, 0xec, 0x5f, 0xbe, 0xfb,
  0x71, 0xe2, 0x43, 0x86, 0x8b, 0x91, 0xa5, 0xcd,
  0x1d, 0x3a, 0x74, 0xe8, 0x57, 0xae, 0xdb, 0x31,
  0x62, 0xc4, 0x0f, 0x1e, 0x3c, 0x78, 0xf0, 0x67,
  0xce, 0x1b, 0x36, 0x6c, 0xd8, 0x37, 0x6e, 0xdc,
  0x3f, 0x7e, 0xfc, 0x7f, 0xfe, 0x7b, 0xf6, 0x6b,
  0xd6, 0x2b, 0x56, 0xac, 0xdf, 0x39, 0x72, 0xe4,
  0x4f, 0x9e, 0xbb, 0xf1, 0x65, 0xca, 0x13, 0x26,
  0x4c, 0x98, 0xb7, 0xe9, 0x55, 0xaa, 0xd3, 0x21,
  0x42, 0x84, 0x8f, 0x99, 0xb5, 0xed, 0x5d, 0xba,
  0xf3, 0x61, 0xc2, 0x03, 0x06, 0x0c, 0x18, 0x30,
  0x60, 0xc0, 0x07, 0x0e, 0x1c, 0x38, 0x70, 0xe0,
  0x47, 0x8e, 0x9b, 0xb1, 0xe5, 0x4d, 0x9a, 0xb3,
  0xe1, 0x45, 0x8a, 0x93, 0xa1, 0xc5, 0x0d, 0x1a,
  0x34, 0x68, 0xd0, 0x27, 0x4e, 0x9c, 0xbf, 0xf9,
  0x75, 0xea, 0x53, 0xa6, 0xcb, 0x11, 0x22, 0x44,
  0x88, 0x97, 0xa9, 0xd5, 0x2d, 0x5a, 0xb4, 0xef,
  0x59, 0xb2, 0xe3, 0x41, 0x82, 0x83, 0x81, 0x85,
  0x8d, 0x9d, 0xbd, 0xfd, 0x7d, 0xfa, 0x73, 0xe6,
  0x4b, 0x96, 0xab, 0xd1, 0x25, 0x4a, 0x94, 0xaf,
  0xd9, 0x35, 0x6a, 0xd4, 0x2f, 0x5e, 0xbc, 0xff,
  0x79, 0xf2, 0x63, 0xc6, 0x0b, 0x16, 0x2c, 0x58,
  0xb0, 0xe7, 0x49, 0x92, 0xa3, 0xc1, 0x05, 0x0a,
  0x14, 0x28, 0x50, 0xa0, 0xc7, 0x09, 0x12, 0x24,
  0x48, 0x90, 0xa7, 0xc9, 0x15, 0x2a, 0x54, 0xa8,
  0xd7, 0x29, 0x52, 0xa4, 0xcf, 0x19, 0x32, 0x64,
  0xc8, 0x17, 0x2e, 0x5c, 0xb8, 0xf7, 0x69, 0xd2,
  0x23, 0x46, 0x8c, 0x9f, 0xb9, 0xf5, 0x6d, 0xda,
  0x33, 0x66, 0xcc, 0x1f, 0x3e, 0x7c, 0xf8, 0x77,
  0xee, 0x5b, 0xb6, 0xeb, 0x51, 0xa2, 0xc3, 0x01
]

def alpha_log : List Nat := [
  0xff, 0x00, 0x01, 0x63, 0x02, 0xc6, 0x64, 0x6a,
  0x03, 0xcd, 0xc7, 0xbc, 0x65, 0x7e, 0x6b, 0x2a,
  0x04, 0x8d, 0xce, 0x4e, 0xc8, 0xd4, 0xbd, 0xe1,
  0x66, 0xdd, 0x7f, 0x31, 0x6c, 0x20, 0x2b, 0xf3,
  0x05, 0x57, 0x8e, 0xe8, 0xcf, 0xac, 0x4f, 0x83,
  0xc9, 0xd9, 0xd5, 0x41, 0xbe, 0x94, 0xe2, 0xb4,
  0x67, 0x27, 0xde, 0xf0, 0x80, 0xb1, 0x32, 0x35,
  0x6d, 0x45, 0x21, 0x12, 0x2c, 0x0d, 0xf4, 0x38,
  0x06, 0x9b, 0x58, 0x1a, 0x8f, 0x79, 0xe9, 0x70,
  0xd0, 0xc2, 0xad, 0xa8, 0x50, 0x75, 0x84, 0x48,
  0xca, 0xfc, 0xda, 0x8a, 0xd6, 0x54, 0x42, 0x24,
  0xbf, 0x98, 0x95, 0xf9, 0xe3, 0x5e, 0xb5, 0x15,
  0x68, 0x61, 0x28, 0xba, 0xdf, 0x4c, 0xf1, 0x2f,
  0x81, 0xe6, 0xb2, 0x3f, 0x33, 0xee, 0x36, 0x10,
  0x6e, 0x18, 0x46, 0xa6, 0x22, 0x88, 0x13, 0xf7,
  0x2d, 0xb8, 0x0e, 0x3d, 0xf5, 0xa4, 0x39, 0x3b,
  0x07, 0x9e, 0x9c, 0x9d, 0x59, 0x9f, 0x1b, 0x08,
  0x90, 0x09, 0x7a, 0x1c, 0xea, 0xa0, 0x71, 0x5a,
  0xd1, 0x1d, 0xc3, 0x7b, 0xae, 0x0a, 0xa9, 0x91,
  0x51, 0x5b, 0x76, 0x72, 0x85, 0xa1, 0x49, 0xeb,
  0xcb, 0x7c, 0xfd, 0xc4, 0xdb, 0x1e, 0x8b, 0xd2,
  0xd7, 0x92, 0x55, 0xaa, 0x43, 0x0b, 0x25, 0xaf,
  0xc0, 0x73, 0x99, 0x77, 0x96, 0x5c, 0xfa, 0x52,
  0xe4, 0xec, 0x5f, 0x4a, 0xb6, 0xa2, 0x16, 0x86,
  0x69, 0xc5, 0x62, 0xfe, 0x29, 0x7d, 0xbb, 0xcc,
  0xe0, 0xd3, 0x4d, 0x8c, 0xf2, 0x1f, 0x30, 0xdc,
  0x82, 0xab, 0xe7, 0x56, 0xb3, 0x93, 0x40, 0xd8,
  0x34, 0xb0, 0xef, 0x26, 0x37, 0x0c, 0x11, 0x44,
  0x6f, 0x78, 0x19, 0x9a, 0x47, 0x74, 0xa7, 0xc1,
  0x23, 0x53, 0x89, 0xfb, 0x14, 0x5d, 0xf8, 0x97,
  0x2e, 0x4b, 0xb9, 0x60, 0x0f, 0xed, 0x3e, 0xe5,
  0xf6, 0x87, 0xa5, 0x17, 0x3a, 0xa3, 0x3c, 0xb7
]

def mult_c0 : List Nat := [
  0x00, 0xc0, 0x07, 0xc7, 0x0e, 0xce, 0x09, 0xc9,
  0x1c, 0xdc, 0x1b, 0xdb, 0x12, 0xd2, 0x15, 0xd5,
  0x38, 0xf8, 0x3f, 0xff, 0x36, 0xf6, 0x31, 0xf1,
  0x24, 0xe4, 0x23, 0xe3, 0x2a, 0xea, 0x2d, 0xed,
  0x70, 0xb0, 0x77, 0xb7, 0x7e, 0xbe, 0x79, 0xb9,
  0x6c, 0xac, 0x6b, 0xab, 0x62, 0xa2, 0x65, 0xa5,
  0x48, 0x88, 0x4f, 0x8f, 0x46, 0x86, 0x41, 0x81,
  0x54, 0x94, 0x53, 0x93, 0x5a, 0x9a, 0x5d, 0x9d,
  0xe0, 0x20, 0xe7, 0x27, 0xee, 0x2e, 0xe9, 0x29,
  0xfc, 0x3c, 0xfb, 0x3b, 0xf2, 0x32, 0xf5, 0x35,
  0xd8, 0x18, 0xdf, 0x1f, 0xd6, 0x16, 0xd1, 0x11,
  0xc4, 0x04, 0xc3, 0x03, 0xca, 0x0a, 0xcd, 0x0d,
  0x90, 0x50, 0x97, 0x57, 0x9e, 0x5e, 0x99, 0x59,
  0x8c, 0x4c, 0x8b, 0x4b, 0x82, 0x42, 0x85, 0x45,
  0xa8, 0x68, 0xaf, 0x6f, 0xa6, 0x66, 0xa1, 0x61,
  0xb4, 0x74, 0xb3, 0x73, 0xba, 0x7a, 0xbd, 0x7d,
  0x47, 0x87, 0x40, 0x80, 0x49, 0x89, 0x4e, 0x8e,
  0x5b, 0x9b, 0x5c, 0x9c, 0x55, 0x95, 0x52, 0x92,
  0x7f, 0xbf, 0x78, 0xb8, 0x71, 0xb1, 0x76, 0xb6,
  0x63, 0xa3, 0x64, 0xa4, 0x6d, 0xad, 0x6a, 0xaa,
  0x37, 0xf7, 0x30, 0xf0, 0x39, 0xf9, 0x3e, 0xfe,
  0x2b, 0xeb, 0x2c, 0xec, 0x25, 0xe5, 0x22, 0xe2,
  0x0f, 0xcf, 0x08, 0xc8, 0x01, 0xc1, 0x06, 0xc6,
  0x13, 0xd3, 0x14, 0xd4, 0x1d, 0xdd, 0x1a, 0xda,
  0xa7, 0x67, 0xa0, 0x60, 0xa9, 0x69, 0xae, 0x6e,
  0xbb, 0x7b, 0xbc, 0x7c, 0xb5, 0x75, 0xb2, 0x72,
  0x9f, 0x5f, 0x98, 0x58, 0x91, 0x51, 0x96, 0x56,
  0x83, 0x43, 0x84, 0x44, 0x8d, 0x4d, 0x8a, 0x4a,
  0xd7, 0x17, 0xd0, 0x10, 0xd9, 0x19, 0xde, 0x1e,
  0xcb, 0x0b, 0xcc, 0x0c, 0xc5, 0x05, 0xc2, 0x02,
  0xef, 0x2f, 0xe8, 0x28, 0xe1, 0x21, 0xe6, 0x26,
  0xf3, 0x33, 0xf4, 0x34, 0xfd, 0x3d, 0xfa, 0x3a
]

/-- Return number of sectors available in a segment: the loop of `sect_count`,
`i` running over the `k` remaining block slots. -/
def sect_count_loop (badmap : Nat) : Nat → Nat → Nat → Nat
  | 0, _, amt => amt
  | k + 1, i, amt =>
    sect_count_loop badmap k (i + 1) (if badmap &&& (1 <<< i) ≠ 0 then amt - 1 else amt)

/-- Number of sectors available in a segment. -/
def sect_count (badmap : Nat) : Nat :=
  sect_count_loop badmap QCV_BLKSEG 0 QCV_BLKSEG

/-- The loop of `sect_bytes`. -/
def sect_bytes_loop (badmap : Nat) : Nat → Nat → Nat → Nat
  | 0, _, amt => amt
  | k + 1, i, amt =>
    sect_bytes_loop badmap k (i + 1)
      (if badmap &&& (1 <<< i) ≠ 0 then amt - QCV_BLKSIZE else amt)

/-- Number of bytes available in a segment. -/
def sect_bytes (badmap : Nat) : Nat :=
  sect_bytes_loop badmap QCV_BLKSEG 0 QCV_SEGSIZE

/-- Multiply two numbers in the field. -/
def multiply (a b : Nat) : Nat :=
  if a = 0 ∨ b = 0 then 0
  else
    let tmp := alpha_log.getD a 0 + alpha_log.getD b 0
    let tmp := if tmp > 254 then tmp - 255 else tmp
    alpha_power.getD tmp 0

/-- Multiply by an exponent. -/
def multiply_out (a b : Nat) : Nat :=
  if a = 0 then 0
  else
    let tmp := alpha_log.getD a 0 + b
    let tmp := if tmp > 254 then tmp - 255 else tmp
    alpha_power.getD tmp 0

/-- Divide two numbers. -/
def divide (a b : Nat) : Nat :=
  if a = 0 ∨ b = 0 then 0
  else
    let tmp : Int := (alpha_log.getD a 0 : Int) - (alpha_log.getD b 0 : Int)
    let tmp := if tmp < 0 then tmp + 255 else tmp
    alpha_power.getD tmp.toNat 0

/-- Divide using exponent. -/
def divide_out (a b : Nat) : Nat :=
  if a = 0 then 0
  else
    let tmp : Int := (alpha_log.getD a 0 : Int) - (b : Int)
    let tmp := if tmp < 0 then tmp + 255 else tmp
    alpha_power.getD tmp.toNat 0

/-- The value `z^{a-b}`. -/
def z_of_ab (a b : Nat) : Nat :=
  let tmp : Int := (a : Int) - (b : Int)
  let tmp := if tmp < 0 then tmp + 255 else tmp
  alpha_power.getD tmp.toNat 0

/-- Calculate the inverse matrix for two or three errors.  Returns 0 if there is
no inverse or 1 if successful, together with the matrix as the call leaves it. -/
def calculate_inverse (nerrs : Nat) (pblk : Nat → Nat) (inv : inv_mat) : Nat × inv_mat :=
  if nerrs < 2 then (1, inv)
  else if nerrs > 3 then (0, inv)
  else
    let i0 := pblk 0 % 256
    let i1 := pblk 1 % 256
    let i2 := pblk 2 % 256
    if nerrs = 2 then
      let z01 := alpha_power.getD (255 - i0) 0
      let z02 := alpha_power.getD (255 - i1) 0
      let d := z01 ^^^ z02
      if d = 0 then (0, { inv with log_denom := d })
      else
        let ld := (255 - alpha_log.getD d 0) % 256
        let zs := upd2 inv.zs 0 0 (multiply_out 1 ld)
        let zs := upd2 zs 0 1 (multiply_out z02 ld)
        let zs := upd2 zs 1 0 (multiply_out 1 ld)
        let zs := upd2 zs 1 1 (multiply_out z01 ld)
        (1, { log_denom := ld, zs := zs })
    else
      let z20 := z_of_ab i2 i0
      let z10 := z_of_ab i1 i0
      let z21 := z_of_ab i2 i1
      let z12 := z_of_ab i1 i2
      let z01 := z_of_ab i0 i1
      let z02 := z_of_ab i0 i2
      let d := z20 ^^^ z10 ^^^ z21 ^^^ z12 ^^^ z01 ^^^ z02
      if d = 0 then (0, { inv with log_denom := d })
      else
        let ld := (255 - alpha_log.getD d 0) % 256
        let iv0 := alpha_power.getD (255 - i0) 0
        let iv1 := alpha_power.getD (255 - i1) 0
        let iv2 := alpha_power.getD (255 - i2) 0
        let i0 := alpha_power.getD i0 0
        let i1 := alpha_power.getD i1 0
        let i2 := alpha_power.getD i2 0
        let zs := upd2 inv.zs 0 0 (multiply_out (i1 ^^^ i2) ld)
        let zs := upd2 zs 0 1 (multiply_out (z21 ^^^ z12) ld)
        let zs := upd2 zs 0 2 (multiply_out (iv1 ^^^ iv2) ld)
        let zs := upd2 zs 1 0 (multiply_out (i0 ^^^ i2) ld)
        let zs := upd2 zs 1 1 (multiply_out (z20 ^^^ z02) ld)
        let zs := upd2 zs 1 2 (multiply_out (iv0 ^^^ iv2) ld)
        let zs := upd2 zs 2 0 (multiply_out (i0 ^^^ i1) ld)
        let zs := upd2 zs 2 1 (multiply_out (z10 ^^^ z01) ld)
        let zs := upd2 zs 2 2 (multiply_out (iv0 ^^^ iv1) ld)
        (1, { log_denom := ld, zs := zs })

/-- Inner loop of `determine`: `for (j = 0; j < nerrs; j++) es[i] ^= ...`. -/
def determine_row (inv : inv_mat) (ss : Nat → Nat) (i : Nat) :
    Nat → Nat → (Nat → Nat) → (Nat → Nat)
  | 0, _, es => es
  | k + 1, j, es =>
    determine_row inv ss i k (j + 1) (upd es i (es i ^^^ multiply (ss j) (inv.zs i j)))

/-- Outer loop of `determine`: `for (i = 0; i < nerrs; i++)`. -/
def determine_loop (nerrs : Nat) (inv : inv_mat) (ss : Nat → Nat) :
    Nat → Nat → (Nat → Nat) → (Nat → Nat)
  | 0, _, es => es
  | k + 1, i, es =>
    determine_loop nerrs inv ss k (i + 1) (determine_row inv ss i nerrs 0 (upd es i 0))

/-- Determine the error magnitudes for a given matrix and syndromes. -/
def determine (nerrs : Nat) (inv : inv_mat) (ss es : Nat → Nat) : Nat → Nat :=
  determine_loop nerrs inv ss nerrs 0 es

/-- The body shared by the row loops of `compute_syndromes` and `set_parity`:
one step of the three-stage recurrence on the registers `(r0, r1, r2)`. -/
def lfsr_step (byte : Nat) (r : Nat × Nat × Nat) : Nat × Nat × Nat :=
  let t1 := byte ^^^ r.1
  let t2 := mult_c0.getD t1 0
  (t2 ^^^ r.2.1, t2 ^^^ r.2.2, t1)

/-- The loop `while (rptr < data)` of `compute_syndromes`, with fuel. -/
def syndrome_rows (data : Buf) (limit : Nat) : Nat → Nat → Nat × Nat × Nat → Nat × Nat × Nat
  | 0, _, r => r
  | fuel + 1, rptr, r =>
    if rptr < limit then
      syndrome_rows data limit fuel (rptr + QCV_BLKSIZE) (lfsr_step (data rptr) r)
    else r

/-- Compute the 3 syndrome values.  Returns 1 when the column is consistent, and
0 together with the syndromes stored in `ss` otherwise. -/
def compute_syndromes (data : Buf) (nblks col : Nat) (ss : Nat → Nat) : Nat × (Nat → Nat) :=
  let limit := nblks <<< 10
  let r := syndrome_rows data limit limit col (0, 0, 0)
  let r0 := r.1
  let r1 := r.2.1
  let r2 := r.2.2
  if r0 ≠ 0 ∨ r1 ≠ 0 ∨ r2 ≠ 0 then
    let ss := upd ss 0
      (divide_out (r0 ^^^ divide_out (r1 ^^^ divide_out r2 1) 1) (nblks % 256))
    let ss := upd ss 1 (r0 ^^^ r1 ^^^ r2)
    let ss := upd ss 2
      (multiply_out (r0 ^^^ multiply_out (r1 ^^^ multiply_out r2 1) 1) nblks)
    (0, ss)
  else (1, ss)

/-- The loop `while (row--)` of `set_parity`: returns the final `rptr` and the
registers. -/
def parity_rows (data : Buf) : Nat → Nat → Nat × Nat × Nat → Nat × (Nat × Nat × Nat)
  | 0, rptr, r => (rptr, r)
  | row + 1, rptr, r => parity_rows data row (rptr + QCV_BLKSIZE) (lfsr_step (data rptr) r)

/-- The loop `while (col--)` of `set_parity`; `off` is the offset the pointer
`data` has been advanced by. -/
def set_parity_cols (max : Nat) : Nat → Nat → Buf → Buf
  | 0, _, data => data
  | col + 1, off, data =>
    let p := parity_rows data max off (0, 0, 0)
    let rptr := p.1
    let data := upd data rptr p.2.1
    let rptr := rptr + QCV_BLKSIZE
    let data := upd data rptr p.2.2.1
    let rptr := rptr + QCV_BLKSIZE
    let data := upd data rptr p.2.2.2
    set_parity_cols max col (off + 1) data

/-- Calculate the parity bytes for a segment, returns 0 on success (always),
together with the segment as the call leaves it. -/
def set_parity (data : Buf) (badmap : Nat) : Nat × Buf :=
  let max := sect_count badmap - 3
  (0, set_parity_cols max QCV_BLKSIZE 0 data)

/-- The local variables of `check_parity` that live across columns, and the
segment. -/
structure cp_state where
  data : Buf
  crcerrs : Nat
  eblk : Nat → Nat
  ss : Nat → Nat
  es : Nat → Nat
  inv : inv_mat

/-- Result of a piece of `check_parity`: fall through with a new state, or
`return(code)` with the segment as it is at that point. -/
inductive outcome where
  | next (s : cp_state)
  | ret (code : Nat) (data : Buf)

/-- The loop of `check_parity` counting the CRC errors and noting their
locations; `none` is the `return(1)` on a fourth flagged block. -/
def crc_loop (crcmap : Nat) : Nat → Nat → Nat → (Nat → Nat) → Option (Nat × (Nat → Nat))
  | 0, _, crcerrs, eblk => some (crcerrs, eblk)
  | k + 1, i, crcerrs, eblk =>
    if crcmap &&& (1 <<< i) ≠ 0 then
      if crcerrs = 3 then none
      else crc_loop crcmap k (i + 1) (crcerrs + 1) (upd eblk crcerrs i)
    else crc_loop crcmap k (i + 1) crcerrs eblk

/-- The loop `Make corrections` of `check_parity`. -/
def correct_loop (col : Nat) (eblk es : Nat → Nat) :
    Nat → Nat → Buf → (Nat → Nat) → Buf × (Nat → Nat)
  | 0, _, data, ss => (data, ss)
  | k + 1, i, data, ss =>
    let idx := (eblk i <<< 10) ||| col
    let data := upd data idx (data idx ^^^ es i)
    let ss := upd ss 0 (ss 0 ^^^ divide_out (es i) (eblk i % 256))
    let ss := upd ss 1 (ss 1 ^^^ es i)
    let ss := upd ss 2 (ss 2 ^^^ multiply_out (es i) (eblk i))
    correct_loop col eblk es k (i + 1) data ss

/-- The `switch (crcerrs)` of `check_parity`: analyze the error situation. -/
def analyze (nblks : Nat) (s : cp_state) : outcome :=
  match s.crcerrs with
  | 0 =>
    if s.ss 0 = 0 then .ret 1 s.data
    else
      let eblk := upd s.eblk s.crcerrs (alpha_log.getD (divide (s.ss 1) (s.ss 0)) 0)
      if eblk s.crcerrs ≥ nblks then .ret 1 s.data
      else
        let es := upd s.es 0 (s.ss 1)
        let crcerrs := s.crcerrs + 1
        if crcerrs > 3 then .ret 1 s.data
        else .next { s with eblk := eblk, es := es, crcerrs := crcerrs }
  | 1 =>
    let i1 := s.ss 2 ^^^ multiply_out (s.ss 1) (s.eblk 0)
    let i2 := s.ss 1 ^^^ multiply_out (s.ss 0) (s.eblk 0)
    if i1 = 0 ∧ i2 = 0 then
      let inv : inv_mat :=
        { log_denom := 0, zs := upd2 s.inv.zs 0 0 (alpha_power.getD (s.eblk 0) 0) }
      .next { s with inv := inv, es := determine s.crcerrs inv s.ss s.es }
    else if i1 = 0 ∨ i2 = 0 then .ret 1 s.data
    else
      let eblk := upd s.eblk s.crcerrs (alpha_log.getD (divide i1 i2) 0)
      if eblk s.crcerrs ≥ nblks then .ret 1 s.data
      else
        let crcerrs := s.crcerrs + 1
        if crcerrs > 3 then .ret 1 s.data
        else
          let ci := calculate_inverse crcerrs eblk s.inv
          if ci.1 = 0 then .ret 1 s.data
          else
            .next { s with eblk := eblk, crcerrs := crcerrs, inv := ci.2,
                           es := determine crcerrs ci.2 s.ss s.es }
  | 2 => .next { s with es := determine s.crcerrs s.inv s.ss s.es }
  | 3 => .next { s with es := determine s.crcerrs s.inv s.ss s.es }
  | _ => .ret 1 s.data

/-- The body of the column loop of `check_parity`. -/
def check_column (nblks col : Nat) (s : cp_state) : outcome :=
  let cs := compute_syndromes s.data nblks col s.ss
  if cs.1 ≠ 0 then .next s
  else
    let s := { s with ss := cs.2 }
    let s := { s with es := upd (upd (upd s.es 2 0) 1 0) 0 0 }
    match analyze nblks s with
    | .ret code data => .ret code data
    | .next s =>
      let c := correct_loop col s.eblk s.es s.crcerrs 0 s.data s.ss
      let s := { s with data := c.1, ss := c.2 }
      if s.ss 0 ≠ 0 ∨ s.ss 1 ≠ 0 ∨ s.ss 2 ≠ 0 then .ret 1 s.data
      else .next s

/-- The loop `for (col = 0; col < QCV_BLKSIZE; col++)` of `check_parity`, with
`k` columns left. -/
def column_loop (nblks : Nat) : Nat → Nat → cp_state → Nat × Buf
  | 0, _, s => (0, s.data)
  | k + 1, col, s =>
    match check_column nblks col s with
    | .ret code data => (code, data)
    | .next s => column_loop nblks k (col + 1) s

/-- Check and correct errors in a block.  Returns 0 on success, 1 if failed,
together with the segment as the call leaves it. -/
def check_parity (data : Buf) (badmap crcmap : Nat) : Nat × Buf :=
  let nblks := sect_count badmap
  let eblk : Nat → Nat := fun _ => 0
  let inv : inv_mat := { log_denom := 0, zs := fun _ _ => 0 }
  let scan := if crcmap ≠ 0 then crc_loop crcmap nblks 0 0 eblk else some (0, eblk)
  match scan with
  | none => (1, data)
  | some (crcerrs, eblk) =>
    let ci := calculate_inverse crcerrs eblk inv
    if ci.1 = 0 then (1, data)
    else
      column_loop nblks QCV_BLKSIZE 0
        { data := data, crcerrs := crcerrs, eblk := eblk,
          ss := fun _ => 0, es := fun _ => 0, inv := ci.2 }

/-! ## The field tables -/

/-- Multiplication by `x` modulo `x^8 + x^7 + x^2 + x + 1` on bytes. -/
def xtime (v : Nat) : Nat := (2 * v) ^^^ (if 128 ≤ v then 0x187 else 0)

/-- Repeated multiplication by `x`. -/
def xpow : Nat → Nat → Nat
  | 0, v => v
  | i + 1, v => xtime (xpow i v)

/-- The power table read cyclically: the generator to the power `i`. -/
def apow (i : Nat) : Nat := alpha_power.getD (i % 255) 0

theorem tbl_pow_log : ∀ v < 256, v ≠ 0 →
    alpha_log.getD v 0 < 255 ∧ alpha_power.getD (alpha_log.getD v 0) 0 = v := by
  decide!

theorem tbl_log_pow : ∀ i < 255, alpha_log.getD (alpha_power.getD i 0) 0 = i ∧
    alpha_power.getD i 0 < 256 ∧ alpha_power.getD i 0 ≠ 0 ∧
    alpha_power.getD (i + 1) 0 = xtime (alpha_power.getD i 0) := by
  decide!

theorem tbl_mult_c0 : ∀ t < 256, mult_c0.getD t 0 = multiply t 0xc0 := by
  decide!

theorem xtime_lt : ∀ v < 256, xtime v < 256 := by
  decide!

theorem xtime_bit : ∀ v < 256,
    xtime v = (v <<< 1) ^^^ (if v.testBit 7 then 0x187 else 0) := by
  decide!

theorem xtime_xor (a b : Nat) (ha : a < 256) (hb : b < 256) :
    xtime (a ^^^ b) = xtime a ^^^ xtime b := by
  have hab : a ^^^ b < 256 := Nat.xor_lt_two_pow (n := 8) ha hb
  rw [xtime_bit _ hab, xtime_bit _ ha, xtime_bit _ hb]
  apply Nat.eq_of_testBit_eq
  intro i
  simp only [Nat.testBit_xor, Nat.testBit_shiftLeft]
  generalize decide (1 ≤ i) = p
  generalize a.testBit (i - 1) = q
  generalize b.testBit (i - 1) = r
  generalize a.testBit 7 = u
  generalize b.testBit 7 = v
  have h0 : Nat.testBit 0 i = false := Nat.zero_testBit i
  cases u <;> cases v <;>
    simp only [Bool.xor_false, Bool.xor_true, Bool.false_xor, Bool.true_xor, Bool.not_false,
      Bool.not_true, if_true, if_false, Bool.false_eq_true, h0] <;>
    generalize Nat.testBit 391 i = s <;>
    cases p <;> cases q <;> cases r <;> cases s <;> rfl

theorem byte_xor_lt {a b : Nat} (ha : a < 256) (hb : b < 256) : a ^^^ b < 256 :=
  Nat.xor_lt_two_pow (n := 8) ha hb

theorem apow_lt (i : Nat) : apow i < 256 :=
  (tbl_log_pow (i % 255) (Nat.mod_lt _ (by decide))).2.1

theorem apow_ne (i : Nat) : apow i ≠ 0 :=
  (tbl_log_pow (i % 255) (Nat.mod_lt _ (by decide))).2.2.1

theorem log_apow (i : Nat) : alpha_log.getD (apow i) 0 = i % 255 :=
  (tbl_log_pow (i % 255) (Nat.mod_lt _ (by decide))).1

theorem log_lt {v : Nat} (hv : v < 256) (h0 : v ≠ 0) : alpha_log.getD v 0 < 255 :=
  (tbl_pow_log v hv h0).1

theorem apow_log {v : Nat} (hv : v < 256) (h0 : v ≠ 0) : apow (alpha_log.getD v 0) = v := by
  unfold apow
  rw [Nat.mod_eq_of_lt (log_lt hv h0)]
  exact (tbl_pow_log v hv h0).2

theorem apow_mod (i : Nat) : apow (i % 255) = apow i := by
  unfold apow
  rw [Nat.mod_mod]

theorem apow_congr {i j : Nat} (h : i % 255 = j % 255) : apow i = apow j := by
  unfold apow
  rw [h]

theorem apow_inj {i j : Nat} (h : apow i = apow j) : i % 255 = j % 255 := by
  have := congrArg (fun v => alpha_log.getD v 0) h
  simpa only [log_apow] using this

theorem apow_add_255 (i : Nat) : apow (i + 255) = apow i :=
  apow_congr (by omega)

theorem power_eq_apow {i : Nat} (hi : i ≤ 255) : alpha_power.getD i 0 = apow i := by
  rcases Nat.lt_or_ge i 255 with h | h
  · unfold apow
    rw [Nat.mod_eq_of_lt h]
  · have : i = 255 := by omega
    subst this
    rfl

theorem power_lt (i : Nat) : alpha_power.getD i 0 < 256 := by
  rcases Nat.lt_or_ge i 256 with h | h
  · rw [power_eq_apow (by omega)]
    exact apow_lt i
  · have hl : alpha_power.length = 256 := by decide!
    rw [List.getD_eq_default _ _ (by omega)]
    decide

theorem xtime_apow (i : Nat) : xtime (apow i) = apow (i + 1) := by
  have h := (tbl_log_pow (i % 255) (Nat.mod_lt _ (by decide))).2.2.2
  have h1 : alpha_power.getD (i % 255 + 1) 0 = apow (i % 255 + 1) :=
    power_eq_apow (by have := Nat.mod_lt i (show 255 > 0 by decide); omega)
  unfold apow at h1 ⊢
  rw [← h, h1]
  congr 1
  omega

/-! ## The field operations on bytes -/

theorem multiply_eq {a b : Nat} (ha : a < 256) (hb : b < 256) (ha0 : a ≠ 0) (hb0 : b ≠ 0) :
    multiply a b = apow (alpha_log.getD a 0 + alpha_log.getD b 0) := by
  have h1 := log_lt ha ha0
  have h2 := log_lt hb hb0
  unfold multiply
  rw [if_neg (by simp [ha0, hb0])]
  simp only
  split
  · rw [power_eq_apow (by omega)]
    exact apow_congr (by omega)
  · rw [power_eq_apow (by omega)]

theorem multiply_zero_left (b : Nat) : multiply 0 b = 0 := by
  simp [multiply]

theorem multiply_zero_right (a : Nat) : multiply a 0 = 0 := by
  simp [multiply]

theorem multiply_lt (a b : Nat) : multiply a b < 256 := by
  unfold multiply
  split
  · decide
  · exact power_lt _

theorem multiply_comm (a b : Nat) : multiply a b = multiply b a := by
  unfold multiply
  by_cases h : a = 0 ∨ b = 0
  · rw [if_pos h, if_pos (Or.symm h)]
  · rw [if_neg h, if_neg (fun h1 => h (Or.symm h1)), Nat.add_comm]

theorem multiply_out_eq {a : Nat} (ha : a < 256) (ha0 : a ≠ 0) {e : Nat} (he : e ≤ 255) :
    multiply_out a e = apow (alpha_log.getD a 0 + e) := by
  have h1 := log_lt ha ha0
  unfold multiply_out
  rw [if_neg ha0]
  simp only
  split
  · rw [power_eq_apow (by omega)]
    exact apow_congr (by omega)
  · rw [power_eq_apow (by omega)]

theorem multiply_out_lt (a e : Nat) : multiply_out a e < 256 := by
  unfold multiply_out
  split
  · decide
  · exact power_lt _

theorem divide_out_eq {a : Nat} (ha : a < 256) (ha0 : a ≠ 0) {e : Nat} (he : e ≤ 255) :
    divide_out a e = apow (alpha_log.getD a 0 + (255 - e)) := by
  have h1 := log_lt ha ha0
  unfold divide_out
  rw [if_neg ha0]
  simp only
  split
  · have : ((alpha_log.getD a 0 : Int) - (e : Int) + 255).toNat
        = alpha_log.getD a 0 + (255 - e) := by omega
    rw [this, power_eq_apow (by omega)]
  · have : ((alpha_log.getD a 0 : Int) - (e : Int)).toNat = alpha_log.getD a 0 - e := by omega
    rw [this, power_eq_apow (by omega)]
    exact apow_congr (by omega)

theorem divide_out_lt (a e : Nat) : divide_out a e < 256 := by
  unfold divide_out
  split
  · decide
  · exact power_lt _

theorem divide_eq {a b : Nat} (ha : a < 256) (hb : b < 256) (ha0 : a ≠ 0) (hb0 : b ≠ 0) :
    divide a b = apow (alpha_log.getD a 0 + (255 - alpha_log.getD b 0)) := by
  have h1 := log_lt ha ha0
  have h2 := log_lt hb hb0
  unfold divide
  rw [if_neg (by simp [ha0, hb0])]
  simp only
  split
  · have : ((alpha_log.getD a 0 : Int) - (alpha_log.getD b 0 : Int) + 255).toNat
        = alpha_log.getD a 0 + (255 - alpha_log.getD b 0) := by omega
    rw [this, power_eq_apow (by omega)]
  · have : ((alpha_log.getD a 0 : Int) - (alpha_log.getD b 0 : Int)).toNat
        = alpha_log.getD a 0 - alpha_log.getD b 0 := by omega
    rw [this, power_eq_apow (by omega)]
    exact apow_congr (by omega)

theorem divide_lt (a b : Nat) : divide a b < 256 := by
  unfold divide
  split
  · decide
  · exact power_lt _

theorem z_of_ab_eq {a b : Nat} (ha : a ≤ 255) (hb : b ≤ 255) :
    z_of_ab a b = apow (a + (255 - b)) := by
  unfold z_of_ab
  simp only
  split
  · have : ((a : Int) - (b : Int) + 255).toNat = a + (255 - b) := by omega
    rw [this, power_eq_apow (by omega)]
  · have : ((a : Int) - (b : Int)).toNat = a - b := by omega
    rw [this, power_eq_apow (by omega)]
    exact apow_congr (by omega)

theorem multiply_apow (i : Nat) {b : Nat} (hb : b < 256) (hb0 : b ≠ 0) :
    multiply (apow i) b = apow (i + alpha_log.getD b 0) := by
  rw [multiply_eq (apow_lt i) hb (apow_ne i) hb0, log_apow]
  exact apow_congr (by omega)

theorem multiply_apow_apow (i j : Nat) : multiply (apow i) (apow j) = apow (i + j) := by
  rw [multiply_apow i (apow_lt j) (apow_ne j), log_apow]
  exact apow_congr (by omega)

theorem multiply_assoc {a b c : Nat} (ha : a < 256) (hb : b < 256) (hc : c < 256) :
    multiply (multiply a b) c = multiply a (multiply b c) := by
  by_cases ha0 : a = 0
  · simp [ha0, multiply_zero_left]
  by_cases hb0 : b = 0
  · simp [hb0, multiply_zero_left, multiply_zero_right]
  by_cases hc0 : c = 0
  · simp [hc0, multiply_zero_right]
  rw [← apow_log ha ha0, ← apow_log hb hb0, ← apow_log hc hc0]
  simp only [multiply_apow_apow, Nat.add_assoc]

theorem xpow_lt (i : Nat) {v : Nat} (hv : v < 256) : xpow i v < 256 := by
  induction i with
  | zero => exact hv
  | succ i ih => exact xtime_lt _ ih

theorem xpow_xor (i : Nat) {a b : Nat} (ha : a < 256) (hb : b < 256) :
    xpow i (a ^^^ b) = xpow i a ^^^ xpow i b := by
  induction i with
  | zero => rfl
  | succ i ih =>
    show xtime (xpow i (a ^^^ b)) = xtime (xpow i a) ^^^ xtime (xpow i b)
    rw [ih, xtime_xor _ _ (xpow_lt i ha) (xpow_lt i hb)]

theorem xpow_zero (i : Nat) : xpow i 0 = 0 := by
  induction i with
  | zero => rfl
  | succ i ih =>
    show xtime (xpow i 0) = 0
    rw [ih]
    rfl

theorem multiply_apow_eq_xpow (i : Nat) {v : Nat} (hv : v < 256) :
    multiply (apow i) v = xpow i v := by
  by_cases hv0 : v = 0
  · rw [hv0, multiply_zero_right, xpow_zero]
  induction i with
  | zero =>
    rw [multiply_apow 0 hv hv0, Nat.zero_add, apow_log hv hv0]
    rfl
  | succ i ih =>
    show _ = xtime (xpow i v)
    rw [← ih, multiply_apow _ hv hv0, multiply_apow _ hv hv0, xtime_apow]
    exact apow_congr (by omega)

theorem multiply_xor {a b c : Nat} (ha : a < 256) (hb : b < 256) (hc : c < 256) :
    multiply a (b ^^^ c) = multiply a b ^^^ multiply a c := by
  by_cases ha0 : a = 0
  · simp [ha0, multiply_zero_left]
  rw [← apow_log ha ha0, multiply_apow_eq_xpow _ (byte_xor_lt hb hc),
    multiply_apow_eq_xpow _ hb, multiply_apow_eq_xpow _ hc, xpow_xor _ hb hc]

theorem multiply_one {a : Nat} (ha : a < 256) : multiply a 1 = a := by
  by_cases ha0 : a = 0
  · simp [ha0, multiply_zero_left]
  have h1 : (1 : Nat) = apow 0 := rfl
  rw [h1, multiply_comm, multiply_apow 0 ha ha0, Nat.zero_add, apow_log ha ha0]

theorem multiply_divide_one {a : Nat} (ha : a < 256) (ha0 : a ≠ 0) :
    multiply a (divide 1 a) = 1 := by
  have h1 := log_lt ha ha0
  have h2 : alpha_log.getD 1 0 = 0 := rfl
  have h3 : apow 255 = 1 := rfl
  rw [divide_eq (by decide) ha (by decide) ha0, h2, Nat.zero_add]
  conv_lhs => rw [← apow_log ha ha0]
  rw [multiply_apow_apow, log_apow, ← h3]
  apply apow_congr
  omega

theorem divide_eq_multiply {a b : Nat} (ha : a < 256) (hb : b < 256) :
    divide a b = multiply a (divide 1 b) := by
  by_cases ha0 : a = 0
  · simp [ha0, multiply_zero_left, divide]
  by_cases hb0 : b = 0
  · simp [hb0, multiply_zero_right, divide]
  rw [divide_eq ha hb ha0 hb0, divide_eq (by decide) hb (by decide) hb0]
  conv_rhs => rw [← apow_log ha ha0]
  rw [multiply_apow_apow]
  apply apow_congr
  have h2 : alpha_log.getD 1 0 = 0 := rfl
  rw [h2]
  omega

/-! ## Bytes as a field -/

/-- A byte, read as an element of the field of 256 elements. -/
structure GF where
  val : Nat
  lt : val < 256
  deriving DecidableEq

namespace GF

/-- The field element of a `UCHAR` value. -/
def of (a : Nat) : GF := ⟨a % 256, Nat.mod_lt _ (by decide)⟩

instance : Zero GF := ⟨of 0⟩
instance : One GF := ⟨of 1⟩
instance : Add GF := ⟨fun a b => ⟨a.val ^^^ b.val, byte_xor_lt a.lt b.lt⟩⟩
instance : Neg GF := ⟨fun a => a⟩
instance : Mul GF := ⟨fun a b => ⟨multiply a.val b.val, multiply_lt _ _⟩⟩
instance : Inv GF := ⟨fun a => ⟨divide 1 a.val, divide_lt _ _⟩⟩

theorem ext {a b : GF} (h : a.val = b.val) : a = b := by
  cases a
  cases b
  simp only at h
  subst h
  rfl

theorem val_zero : (0 : GF).val = 0 := rfl
theorem val_one : (1 : GF).val = 1 := rfl
theorem val_add (a b : GF) : (a + b).val = a.val ^^^ b.val := rfl
theorem val_neg (a : GF) : (-a).val = a.val := rfl
theorem val_mul (a b : GF) : (a * b).val = multiply a.val b.val := rfl
theorem val_inv (a : GF) : (a⁻¹).val = divide 1 a.val := rfl

instance : CommRing GF where
  add := fun a b => a + b
  zero := 0
  one := 1
  mul := fun a b => a * b
  neg := fun a => -a
  add_assoc a b c := by
    apply ext
    exact Nat.xor_assoc _ _ _
  zero_add a := by
    apply ext
    exact Nat.zero_xor _
  add_zero a := by
    apply ext
    exact Nat.xor_zero _
  add_comm a b := by
    apply ext
    exact Nat.xor_comm _ _
  nsmul := nsmulRec
  zsmul := zsmulRec
  neg_add_cancel a := by
    apply ext
    exact Nat.xor_self _
  mul_assoc a b c := by
    apply ext
    exact multiply_assoc a.lt b.lt c.lt
  mul_comm a b := by
    apply ext
    exact multiply_comm _ _
  one_mul a := by
    apply ext
    show multiply 1 a.val = a.val
    rw [multiply_comm]
    exact multiply_one a.lt
  mul_one a := by
    apply ext
    exact multiply_one a.lt
  zero_mul a := by
    apply ext
    show multiply 0 a.val = 0
    exact multiply_zero_left _
  mul_zero a := by
    apply ext
    show multiply a.val 0 = 0
    exact multiply_zero_right _
  left_distrib a b c := by
    apply ext
    exact multiply_xor a.lt b.lt c.lt
  right_distrib a b c := by
    apply ext
    show multiply (a.val ^^^ b.val) c.val = multiply a.val c.val ^^^ multiply b.val c.val
    rw [multiply_comm, multiply_xor c.lt a.lt b.lt, multiply_comm c.val, multiply_comm c.val]

instance : Field GF where
  inv := fun a => a⁻¹
  exists_pair_ne := ⟨0, 1, by decide⟩
  mul_inv_cancel a h := by
    apply ext
    exact multiply_divide_one a.lt (fun h0 => h (ext h0))
  inv_zero := by
    apply ext
    show divide 1 0 = 0
    simp [divide]
  nnqsmul := _
  nnqsmul_def := fun _ _ => rfl
  qsmul := _
  qsmul_def := fun _ _ => rfl

end GF

namespace GF

theorem val_of {a : Nat} (h : a < 256) : (of a).val = a := Nat.mod_eq_of_lt h

theorem of_val (a : GF) : of a.val = a := ext (val_of a.lt)

theorem of_inj {a b : Nat} (ha : a < 256) (hb : b < 256) : of a = of b ↔ a = b := by
  constructor
  · intro h
    have := congrArg GF.val h
    rwa [val_of ha, val_of hb] at this
  · intro h
    rw [h]

theorem of_eq_zero {a : Nat} (ha : a < 256) : of a = 0 ↔ a = 0 :=
  of_inj ha (by decide)

theorem of_xor {a b : Nat} (ha : a < 256) (hb : b < 256) : of (a ^^^ b) = of a + of b := by
  apply ext
  rw [val_add, val_of ha, val_of hb, val_of (byte_xor_lt ha hb)]

theorem of_multiply {a b : Nat} (ha : a < 256) (hb : b < 256) :
    of (multiply a b) = of a * of b := by
  apply ext
  rw [val_mul, val_of ha, val_of hb, val_of (multiply_lt _ _)]

theorem add_self (a : GF) : a + a = 0 := ext (Nat.xor_self _)

theorem two_eq_zero : (2 : GF) = 0 := by
  rw [← one_add_one_eq_two]
  exact add_self 1

theorem neg_eq (a : GF) : -a = a := rfl

theorem sub_eq (a b : GF) : a - b = a + b := by
  rw [sub_eq_add_neg, neg_eq]

theorem add_eq_zero_iff (a b : GF) : a + b = 0 ↔ a = b := by
  rw [← sub_eq, sub_eq_zero]

/-- The generator to the power `i`. -/
def ap (i : Nat) : GF := of (apow i)

theorem ap_val (i : Nat) : (ap i).val = apow i := val_of (apow_lt i)

theorem ap_ne_zero (i : Nat) : ap i ≠ 0 := by
  intro h
  exact apow_ne i ((of_eq_zero (apow_lt i)).1 h)

theorem ap_add (i j : Nat) : ap (i + j) = ap i * ap j := by
  apply ext
  rw [val_mul, ap_val, ap_val, ap_val, multiply_apow_apow]

theorem ap_zero : ap 0 = 1 := rfl

theorem ap_congr {i j : Nat} (h : i % 255 = j % 255) : ap i = ap j := by
  unfold ap
  rw [apow_congr h]

theorem ap_inj {i j : Nat} (h : ap i = ap j) : i % 255 = j % 255 :=
  apow_inj ((of_inj (apow_lt i) (apow_lt j)).1 h)

theorem ap_inj_lt {i j : Nat} (hi : i < 255) (hj : j < 255) (h : ap i = ap j) : i = j := by
  have := ap_inj h
  omega

theorem ap_compl {e : Nat} (he : e ≤ 255) : ap (255 - e) = (ap e)⁻¹ := by
  apply eq_inv_of_mul_eq_one_left
  rw [← ap_add, ← ap_zero]
  exact ap_congr (by omega)

theorem of_power {i : Nat} (hi : i ≤ 255) : of (alpha_power.getD i 0) = ap i := by
  rw [power_eq_apow hi]
  rfl

theorem ap_log {v : Nat} (hv : v < 256) (h0 : v ≠ 0) : ap (alpha_log.getD v 0) = of v := by
  unfold ap
  rw [apow_log hv h0]

theorem log_ap (i : Nat) : alpha_log.getD (ap i).val 0 = i % 255 := by
  rw [ap_val, log_apow]

theorem of_multiply_out {a e : Nat} (ha : a < 256) (he : e ≤ 255) :
    of (multiply_out a e) = of a * ap e := by
  by_cases ha0 : a = 0
  · subst ha0
    have : multiply_out 0 e = 0 := by simp [multiply_out]
    rw [this]
    exact (zero_mul _).symm
  · rw [multiply_out_eq ha ha0 he, ← ap_log ha ha0, ← ap_add]
    rfl

theorem of_divide_out {a e : Nat} (ha : a < 256) (he : e ≤ 255) :
    of (divide_out a e) = of a * (ap e)⁻¹ := by
  by_cases ha0 : a = 0
  · subst ha0
    have : divide_out 0 e = 0 := by simp [divide_out]
    rw [this]
    exact (zero_mul _).symm
  · rw [divide_out_eq ha ha0 he, ← ap_log ha ha0, ← ap_compl he, ← ap_add]
    rfl

theorem of_divide {a b : Nat} (ha : a < 256) (hb : b < 256) :
    of (divide a b) = of a / of b := by
  rw [div_eq_mul_inv, divide_eq_multiply ha hb, of_multiply ha (divide_lt _ _)]
  congr 1
  apply ext
  rw [val_inv, val_of hb, val_of (divide_lt _ _)]

theorem of_z_of_ab {a b : Nat} (ha : a ≤ 255) (hb : b ≤ 255) :
    of (z_of_ab a b) = ap a * (ap b)⁻¹ := by
  rw [z_of_ab_eq ha hb, ← ap_compl hb, ← ap_add]
  rfl

/-- The multiplier of the recurrence, `0xc0`. -/
def gc : GF := of 0xc0

theorem of_mult_c0 {t : Nat} (ht : t < 256) : of (mult_c0.getD t 0) = of t * gc := by
  rw [tbl_mult_c0 t ht, of_multiply ht (by decide)]
  rfl

theorem gc_eq : gc = ap 1 + (ap 1)⁻¹ + 1 := by
  rw [← ap_compl (by decide)]
  decide

end GF

open GF

/-! ## The recurrence and the syndromes -/

/-- Every entry of the buffer is a `UCHAR`. -/
def IsBytes (d : Nat → Nat) : Prop := ∀ i, d i < 256

/-- The registers after the first `m` rows of column `col`. -/
def regs (d : Buf) (col : Nat) : Nat → Nat × Nat × Nat
  | 0 => (0, 0, 0)
  | m + 1 => lfsr_step (d (col + 1024 * m)) (regs d col m)

/-- The byte of row `i` in column `col`, as a field element. -/
def cv (d : Buf) (col i : Nat) : GF := of (d (col + 1024 * i))

/-- First syndrome of the first `n` rows of a column: the bytes weighted by the
inverse powers of the generator. -/
def syn0 (d : Buf) (col n : Nat) : GF := ∑ i ∈ Finset.range n, cv d col i * (ap i)⁻¹

/-- Second syndrome: the plain sum of the bytes. -/
def syn1 (d : Buf) (col n : Nat) : GF := ∑ i ∈ Finset.range n, cv d col i

/-- Third syndrome: the bytes weighted by the powers of the generator. -/
def syn2 (d : Buf) (col n : Nat) : GF := ∑ i ∈ Finset.range n, cv d col i * ap i

/-- The registers read as a polynomial of degree two, evaluated at `β`. -/
def ev (β : GF) (r : Nat × Nat × Nat) : GF := of r.1 * β ^ 2 + of r.2.1 * β + of r.2.2

theorem upd_same (a : Nat → Nat) (i v : Nat) : upd a i v i = v := by
  simp [upd]

theorem upd_other (a : Nat → Nat) {i j : Nat} (v : Nat) (h : j ≠ i) : upd a i v j = a j := by
  simp [upd, h]

theorem IsBytes.upd {a : Nat → Nat} (h : IsBytes a) (i : Nat) {v : Nat} (hv : v < 256) :
    IsBytes (upd a i v) := by
  intro j
  unfold Ftecc.upd
  split
  · exact hv
  · exact h j

theorem mult_c0_lt {t : Nat} (ht : t < 256) : mult_c0.getD t 0 < 256 := by
  rw [tbl_mult_c0 t ht]
  exact multiply_lt _ _

theorem lfsr_step_lt {x : Nat} {r : Nat × Nat × Nat} (hx : x < 256)
    (hr : r.1 < 256 ∧ r.2.1 < 256 ∧ r.2.2 < 256) :
    (lfsr_step x r).1 < 256 ∧ (lfsr_step x r).2.1 < 256 ∧ (lfsr_step x r).2.2 < 256 := by
  have h1 : x ^^^ r.1 < 256 := byte_xor_lt hx hr.1
  have h2 := mult_c0_lt h1
  exact ⟨byte_xor_lt h2 hr.2.1, byte_xor_lt h2 hr.2.2, h1⟩

theorem regs_lt {d : Buf} (hd : IsBytes d) (col m : Nat) :
    (regs d col m).1 < 256 ∧ (regs d col m).2.1 < 256 ∧ (regs d col m).2.2 < 256 := by
  induction m with
  | zero =>
    show (0 : Nat) < 256 ∧ (0 : Nat) < 256 ∧ (0 : Nat) < 256
    decide
  | succ m ih => exact lfsr_step_lt (hd _) ih

theorem regs_congr {d d' : Buf} {col : Nat} (m : Nat)
    (h : ∀ i < m, d (col + 1024 * i) = d' (col + 1024 * i)) : regs d col m = regs d' col m := by
  induction m with
  | zero => rfl
  | succ m ih =>
    show lfsr_step _ _ = lfsr_step _ _
    rw [ih (fun i hi => h i (Nat.lt_succ_of_lt hi)), h m (Nat.lt_succ_self m)]

theorem syndrome_rows_eq (d : Buf) {col : Nat} (hc : col < 1024) (n : Nat) :
    ∀ k m fuel, m + k = n → k ≤ fuel →
      syndrome_rows d (n * 1024) fuel (col + 1024 * m) (regs d col m) = regs d col n := by
  intro k
  induction k with
  | zero =>
    intro m fuel hm _
    have hmn : m = n := by omega
    subst hmn
    cases fuel with
    | zero => rfl
    | succ f =>
      unfold syndrome_rows
      rw [if_neg (by omega)]
  | succ k ih =>
    intro m fuel hm hf
    cases fuel with
    | zero => omega
    | succ f =>
      unfold syndrome_rows
      rw [if_pos (by omega)]
      have := ih (m + 1) f (by omega) (by omega)
      simpa only [QCV_BLKSIZE, regs, Nat.mul_add, Nat.mul_one, Nat.add_assoc] using this

theorem syndrome_rows_regs (d : Buf) {col : Nat} (hc : col < 1024) (n : Nat) :
    syndrome_rows d (n <<< 10) (n <<< 10) col (0, 0, 0) = regs d col n := by
  have h := syndrome_rows_eq d hc n n 0 (n * 1024) (by omega) (by omega)
  have e : n <<< 10 = n * 1024 := by
    rw [Nat.shiftLeft_eq]
  rw [e]
  simpa using h

theorem syn0_succ (d : Buf) (col m : Nat) :
    syn0 d col (m + 1) = syn0 d col m + cv d col m * (ap m)⁻¹ :=
  Finset.sum_range_succ _ _

theorem syn1_succ (d : Buf) (col m : Nat) :
    syn1 d col (m + 1) = syn1 d col m + cv d col m :=
  Finset.sum_range_succ _ _

theorem syn2_succ (d : Buf) (col m : Nat) :
    syn2 d col (m + 1) = syn2 d col m + cv d col m * ap m :=
  Finset.sum_range_succ _ _

theorem root_alpha : (ap 1) ^ 3 + gc * (ap 1) ^ 2 + gc * ap 1 + 1 = 0 := by decide

theorem root_one : (1 : GF) ^ 3 + gc * 1 ^ 2 + gc * 1 + 1 = 0 := by decide

theorem root_inv : ((ap 1)⁻¹) ^ 3 + gc * ((ap 1)⁻¹) ^ 2 + gc * (ap 1)⁻¹ + 1 = 0 := by decide

theorem ev_step {β : GF} (hβ : β ^ 3 + gc * β ^ 2 + gc * β + 1 = 0) {x : Nat}
    {r : Nat × Nat × Nat} (hx : x < 256) (hr : r.1 < 256 ∧ r.2.1 < 256 ∧ r.2.2 < 256) :
    ev β (lfsr_step x r) = β ^ 3 * of x + β * ev β r := by
  have h1 : x ^^^ r.1 < 256 := byte_xor_lt hx hr.1
  have h2 := mult_c0_lt h1
  unfold ev lfsr_step
  simp only
  rw [of_xor h2 hr.2.1, of_xor h2 hr.2.2, of_mult_c0 h1, of_xor hx hr.1]
  linear_combination (of x + of r.1) * hβ - ((of x + of r.1) * β ^ 3) * two_eq_zero

theorem ev_regs_alpha {d : Buf} (hd : IsBytes d) (col m : Nat) :
    ev (ap 1) (regs d col m) = ap (m + 2) * syn0 d col m := by
  induction m with
  | zero =>
    simp [regs, ev, syn0]
    decide
  | succ m ih =>
    show ev (ap 1) (lfsr_step _ _) = _
    rw [ev_step root_alpha (hd _) (regs_lt hd col m), ih, syn0_succ]
    have e1 : ap (m + 1 + 2) = ap 1 * ap (m + 2) := by
      rw [← ap_add]
      exact ap_congr (by omega)
    have e2 : ap (m + 1 + 2) * (ap m)⁻¹ = ap 1 ^ 3 := by
      have : ap (m + 1 + 2) = ap m * ap 1 ^ 3 := by
        rw [pow_succ, pow_succ, pow_one, ← ap_add, ← ap_add, ← ap_add]
      rw [this, mul_comm (ap m), mul_assoc, mul_inv_cancel₀ (ap_ne_zero m), mul_one]
    rw [mul_add, ← mul_assoc (ap (m + 1 + 2)), mul_comm (ap (m + 1 + 2)) (cv d col m),
      mul_assoc (cv d col m), e2, e1]
    unfold cv
    ring

theorem ev_regs_one {d : Buf} (hd : IsBytes d) (col m : Nat) :
    ev 1 (regs d col m) = syn1 d col m := by
  induction m with
  | zero =>
    simp [regs, ev, syn1]
    decide
  | succ m ih =>
    show ev 1 (lfsr_step _ _) = _
    rw [ev_step root_one (hd _) (regs_lt hd col m), ih, syn1_succ]
    unfold cv
    ring

theorem ev_regs_inv {d : Buf} (hd : IsBytes d) (col m : Nat) :
    ev (ap 1)⁻¹ (regs d col m) = (ap (m + 2))⁻¹ * syn2 d col m := by
  induction m with
  | zero =>
    simp [regs, ev, syn2]
    decide
  | succ m ih =>
    show ev (ap 1)⁻¹ (lfsr_step _ _) = _
    rw [ev_step root_inv (hd _) (regs_lt hd col m), ih, syn2_succ]
    have e1 : (ap (m + 1 + 2))⁻¹ = (ap 1)⁻¹ * (ap (m + 2))⁻¹ := by
      rw [← mul_inv, ← ap_add]
      congr 1
      exact ap_congr (by omega)
    have e2 : (ap (m + 1 + 2))⁻¹ * ap m = (ap 1)⁻¹ ^ 3 := by
      have : ap (m + 1 + 2) = ap m * ap 1 ^ 3 := by
        rw [pow_succ, pow_succ, pow_one, ← ap_add, ← ap_add, ← ap_add]
      rw [this, mul_inv, mul_comm, ← mul_assoc, mul_inv_cancel₀ (ap_ne_zero m), one_mul, inv_pow]
    rw [mul_add, ← mul_assoc (ap (m + 1 + 2))⁻¹, mul_comm (ap (m + 1 + 2))⁻¹ (cv d col m),
      mul_assoc (cv d col m), e2, e1]
    unfold cv
    ring

theorem ev_zero (β : GF) : ev β (0, 0, 0) = 0 := by
  have h : of 0 = (0 : GF) := rfl
  simp [ev, h]

theorem alpha_inv_cancel : ap 1 * (ap 1)⁻¹ = 1 := mul_inv_cancel₀ (ap_ne_zero 1)

theorem vandermonde_const :
    (ap 1 + 1) * ((ap 1)⁻¹ + 1) * (ap 1 + (ap 1)⁻¹) ≠ 0 := by decide

theorem alpha_add_one_ne : ap 1 + 1 ≠ 0 := by decide

/-- A polynomial of degree two vanishing at the three roots of the generator
polynomial is zero. -/
theorem ev_eq_zero {a b c : GF} (hα : a * ap 1 ^ 2 + b * ap 1 + c = 0) (h1 : a + b + c = 0)
    (hy : a * (ap 1)⁻¹ ^ 2 + b * (ap 1)⁻¹ + c = 0) : a = 0 ∧ b = 0 ∧ c = 0 := by
  have ha : a * ((ap 1 + 1) * ((ap 1)⁻¹ + 1) * (ap 1 + (ap 1)⁻¹)) = 0 := by
    linear_combination ((ap 1)⁻¹ + 1) * hα + (ap 1 + 1) * hy + (ap 1 + (ap 1)⁻¹) * h1 +
      (a * ap 1 * (ap 1)⁻¹ + (-1) * ap 1 * b + (-1) * ap 1 * b * (ap 1)⁻¹ + (-1) * ap 1 * c +
        (-1) * b * (ap 1)⁻¹ + (-1) * c + (-1) * c * (ap 1)⁻¹) * two_eq_zero
  have ha0 : a = 0 := by
    rcases mul_eq_zero.1 ha with h | h
    · exact h
    · exact absurd h vandermonde_const
  subst ha0
  have hb : b * (ap 1 + 1) = 0 := by
    linear_combination hα + h1 - c * two_eq_zero
  have hb0 : b = 0 := by
    rcases mul_eq_zero.1 hb with h | h
    · exact h
    · exact absurd h alpha_add_one_ne
  subst hb0
  refine ⟨rfl, rfl, ?_⟩
  simpa using h1

theorem regs_eq_zero_iff {d : Buf} (hd : IsBytes d) (col n : Nat) :
    regs d col n = (0, 0, 0) ↔ syn0 d col n = 0 ∧ syn1 d col n = 0 ∧ syn2 d col n = 0 := by
  have e0 := ev_regs_alpha hd col n
  have e1 := ev_regs_one hd col n
  have e2 := ev_regs_inv hd col n
  constructor
  · intro h
    rw [h, ev_zero] at e0 e1 e2
    refine ⟨?_, e1.symm, ?_⟩
    · rcases mul_eq_zero.1 e0.symm with h | h
      · exact absurd h (ap_ne_zero _)
      · exact h
    · rcases mul_eq_zero.1 e2.symm with h | h
      · exact absurd h (inv_ne_zero (ap_ne_zero _))
      · exact h
  · rintro ⟨h0, h1, h2⟩
    rw [h0, mul_zero] at e0
    rw [h1] at e1
    rw [h2, mul_zero] at e2
    have hr := regs_lt hd col n
    obtain ⟨ha, hb, hc⟩ := ev_eq_zero e0 (by simpa [ev] using e1) e2
    have a0 := (of_eq_zero hr.1).1 ha
    have b0 := (of_eq_zero hr.2.1).1 hb
    have c0 := (of_eq_zero hr.2.2).1 hc
    exact Prod.ext a0 (Prod.ext b0 c0)

/-- What `compute_syndromes` returns: 1 and `ss` untouched when the three
syndromes of the column vanish, 0 and the three syndromes in `ss` otherwise. -/
theorem compute_syndromes_spec {d : Buf} (hd : IsBytes d) {n col : Nat} (hn : n ≤ 255)
    (hc : col < 1024) (ss : Nat → Nat) :
    (syn0 d col n = 0 ∧ syn1 d col n = 0 ∧ syn2 d col n = 0 →
      compute_syndromes d n col ss = (1, ss)) ∧
    (¬ (syn0 d col n = 0 ∧ syn1 d col n = 0 ∧ syn2 d col n = 0) →
      (compute_syndromes d n col ss).1 = 0 ∧
      of ((compute_syndromes d n col ss).2 0) = syn0 d col n ∧
      of ((compute_syndromes d n col ss).2 1) = syn1 d col n ∧
      of ((compute_syndromes d n col ss).2 2) = syn2 d col n ∧
      (compute_syndromes d n col ss).2 0 < 256 ∧
      (compute_syndromes d n col ss).2 1 < 256 ∧
      (compute_syndromes d n col ss).2 2 < 256 ∧
      ∀ j, 3 ≤ j → (compute_syndromes d n col ss).2 j = ss j) := by
  have hr := regs_lt hd col n
  have hz := regs_eq_zero_iff hd col n
  constructor
  · intro h
    have h0 := hz.2 h
    unfold compute_syndromes
    simp only [syndrome_rows_regs d hc n, h0]
    simp
  · intro h
    have hne : ¬ regs d col n = (0, 0, 0) := fun h0 => h (hz.1 h0)
    have hcond : (regs d col n).1 ≠ 0 ∨ (regs d col n).2.1 ≠ 0 ∨ (regs d col n).2.2 ≠ 0 := by
      by_contra hcon
      push_neg at hcon
      exact hne (Prod.ext hcon.1 (Prod.ext hcon.2.1 hcon.2.2))
    have e0 := ev_regs_alpha hd col n
    have e1 := ev_regs_one hd col n
    have e2 := ev_regs_inv hd col n
    unfold ev at e0 e1 e2
    have hmod : n % 256 = n := Nat.mod_eq_of_lt (by omega)
    have hy := alpha_inv_cancel
    have hn2 : ap (n + 2) = ap n * ap 1 ^ 2 := by
      rw [pow_succ, pow_one, ← ap_add, ← ap_add]
    have hnn : ap n * (ap n)⁻¹ = 1 := mul_inv_cancel₀ (ap_ne_zero n)
    have hnn2 : ap (n + 2) * (ap (n + 2))⁻¹ = 1 := mul_inv_cancel₀ (ap_ne_zero _)
    unfold compute_syndromes
    simp only [syndrome_rows_regs d hc n, if_pos hcond, hmod]
    generalize regs d col n = r at hr e0 e1 e2
    obtain ⟨r0, r1, r2⟩ := r
    simp only at hr e0 e1 e2 ⊢
    have b1 : r1 ^^^ divide_out r2 1 < 256 := byte_xor_lt hr.2.1 (divide_out_lt _ _)
    have b2 : r0 ^^^ divide_out (r1 ^^^ divide_out r2 1) 1 < 256 :=
      byte_xor_lt hr.1 (divide_out_lt _ _)
    have c1 : r1 ^^^ multiply_out r2 1 < 256 := byte_xor_lt hr.2.1 (multiply_out_lt _ _)
    have c2 : r0 ^^^ multiply_out (r1 ^^^ multiply_out r2 1) 1 < 256 :=
      byte_xor_lt hr.1 (multiply_out_lt _ _)
    refine ⟨trivial, ?_, ?_, ?_, ?_, ?_, ?_, ?_⟩
    · simp only [upd, if_true, if_false, Nat.zero_ne_one, OfNat.ofNat_ne_zero,
        (by decide : (0 : Nat) ≠ 2), (by decide : (0 : Nat) ≠ 1)]
      rw [of_divide_out b2 hn, of_xor hr.1 (divide_out_lt _ _),
        of_divide_out b1 (by decide), of_xor hr.2.1 (divide_out_lt _ _),
        of_divide_out hr.2.2 (by decide)]
      have key : of r0 + (of r1 + of r2 * (ap 1)⁻¹) * (ap 1)⁻¹
          = (ap 1)⁻¹ ^ 2 * (of r0 * ap 1 ^ 2 + of r1 * ap 1 + of r2) := by
        linear_combination
          (-(of r0 * (1 + (ap 1)⁻¹ * ap 1) + of r1 * (ap 1)⁻¹)) * hy
      rw [key, e0, hn2]
      linear_combination
        (syn0 d col n * ((ap 1)⁻¹ * ap 1 + 1) * (ap n * (ap n)⁻¹)) * hy + syn0 d col n * hnn
    · simp only [upd, if_true, if_false, (by decide : (1 : Nat) ≠ 2)]
      rw [of_xor (byte_xor_lt hr.1 hr.2.1) hr.2.2, of_xor hr.1 hr.2.1, ← e1]
      ring
    · simp only [upd, if_true]
      rw [of_multiply_out c2 hn, of_xor hr.1 (multiply_out_lt _ _),
        of_multiply_out c1 (by decide), of_xor hr.2.1 (multiply_out_lt _ _),
        of_multiply_out hr.2.2 (by decide)]
      have key : of r0 + (of r1 + of r2 * ap 1) * ap 1
          = ap 1 ^ 2 * (of r0 * (ap 1)⁻¹ ^ 2 + of r1 * (ap 1)⁻¹ + of r2) := by
        linear_combination
          (-(of r0 * (1 + (ap 1)⁻¹ * ap 1) + of r1 * ap 1)) * hy
      rw [key, e2]
      linear_combination (syn2 d col n) * hnn2 - (syn2 d col n * (ap (n + 2))⁻¹) * hn2
    · simp only [upd, if_true, if_false, (by decide : (0 : Nat) ≠ 2), (by decide : (0 : Nat) ≠ 1)]
      exact divide_out_lt _ _
    · simp only [upd, if_true, if_false, (by decide : (1 : Nat) ≠ 2)]
      exact byte_xor_lt (byte_xor_lt hr.1 hr.2.1) hr.2.2
    · simp only [upd, if_true]
      exact multiply_out_lt _ _
    · intro j hj
      simp only [upd]
      rw [if_neg (by omega), if_neg (by omega), if_neg (by omega)]

/-! ## The encoder -/

/-- The segment `set_parity` leaves behind: the three blocks `max`, `max + 1`,
`max + 2` hold the registers of the recurrence run over the `max` data rows of
each column. -/
def parity_spec (d : Buf) (max : Nat) : Buf := fun i =>
  if i / 1024 = max then (regs d (i % 1024) max).1
  else if i / 1024 = max + 1 then (regs d (i % 1024) max).2.1
  else if i / 1024 = max + 2 then (regs d (i % 1024) max).2.2
  else d i

theorem parity_rows_eq (d : Buf) (col : Nat) :
    ∀ k m, parity_rows d k (col + 1024 * m) (regs d col m)
      = (col + 1024 * (m + k), regs d col (m + k)) := by
  intro k
  induction k with
  | zero =>
    intro m
    rfl
  | succ k ih =>
    intro m
    unfold parity_rows
    have := ih (m + 1)
    simp only [QCV_BLKSIZE]
    have e1 : col + 1024 * m + 1024 = col + 1024 * (m + 1) := by omega
    have e2 : m + 1 + k = m + (k + 1) := by omega
    rw [e1, ← e2]
    exact this

theorem set_parity_cols_eq (d0 : Buf) (max : Nat) :
    ∀ k off d, off + k = 1024 →
      (∀ i, d i = if i % 1024 < off then parity_spec d0 max i else d0 i) →
      set_parity_cols max k off d = parity_spec d0 max := by
  intro k
  induction k with
  | zero =>
    intro off d hoff hd
    funext i
    have := hd i
    rw [if_pos (by omega)] at this
    exact this
  | succ k ih =>
    intro off d hoff hd
    unfold set_parity_cols
    have hp : parity_rows d max off (0, 0, 0) = (off + 1024 * max, regs d off max) := by
      have := parity_rows_eq d off max 0
      simpa only [Nat.mul_zero, Nat.add_zero, Nat.zero_add, regs] using this
    have hregs : regs d off max = regs d0 off max := by
      apply regs_congr
      intro i _
      rw [hd]
      rw [if_neg (by omega)]
    show set_parity_cols max k (off + 1) _ = _
    apply ih (off + 1) _ (by omega)
    intro i
    simp only [hp, hregs, QCV_BLKSIZE, upd]
    have hi := hd i
    by_cases h2 : i = off + 1024 * max + 1024 + 1024
    · rw [if_pos h2, if_pos (by omega)]
      subst h2
      unfold parity_spec
      rw [if_neg (by omega), if_neg (by omega), if_pos (by omega)]
      have e : (off + 1024 * max + 1024 + 1024) % 1024 = off := by omega
      rw [e]
    rw [if_neg h2]
    by_cases h1 : i = off + 1024 * max + 1024
    · rw [if_pos h1, if_pos (by omega)]
      subst h1
      unfold parity_spec
      rw [if_neg (by omega), if_pos (by omega)]
      have e : (off + 1024 * max + 1024) % 1024 = off := by omega
      rw [e]
    rw [if_neg h1]
    by_cases h0 : i = off + 1024 * max
    · rw [if_pos h0, if_pos (by omega)]
      subst h0
      unfold parity_spec
      rw [if_pos (by omega)]
      have e : (off + 1024 * max) % 1024 = off := by omega
      rw [e]
    rw [if_neg h0, hi]
    by_cases hlt : i % 1024 < off
    · rw [if_pos hlt, if_pos (by omega)]
    · rw [if_neg hlt]
      by_cases heq : i % 1024 = off
      · rw [if_pos (by omega)]
        unfold parity_spec
        rw [if_neg (by omega), if_neg (by omega), if_neg (by omega)]
      · rw [if_neg (by omega)]

theorem set_parity_eq (d : Buf) (badmap : Nat) :
    set_parity d badmap = (0, parity_spec d (sect_count badmap - 3)) := by
  unfold set_parity
  simp only [QCV_BLKSIZE]
  rw [set_parity_cols_eq d _ 1024 0 d (by omega) (fun i => by rw [if_neg (by omega)])]

theorem parity_spec_bytes {d : Buf} (hd : IsBytes d) (max : Nat) :
    IsBytes (parity_spec d max) := by
  intro i
  unfold parity_spec
  have hr := regs_lt hd (i % 1024) max
  split
  · exact hr.1
  · split
    · exact hr.2.1
    · split
      · exact hr.2.2
      · exact hd i

theorem mult_c0_zero : mult_c0.getD 0 0 = 0 :=
  (tbl_mult_c0 0 (by decide)).trans (multiply_zero_left _)

/-- Every column of an encoded segment runs the recurrence to zero. -/
theorem regs_parity_spec (d : Buf) (max : Nat) {col : Nat} (hc : col < 1024) :
    regs (parity_spec d max) col (max + 3) = (0, 0, 0) := by
  have h0 : regs (parity_spec d max) col max = regs d col max := by
    apply regs_congr
    intro i hi
    unfold parity_spec
    rw [if_neg (by omega), if_neg (by omega), if_neg (by omega)]
  have hm : ∀ j, (col + 1024 * (max + j)) % 1024 = col := by
    intro j
    omega
  have hm0 : (col + 1024 * max) % 1024 = col := by omega
  have b0 : parity_spec d max (col + 1024 * max) = (regs d col max).1 := by
    unfold parity_spec
    rw [if_pos (by omega), hm0]
  have b1 : parity_spec d max (col + 1024 * (max + 1)) = (regs d col max).2.1 := by
    unfold parity_spec
    rw [if_neg (by omega), if_pos (by omega), hm]
  have b2 : parity_spec d max (col + 1024 * (max + 2)) = (regs d col max).2.2 := by
    unfold parity_spec
    rw [if_neg (by omega), if_neg (by omega), if_pos (by omega), hm]
  show lfsr_step _ (lfsr_step _ (lfsr_step _ (regs (parity_spec d max) col max))) = _
  rw [h0, b0, b1, b2]
  generalize regs d col max = r
  obtain ⟨r0, r1, r2⟩ := r
  simp only [lfsr_step, Nat.xor_self, mult_c0_zero, Nat.zero_xor, Nat.xor_zero]

theorem sect_count_loop_le (badmap : Nat) : ∀ k i amt, sect_count_loop badmap k i amt ≤ amt := by
  intro k
  induction k with
  | zero =>
    intro i amt
    exact Nat.le_refl _
  | succ k ih =>
    intro i amt
    unfold sect_count_loop
    refine Nat.le_trans (ih _ _) ?_
    split
    · exact Nat.sub_le _ _
    · exact Nat.le_refl _

theorem sect_count_le (badmap : Nat) : sect_count badmap ≤ 32 :=
  sect_count_loop_le badmap _ _ _

theorem sect_count_zero : sect_count 0 = 32 := by decide!

theorem regs_parity_spec_data (d : Buf) (max : Nat) {col : Nat} (hc : col < 1024) :
    regs (parity_spec d max) col max = regs d col max := by
  apply regs_congr
  intro i hi
  unfold parity_spec
  rw [if_neg (by omega), if_neg (by omega), if_neg (by omega)]

theorem parity_spec_idem (d : Buf) (max : Nat) :
    parity_spec (parity_spec d max) max = parity_spec d max := by
  funext i
  show (if i / 1024 = max then (regs (parity_spec d max) (i % 1024) max).1
    else if i / 1024 = max + 1 then (regs (parity_spec d max) (i % 1024) max).2.1
    else if i / 1024 = max + 2 then (regs (parity_spec d max) (i % 1024) max).2.2
    else parity_spec d max i) = parity_spec d max i
  rw [regs_parity_spec_data d max (Nat.mod_lt i (by decide))]
  unfold parity_spec
  by_cases h0 : i / 1024 = max
  · rw [if_pos h0, if_pos h0]
  rw [if_neg h0, if_neg h0]
  by_cases h1 : i / 1024 = max + 1
  · rw [if_pos h1, if_pos h1]
  rw [if_neg h1, if_neg h1]
  by_cases h2 : i / 1024 = max + 2
  · rw [if_pos h2, if_pos h2]
  rw [if_neg h2, if_neg h2]

/-- C7. Encoder frame: with `n = sect_count badmap >= 3`, `set_parity` returns 0
and changes bytes of the blocks `n - 3`, `n - 2`, `n - 1` only; in particular
every byte of the data blocks `0 .. n - 4` is left as it was. -/
theorem set_parity_frame (data : Buf) (badmap : Nat) (hn : 3 ≤ sect_count badmap) :
    (set_parity data badmap).1 = 0 ∧
    (∀ i, i / 1024 ≠ sect_count badmap - 3 → i / 1024 ≠ sect_count badmap - 2 →
      i / 1024 ≠ sect_count badmap - 1 → (set_parity data badmap).2 i = data i) ∧
    (∀ i, i < (sect_count badmap - 3) * 1024 → (set_parity data badmap).2 i = data i) := by
  rw [set_parity_eq]
  have key : ∀ i, i / 1024 ≠ sect_count badmap - 3 → i / 1024 ≠ sect_count badmap - 2 →
      i / 1024 ≠ sect_count badmap - 1 →
      parity_spec data (sect_count badmap - 3) i = data i := by
    intro i h0 h1 h2
    unfold parity_spec
    rw [if_neg h0, if_neg (by omega), if_neg (by omega)]
  refine ⟨rfl, key, ?_⟩
  intro i hi
  apply key i <;> omega

theorem set_parity_frame_witness :
    (set_parity (fun _ => 0) 0).1 = 0 ∧
    (∀ i, i / 1024 ≠ sect_count 0 - 3 → i / 1024 ≠ sect_count 0 - 2 →
      i / 1024 ≠ sect_count 0 - 1 → (set_parity (fun _ => 0) 0).2 i = (fun _ => 0) i) ∧
    (∀ i, i < (sect_count 0 - 3) * 1024 → (set_parity (fun _ => 0) 0).2 i = (fun _ => 0) i) :=
  set_parity_frame (fun _ => 0) 0 (by rw [sect_count_zero]; decide)

/-- C8. Idempotence of encoding: with `sect_count badmap >= 3`, applying
`set_parity` twice gives the same segment as applying it once, and two segments
that agree on all data blocks have the same parity blocks after `set_parity`. -/
theorem set_parity_idempotent (data : Buf) (badmap : Nat) (hn : 3 ≤ sect_count badmap) :
    set_parity (set_parity data badmap).2 badmap = set_parity data badmap ∧
    ∀ data' : Buf, (∀ i, i < (sect_count badmap - 3) * 1024 → data i = data' i) →
      ∀ i, (sect_count badmap - 3) * 1024 ≤ i → i < sect_count badmap * 1024 →
        (set_parity data badmap).2 i = (set_parity data' badmap).2 i := by
  constructor
  · rw [set_parity_eq, set_parity_eq]
    show (0, parity_spec (parity_spec data _) _) = _
    rw [parity_spec_idem]
  · intro data' hagree i hlo hhi
    rw [set_parity_eq, set_parity_eq]
    show parity_spec data _ i = parity_spec data' _ i
    have hr : regs data (i % 1024) (sect_count badmap - 3)
        = regs data' (i % 1024) (sect_count badmap - 3) := by
      apply regs_congr
      intro r hr
      apply hagree
      have := Nat.mod_lt i (show 1024 > 0 by decide)
      omega
    unfold parity_spec
    rw [hr]
    by_cases h0 : i / 1024 = sect_count badmap - 3
    · rw [if_pos h0, if_pos h0]
    rw [if_neg h0, if_neg h0]
    by_cases h1 : i / 1024 = sect_count badmap - 3 + 1
    · rw [if_pos h1, if_pos h1]
    rw [if_neg h1, if_neg h1]
    by_cases h2 : i / 1024 = sect_count badmap - 3 + 2
    · rw [if_pos h2, if_pos h2]
    omega

theorem set_parity_idempotent_witness :
    set_parity (set_parity (fun _ => 0) 0).2 0 = set_parity (fun _ => 0) 0 ∧
    ∀ data' : Buf, (∀ i, i < (sect_count 0 - 3) * 1024 → (fun _ => 0) i = data' i) →
      ∀ i, (sect_count 0 - 3) * 1024 ≤ i → i < sect_count 0 * 1024 →
        (set_parity (fun _ => 0) 0).2 i = (set_parity data' 0).2 i :=
  set_parity_idempotent (fun _ => 0) 0 (by rw [sect_count_zero]; decide)

/-- C9. `divide` is the inverse of the commutative `multiply`: for all bytes,
`multiply a b = multiply b a` and `multiply a 0 = 0`; `multiply a (divide 1 a) = 1`
for nonzero `a`; `divide (multiply a b) b = a` for nonzero `b`. -/
theorem multiply_divide_inverse (a b : Nat) (ha : a < 256) (hb : b < 256) :
    multiply a b = multiply b a ∧ multiply a 0 = 0 ∧
    (a ≠ 0 → multiply a (divide 1 a) = 1) ∧
    (b ≠ 0 → divide (multiply a b) b = a) := by
  refine ⟨multiply_comm a b, multiply_zero_right a, multiply_divide_one ha, ?_⟩
  intro hb0
  have hb0' : of b ≠ 0 := fun h => hb0 ((of_eq_zero hb).1 h)
  apply (of_inj (divide_lt _ _) ha).1
  rw [of_divide (multiply_lt _ _) hb, of_multiply ha hb]
  exact mul_div_cancel_right₀ _ hb0'

theorem multiply_divide_inverse_witness :
    multiply 3 7 = multiply 7 3 ∧ multiply 3 0 = 0 ∧
    (3 ≠ 0 → multiply 3 (divide 1 3) = 1) ∧
    (7 ≠ 0 → divide (multiply 3 7) 7 = 3) :=
  multiply_divide_inverse 3 7 (by decide) (by decide)

/-- C10. The two field tables are mutual inverses: `alpha_power[alpha_log[v]] = v`
for `v` in `1..255`, `alpha_log[alpha_power[i]] = i` for `i` in `0..254`, and so
every nonzero byte occurs exactly once among the first 255 entries of
`alpha_power`. -/
theorem tables_mutual_inverse :
    (∀ v, 1 ≤ v → v ≤ 255 → alpha_power.getD (alpha_log.getD v 0) 0 = v) ∧
    (∀ i, i ≤ 254 → alpha_log.getD (alpha_power.getD i 0) 0 = i) ∧
    (∀ v, 1 ≤ v → v ≤ 255 → ∃ i, i ≤ 254 ∧ alpha_power.getD i 0 = v ∧
      ∀ j, j ≤ 254 → alpha_power.getD j 0 = v → j = i) := by
  refine ⟨?_, ?_, ?_⟩
  · intro v h1 h2
    exact (tbl_pow_log v (by omega) (by omega)).2
  · intro i hi
    exact (tbl_log_pow i (by omega)).1
  · intro v h1 h2
    have h := tbl_pow_log v (by omega) (by omega)
    refine ⟨alpha_log.getD v 0, by omega, h.2, ?_⟩
    intro j hj hjv
    rw [← hjv]
    exact ((tbl_log_pow j (by omega)).1).symm

theorem tables_mutual_inverse_witness :
    alpha_power.getD (alpha_log.getD 7 0) 0 = 7 ∧
    alpha_log.getD (alpha_power.getD 9 0) 0 = 9 ∧
    ∃ i, i ≤ 254 ∧ alpha_power.getD i 0 = 7 ∧
      ∀ j, j ≤ 254 → alpha_power.getD j 0 = 7 → j = i :=
  ⟨tables_mutual_inverse.1 7 (by decide) (by decide),
   tables_mutual_inverse.2.1 9 (by decide),
   tables_mutual_inverse.2.2 7 (by decide) (by decide)⟩

/-! ## The scan of the CRC-error bitmap -/

theorem and_one_shiftLeft_ne_zero (m i : Nat) : m &&& (1 <<< i) ≠ 0 ↔ m.testBit i = true := by
  rw [Nat.one_shiftLeft]
  constructor
  · intro h
    by_contra hb
    apply h
    apply Nat.eq_of_testBit_eq
    intro j
    rw [Nat.testBit_and, Nat.testBit_two_pow, Nat.zero_testBit]
    by_cases hij : i = j
    · subst hij
      simp [hb]
    · simp [hij]
  · intro hb h
    have := congrArg (fun x => x.testBit i) h
    simp [Nat.testBit_and, Nat.testBit_two_pow, hb] at this

/-- The flagged blocks among `i, i + 1, ..., i + k - 1`, in increasing order. -/
def flagged (crcmap : Nat) (i k : Nat) : List Nat :=
  (List.range' i k).filter (fun j => crcmap.testBit j)

theorem flagged_zero (crcmap i : Nat) : flagged crcmap i 0 = [] := rfl

theorem flagged_succ_pos {crcmap i : Nat} (k : Nat) (h : crcmap.testBit i = true) :
    flagged crcmap i (k + 1) = i :: flagged crcmap (i + 1) k := by
  unfold flagged
  rw [List.range'_succ, List.filter_cons_of_pos (by simpa using h)]

theorem flagged_succ_neg {crcmap i : Nat} (k : Nat) (h : ¬ crcmap.testBit i = true) :
    flagged crcmap i (k + 1) = flagged crcmap (i + 1) k := by
  unfold flagged
  rw [List.range'_succ, List.filter_cons_of_neg (by simpa using h)]

/-- What the scan loop computes: the flagged blocks are appended to `eblk` in
increasing order, and the scan gives up exactly when there are more than 3. -/
theorem crc_loop_eq (crcmap : Nat) : ∀ k i c (e : Nat → Nat), c ≤ 3 →
    crc_loop crcmap k i c e =
      if c + (flagged crcmap i k).length ≤ 3 then
        some (c + (flagged crcmap i k).length,
          fun j => if c ≤ j ∧ j < c + (flagged crcmap i k).length
            then (flagged crcmap i k).getD (j - c) 0 else e j)
      else none := by
  intro k
  induction k with
  | zero =>
    intro i c e hc
    rw [flagged_zero]
    simp only [crc_loop, List.length_nil, Nat.add_zero]
    rw [if_pos hc]
    congr 2
    funext j
    rw [if_neg (by omega)]
  | succ k ih =>
    intro i c e hc
    unfold crc_loop
    by_cases hb : crcmap.testBit i = true
    · rw [if_pos ((and_one_shiftLeft_ne_zero _ _).2 hb), flagged_succ_pos k hb]
      simp only [List.length_cons]
      by_cases h3 : c = 3
      · rw [if_pos h3, if_neg (by omega)]
      · rw [if_neg h3, ih (i + 1) (c + 1) _ (by omega)]
        by_cases hlen : c + 1 + (flagged crcmap (i + 1) k).length ≤ 3
        · rw [if_pos hlen, if_pos (by omega)]
          congr 2
          · omega
          · funext j
            by_cases hj : j = c
            · subst hj
              rw [if_neg (by omega), if_pos (by omega), upd_same, Nat.sub_self]
              rfl
            · by_cases hr : c + 1 ≤ j ∧ j < c + 1 + (flagged crcmap (i + 1) k).length
              · rw [if_pos hr, if_pos (by omega)]
                have : j - c = (j - (c + 1)) + 1 := by omega
                rw [this]
                rfl
              · rw [if_neg hr, if_neg (by omega), upd_other _ _ hj]
        · rw [if_neg hlen, if_neg (by omega)]
    · rw [if_neg (fun h => hb ((and_one_shiftLeft_ne_zero _ _).1 h)), flagged_succ_neg k hb]
      exact ih (i + 1) c e hc

theorem flagged_of_zero (i k : Nat) : flagged 0 i k = [] := by
  unfold flagged
  rw [List.filter_eq_nil_iff]
  intro a _
  simp

/-- The scan as `check_parity` performs it, guard `if (crcmap)` included. -/
theorem crc_scan_eq (crcmap n : Nat) :
    (if crcmap ≠ 0 then crc_loop crcmap n 0 0 (fun _ => 0) else some (0, fun _ => 0)) =
      if (flagged crcmap 0 n).length ≤ 3 then
        some ((flagged crcmap 0 n).length,
          fun j => if j < (flagged crcmap 0 n).length then (flagged crcmap 0 n).getD j 0 else 0)
      else none := by
  by_cases h0 : crcmap = 0
  · subst h0
    rw [if_neg (by simp), flagged_of_zero]
    simp
  · rw [if_pos h0, crc_loop_eq crcmap n 0 0 _ (by omega)]
    simp only [Nat.zero_add, Nat.zero_le, true_and, Nat.sub_zero]

/-- C5. Too many known errors: when more than 3 of the low `n = sect_count badmap`
bits of `crcmap` are set, `check_parity` returns 1 and leaves the buffer as it
was. -/
theorem check_parity_too_many_flagged (data : Buf) (badmap crcmap : Nat)
    (h : 3 < (List.range (sect_count badmap)).countP (fun i => crcmap.testBit i)) :
    check_parity data badmap crcmap = (1, data) := by
  have hlen : 3 < (flagged crcmap 0 (sect_count badmap)).length := by
    unfold flagged
    rw [← List.range_eq_range', ← List.countP_eq_length_filter]
    exact h
  unfold check_parity
  simp only
  rw [crc_scan_eq, if_neg (by omega)]

theorem check_parity_too_many_flagged_witness :
    check_parity (fun _ => 0) 0 15 = (1, fun _ => 0) :=
  check_parity_too_many_flagged (fun _ => 0) 0 15 (by rw [sect_count_zero]; decide)

/-! ## Syndromes and corrections -/

theorem shl_or_eq (p : Nat) {col : Nat} (hc : col < 1024) : (p <<< 10) ||| col = col + 1024 * p := by
  rw [Nat.shiftLeft_eq, Nat.mul_comm p, ← Nat.mul_add_lt_is_or (i := 10) hc p]
  omega

theorem sum_cv_upd (d : Buf) (col p n v : Nat) (w : Nat → GF) (hp : p < n) :
    ∑ i ∈ Finset.range n, cv (upd d (col + 1024 * p) v) col i * w i
      = ∑ i ∈ Finset.range n, cv d col i * w i + (of v + cv d col p) * w p := by
  have hcv : ∀ i, cv (upd d (col + 1024 * p) v) col i
      = cv d col i + (if i = p then of v + cv d col p else 0) := by
    intro i
    unfold cv
    by_cases h : i = p
    · subst h
      rw [upd_same, if_pos rfl]
      linear_combination (-(of (d (col + 1024 * i)))) * two_eq_zero
    · rw [upd_other _ _ (by omega), if_neg h, add_zero]
  have hterm : ∀ i ∈ Finset.range n, cv (upd d (col + 1024 * p) v) col i * w i
      = cv d col i * w i + (if i = p then (of v + cv d col p) * w p else 0) := by
    intro i _
    rw [hcv]
    by_cases h : i = p
    · rw [if_pos h, if_pos h, add_mul, h]
    · rw [if_neg h, if_neg h, add_zero, add_zero]
  rw [Finset.sum_congr rfl hterm, Finset.sum_add_distrib]
  congr 1
  rw [Finset.sum_eq_single p]
  · rw [if_pos rfl]
  · intro b _ hb
    rw [if_neg hb]
  · intro h
    exact absurd (Finset.mem_range.2 hp) h

theorem syn0_upd (d : Buf) (col p n v : Nat) (hp : p < n) :
    syn0 (upd d (col + 1024 * p) v) col n
      = syn0 d col n + (of v + cv d col p) * (ap p)⁻¹ :=
  sum_cv_upd d col p n v (fun i => (ap i)⁻¹) hp

theorem syn1_upd (d : Buf) (col p n v : Nat) (hp : p < n) :
    syn1 (upd d (col + 1024 * p) v) col n = syn1 d col n + (of v + cv d col p) := by
  have := sum_cv_upd d col p n v (fun _ => 1) hp
  simpa only [mul_one] using this

theorem syn2_upd (d : Buf) (col p n v : Nat) (hp : p < n) :
    syn2 (upd d (col + 1024 * p) v) col n = syn2 d col n + (of v + cv d col p) * ap p :=
  sum_cv_upd d col p n v (fun i => ap i) hp

/-- The array `ss` holds the three syndromes of column `col` of `data`. -/
def SynOK (n col : Nat) (data : Buf) (ss : Nat → Nat) : Prop :=
  ss 0 < 256 ∧ ss 1 < 256 ∧ ss 2 < 256 ∧
  of (ss 0) = syn0 data col n ∧ of (ss 1) = syn1 data col n ∧ of (ss 2) = syn2 data col n

/-- The correction loop keeps `ss` equal to the syndromes of the segment it is
correcting. -/
theorem correct_loop_synOK {n col : Nat} (hn : n ≤ 255) (hc : col < 1024) (eblk es : Nat → Nat) :
    ∀ k i data ss, (∀ j, i ≤ j → j < i + k → eblk j < n) →
      (∀ j, i ≤ j → j < i + k → es j < 256) → IsBytes data → SynOK n col data ss →
      IsBytes (correct_loop col eblk es k i data ss).1 ∧
      SynOK n col (correct_loop col eblk es k i data ss).1
        (correct_loop col eblk es k i data ss).2 := by
  intro k
  induction k with
  | zero =>
    intro i data ss _ _ hd hs
    exact ⟨hd, hs⟩
  | succ k ih =>
    intro i data ss hpos hes hd hs
    unfold correct_loop
    simp only
    have hp := hpos i (Nat.le_refl _) (by omega)
    have he := hes i (Nat.le_refl _) (by omega)
    have hidx := shl_or_eq (eblk i) hc
    have hmod : eblk i % 256 = eblk i := Nat.mod_eq_of_lt (by omega)
    obtain ⟨s0, s1, s2, e0, e1, e2⟩ := hs
    have hx : data ((eblk i <<< 10) ||| col) ^^^ es i < 256 := byte_xor_lt (hd _) he
    apply ih (i + 1)
    · intro j h1 h2
      exact hpos j (by omega) (by omega)
    · intro j h1 h2
      exact hes j (by omega) (by omega)
    · exact hd.upd _ hx
    · have v0 : ∀ (a : Nat → Nat) (x y z : Nat), upd (upd (upd a 0 x) 1 y) 2 z 0 = x := by
        intro a x y z
        rw [upd_other _ _ (by decide), upd_other _ _ (by decide), upd_same]
      have v1 : ∀ (a : Nat → Nat) (x y z : Nat), upd (upd (upd a 0 x) 1 y) 2 z 1 = y := by
        intro a x y z
        rw [upd_other _ _ (by decide), upd_same]
      have v2 : ∀ (a : Nat → Nat) (x y z : Nat), upd (upd (upd a 0 x) 1 y) 2 z 2 = z := by
        intro a x y z
        rw [upd_same]
      have w1 : ∀ (a : Nat → Nat) (x : Nat), upd a 0 x 1 = a 1 := by
        intro a x
        rw [upd_other _ _ (by decide)]
      have w2 : ∀ (a : Nat → Nat) (x y : Nat), upd (upd a 0 x) 1 y 2 = a 2 := by
        intro a x y
        rw [upd_other _ _ (by decide), upd_other _ _ (by decide)]
      refine ⟨?_, ?_, ?_, ?_, ?_, ?_⟩
      · rw [v0]
        exact byte_xor_lt s0 (divide_out_lt _ _)
      · rw [v1, w1]
        exact byte_xor_lt s1 he
      · rw [v2, w2]
        exact byte_xor_lt s2 (multiply_out_lt _ _)
      · rw [v0, hmod, hidx, syn0_upd _ _ _ _ _ hp, ← hidx, of_xor s0 (divide_out_lt _ _),
          of_divide_out he (by omega), of_xor (hd _) he, e0]
        unfold cv
        rw [← hidx]
        linear_combination
          (-(of (data ((eblk i <<< 10) ||| col)) * (ap (eblk i))⁻¹)) * two_eq_zero
      · rw [v1, w1, hidx, syn1_upd _ _ _ _ _ hp, ← hidx, of_xor s1 he, of_xor (hd _) he, e1]
        unfold cv
        rw [← hidx]
        linear_combination (-(of (data ((eblk i <<< 10) ||| col)))) * two_eq_zero
      · rw [v2, w2, hidx, syn2_upd _ _ _ _ _ hp, ← hidx, of_xor s2 (multiply_out_lt _ _),
          of_multiply_out he (by omega), of_xor (hd _) he, e2]
        unfold cv
        rw [← hidx]
        linear_combination
          (-(of (data ((eblk i <<< 10) ||| col)) * ap (eblk i))) * two_eq_zero

/-- The correction loop touches only the bytes of column `col` in the blocks
listed in `eblk`. -/
theorem correct_loop_other (col : Nat) (eblk es : Nat → Nat) (x : Nat) :
    ∀ k i data ss, (∀ j, i ≤ j → j < i + k → x ≠ (eblk j <<< 10) ||| col) →
      (correct_loop col eblk es k i data ss).1 x = data x := by
  intro k
  induction k with
  | zero =>
    intro i data ss _
    rfl
  | succ k ih =>
    intro i data ss hx
    unfold correct_loop
    simp only
    rw [ih (i + 1) _ _ (fun j h1 h2 => hx j (by omega) (by omega))]
    exact upd_other _ _ (hx i (Nat.le_refl _) (by omega))

/-- The correction loop XORs `es[j]` into the byte of block `eblk[j]`, when the
blocks listed are distinct. -/
theorem correct_loop_at {col : Nat} (hc : col < 1024) (eblk es : Nat → Nat) :
    ∀ k i data ss, (∀ j j', i ≤ j → j < i + k → i ≤ j' → j' < i + k → eblk j = eblk j' → j = j') →
      ∀ j0, i ≤ j0 → j0 < i + k →
        (correct_loop col eblk es k i data ss).1 ((eblk j0 <<< 10) ||| col)
          = data ((eblk j0 <<< 10) ||| col) ^^^ es j0 := by
  intro k
  induction k with
  | zero =>
    intro i data ss _ j0 h1 h2
    omega
  | succ k ih =>
    intro i data ss hdist j0 h1 h2
    unfold correct_loop
    simp only
    have hne : ∀ j, i + 1 ≤ j → j < i + 1 + k →
        (eblk i <<< 10) ||| col ≠ (eblk j <<< 10) ||| col := by
      intro j hj1 hj2 heq
      rw [shl_or_eq _ hc, shl_or_eq _ hc] at heq
      have := hdist i j (Nat.le_refl _) (by omega) (by omega) (by omega) (by omega)
      omega
    by_cases hj : j0 = i
    · subst hj
      rw [correct_loop_other col eblk es _ k (j0 + 1) _ _ hne, upd_same]
    · rw [ih (i + 1) _ _ (fun j j' a b c d => hdist j j' (by omega) (by omega) (by omega)
        (by omega)) j0 (by omega) (by omega)]
      rw [upd_other _ _ (fun h => hne j0 (by omega) (by omega) h.symm)]

theorem check_column_clean {n col : Nat} {s : cp_state} (hd : IsBytes s.data) (hn : n ≤ 255)
    (hc : col < 1024)
    (h : syn0 s.data col n = 0 ∧ syn1 s.data col n = 0 ∧ syn2 s.data col n = 0) :
    check_column n col s = .next s := by
  unfold check_column
  simp only [(compute_syndromes_spec hd hn hc s.ss).1 h]
  simp

theorem check_column_disc {n col : Nat} {s : cp_state} (hd : IsBytes s.data) (hn : n ≤ 255)
    (hc : col < 1024)
    (h : ¬ (syn0 s.data col n = 0 ∧ syn1 s.data col n = 0 ∧ syn2 s.data col n = 0)) :
    check_column n col s =
      match analyze n { s with ss := (compute_syndromes s.data n col s.ss).2,
                               es := upd (upd (upd s.es 2 0) 1 0) 0 0 } with
      | .ret code data => .ret code data
      | .next s1 =>
        if (correct_loop col s1.eblk s1.es s1.crcerrs 0 s1.data s1.ss).2 0 ≠ 0 ∨
            (correct_loop col s1.eblk s1.es s1.crcerrs 0 s1.data s1.ss).2 1 ≠ 0 ∨
            (correct_loop col s1.eblk s1.es s1.crcerrs 0 s1.data s1.ss).2 2 ≠ 0 then
          .ret 1 (correct_loop col s1.eblk s1.es s1.crcerrs 0 s1.data s1.ss).1
        else
          .next { s1 with data := (correct_loop col s1.eblk s1.es s1.crcerrs 0 s1.data s1.ss).1,
                          ss := (correct_loop col s1.eblk s1.es s1.crcerrs 0 s1.data s1.ss).2 } := by
  have h1 := ((compute_syndromes_spec hd hn hc s.ss).2 h).1
  unfold check_column
  show (if (compute_syndromes s.data n col s.ss).1 ≠ 0 then _ else _) = _
  exact (if_neg (by rw [h1]; exact fun h => h rfl)).trans rfl

/-! ## Solving for the error magnitudes -/

theorem solve1 {e x s0 s1 s2 : GF} (hx : x ≠ 0) (h0 : s0 = e * x⁻¹) (h1 : s1 = e)
    (h2 : s2 = e * x) : s0 * x = e ∧ s2 + s1 * x = 0 ∧ s1 + s0 * x = 0 := by
  have hxx : x * x⁻¹ = 1 := mul_inv_cancel₀ hx
  subst h0 h1 h2
  refine ⟨?_, ?_, ?_⟩
  · linear_combination s1 * hxx
  · linear_combination (s1 * x) * two_eq_zero
  · linear_combination s1 * hxx + s1 * two_eq_zero

theorem solve2 {ea eb ya yb s0 s1 : GF} (hD : ya + yb ≠ 0) (h0 : s0 = ea * ya + eb * yb)
    (h1 : s1 = ea + eb) :
    ea = s0 * (ya + yb)⁻¹ + s1 * (yb * (ya + yb)⁻¹) ∧
    eb = s0 * (ya + yb)⁻¹ + s1 * (ya * (ya + yb)⁻¹) := by
  have hD : (ya + yb) * (ya + yb)⁻¹ = 1 := mul_inv_cancel₀ hD
  subst h0 h1
  generalize (ya + yb)⁻¹ = Di at hD
  constructor
  · linear_combination (-ea) * hD + ((-1) * Di * eb * yb) * two_eq_zero
  · linear_combination (-eb) * hD + ((-1) * Di * ea * ya) * two_eq_zero

/-- The determinant `calculate_inverse` forms for three positions. -/
def det3 (x0 x1 x2 : GF) : GF :=
  x2 * x0⁻¹ + x1 * x0⁻¹ + x2 * x1⁻¹ + x1 * x2⁻¹ + x0 * x1⁻¹ + x0 * x2⁻¹

theorem det3_ne_zero {x0 x1 x2 : GF} (h0 : x0 ≠ 0) (h1 : x1 ≠ 0) (h2 : x2 ≠ 0)
    (h01 : x0 ≠ x1) (h02 : x0 ≠ x2) (h12 : x1 ≠ x2) : det3 x0 x1 x2 ≠ 0 := by
  have r0 : x0 * x0⁻¹ = 1 := mul_inv_cancel₀ h0
  have r1 : x1 * x1⁻¹ = 1 := mul_inv_cancel₀ h1
  have r2 : x2 * x2⁻¹ = 1 := mul_inv_cancel₀ h2
  have key : det3 x0 x1 x2 * x0 * x1 * x2 = (x0 + x1) * (x0 + x2) * (x1 + x2) := by
    unfold det3
    generalize x0⁻¹ = y0 at r0
    generalize x1⁻¹ = y1 at r1
    generalize x2⁻¹ = y2 at r2
    linear_combination (x1 * x2 ^ 2 + x1 ^ 2 * x2) * r0 + (x0 * x2 ^ 2 + x0 ^ 2 * x2) * r1 +
      (x0 * x1 ^ 2 + x0 ^ 2 * x1) * r2 + ((-1) * x0 * x1 * x2) * two_eq_zero
  intro hz
  rw [hz, zero_mul, zero_mul, zero_mul] at key
  have a01 : x0 + x1 ≠ 0 := fun h => h01 ((add_eq_zero_iff _ _).1 h)
  have a02 : x0 + x2 ≠ 0 := fun h => h02 ((add_eq_zero_iff _ _).1 h)
  have a12 : x1 + x2 ≠ 0 := fun h => h12 ((add_eq_zero_iff _ _).1 h)
  exact mul_ne_zero (mul_ne_zero a01 a02) a12 key.symm

theorem solve3 {e0 e1 e2 x0 x1 x2 s0 s1 s2 : GF} (hD : det3 x0 x1 x2 ≠ 0)
    (h0 : s0 = e0 * x0⁻¹ + e1 * x1⁻¹ + e2 * x2⁻¹) (h1 : s1 = e0 + e1 + e2)
    (h2 : s2 = e0 * x0 + e1 * x1 + e2 * x2) :
    e0 = s0 * ((x1 + x2) * (det3 x0 x1 x2)⁻¹) +
        s1 * ((x2 * x1⁻¹ + x1 * x2⁻¹) * (det3 x0 x1 x2)⁻¹) +
        s2 * ((x1⁻¹ + x2⁻¹) * (det3 x0 x1 x2)⁻¹) ∧
    e1 = s0 * ((x0 + x2) * (det3 x0 x1 x2)⁻¹) +
        s1 * ((x2 * x0⁻¹ + x0 * x2⁻¹) * (det3 x0 x1 x2)⁻¹) +
        s2 * ((x0⁻¹ + x2⁻¹) * (det3 x0 x1 x2)⁻¹) ∧
    e2 = s0 * ((x0 + x1) * (det3 x0 x1 x2)⁻¹) +
        s1 * ((x1 * x0⁻¹ + x0 * x1⁻¹) * (det3 x0 x1 x2)⁻¹) +
        s2 * ((x0⁻¹ + x1⁻¹) * (det3 x0 x1 x2)⁻¹) := by
  have hD : det3 x0 x1 x2 * (det3 x0 x1 x2)⁻¹ = 1 := mul_inv_cancel₀ hD
  subst h0 h1 h2
  generalize (det3 x0 x1 x2)⁻¹ = Di at hD
  unfold det3 at hD
  generalize x0⁻¹ = y0 at hD
  generalize x1⁻¹ = y1 at hD
  generalize x2⁻¹ = y2 at hD
  refine ⟨?_, ?_, ?_⟩
  · linear_combination (-e0) * hD + ((-1) * Di * e1 * x1 * y1 + (-1) * Di * e1 * x1 * y2 +
      (-1) * Di * e1 * x2 * y1 + (-1) * Di * e2 * x1 * y2 + (-1) * Di * e2 * x2 * y1 +
      (-1) * Di * e2 * x2 * y2) * two_eq_zero
  · linear_combination (-e1) * hD + ((-1) * Di * e0 * x0 * y0 + (-1) * Di * e0 * x0 * y2 +
      (-1) * Di * e0 * x2 * y0 + (-1) * Di * e2 * x0 * y2 + (-1) * Di * e2 * x2 * y0 +
      (-1) * Di * e2 * x2 * y2) * two_eq_zero
  · linear_combination (-e2) * hD + ((-1) * Di * e0 * x0 * y0 + (-1) * Di * e0 * x0 * y1 +
      (-1) * Di * e0 * x1 * y0 + (-1) * Di * e1 * x0 * y1 + (-1) * Di * e1 * x1 * y0 +
      (-1) * Di * e1 * x1 * y1) * two_eq_zero

/-! ## Sums over a column with few nonzero terms -/

theorem sum_support1 (f : Nat → GF) {n a : Nat} (ha : a < n)
    (hf : ∀ i, i < n → i ≠ a → f i = 0) : ∑ i ∈ Finset.range n, f i = f a := by
  rw [Finset.sum_eq_single a]
  · intro b hb hba
    exact hf b (Finset.mem_range.1 hb) hba
  · intro h
    exact absurd (Finset.mem_range.2 ha) h

theorem sum_support2 (f : Nat → GF) {n a b : Nat} (ha : a < n) (hb : b < n) (hab : a ≠ b)
    (hf : ∀ i, i < n → i ≠ a → i ≠ b → f i = 0) : ∑ i ∈ Finset.range n, f i = f a + f b := by
  have hsub : ({a, b} : Finset Nat) ⊆ Finset.range n := by
    intro x hx
    simp only [Finset.mem_insert, Finset.mem_singleton] at hx
    rcases hx with h | h <;> (subst h; exact Finset.mem_range.2 (by assumption))
  rw [← Finset.sum_subset hsub, Finset.sum_pair hab]
  intro x hx hnot
  simp only [Finset.mem_insert, Finset.mem_singleton, not_or] at hnot
  exact hf x (Finset.mem_range.1 hx) hnot.1 hnot.2

theorem sum_support3 (f : Nat → GF) {n a b c : Nat} (ha : a < n) (hb : b < n) (hc : c < n)
    (hab : a ≠ b) (hac : a ≠ c) (hbc : b ≠ c)
    (hf : ∀ i, i < n → i ≠ a → i ≠ b → i ≠ c → f i = 0) :
    ∑ i ∈ Finset.range n, f i = f a + f b + f c := by
  have hsub : ({a, b, c} : Finset Nat) ⊆ Finset.range n := by
    intro x hx
    simp only [Finset.mem_insert, Finset.mem_singleton] at hx
    rcases hx with h | h | h <;> (subst h; exact Finset.mem_range.2 (by assumption))
  rw [← Finset.sum_subset hsub, Finset.sum_insert (by simp [hab, hac]), Finset.sum_pair hbc,
    add_assoc]
  intro x hx hnot
  simp only [Finset.mem_insert, Finset.mem_singleton, not_or] at hnot
  exact hf x (Finset.mem_range.1 hx) hnot.1 hnot.2.1 hnot.2.2

/-- The error in row `i` of column `col`: the byte of `data` minus that of `enc`. -/
def err (data enc : Buf) (col i : Nat) : GF := cv data col i + cv enc col i

theorem err_eq_zero {data enc : Buf} {col i : Nat}
    (h : data (col + 1024 * i) = enc (col + 1024 * i)) : err data enc col i = 0 := by
  unfold err cv
  rw [h]
  exact add_self _

theorem err_of {data enc : Buf} (hd : IsBytes data) (he : IsBytes enc) (col i : Nat) :
    of (data (col + 1024 * i) ^^^ enc (col + 1024 * i)) = err data enc col i :=
  of_xor (hd _) (he _)

theorem err_zero_iff {data enc : Buf} (hd : IsBytes data) (he : IsBytes enc) (col i : Nat) :
    err data enc col i = 0 ↔ data (col + 1024 * i) = enc (col + 1024 * i) := by
  unfold err cv
  rw [add_eq_zero_iff, of_inj (hd _) (he _)]

/-- The syndromes of a corrupted column of an encoded segment are those of the
error alone. -/
theorem syn_err {data enc : Buf} {col n : Nat}
    (hz : syn0 enc col n = 0 ∧ syn1 enc col n = 0 ∧ syn2 enc col n = 0) :
    syn0 data col n = ∑ i ∈ Finset.range n, err data enc col i * (ap i)⁻¹ ∧
    syn1 data col n = ∑ i ∈ Finset.range n, err data enc col i ∧
    syn2 data col n = ∑ i ∈ Finset.range n, err data enc col i * ap i := by
  unfold err
  refine ⟨?_, ?_, ?_⟩
  · simp only [add_mul, Finset.sum_add_distrib]
    show _ = syn0 data col n + syn0 enc col n
    rw [hz.1, add_zero]
  · simp only [Finset.sum_add_distrib]
    show _ = syn1 data col n + syn1 enc col n
    rw [hz.2.1, add_zero]
  · simp only [add_mul, Finset.sum_add_distrib]
    show _ = syn2 data col n + syn2 enc col n
    rw [hz.2.2, add_zero]

/-! ## `determine` and `calculate_inverse` -/

theorem determine_one (inv : inv_mat) (ss es : Nat → Nat) :
    determine 1 inv ss es 0 = multiply (ss 0) (inv.zs 0 0) := by
  simp [determine, determine_loop, determine_row, upd]

theorem determine_two (inv : inv_mat) (ss es : Nat → Nat) :
    determine 2 inv ss es 0 = multiply (ss 0) (inv.zs 0 0) ^^^ multiply (ss 1) (inv.zs 0 1) ∧
    determine 2 inv ss es 1 = multiply (ss 0) (inv.zs 1 0) ^^^ multiply (ss 1) (inv.zs 1 1) := by
  simp [determine, determine_loop, determine_row, upd]

theorem determine_three (inv : inv_mat) (ss es : Nat → Nat) :
    determine 3 inv ss es 0 = multiply (ss 0) (inv.zs 0 0) ^^^ multiply (ss 1) (inv.zs 0 1)
      ^^^ multiply (ss 2) (inv.zs 0 2) ∧
    determine 3 inv ss es 1 = multiply (ss 0) (inv.zs 1 0) ^^^ multiply (ss 1) (inv.zs 1 1)
      ^^^ multiply (ss 2) (inv.zs 1 2) ∧
    determine 3 inv ss es 2 = multiply (ss 0) (inv.zs 2 0) ^^^ multiply (ss 1) (inv.zs 2 1)
      ^^^ multiply (ss 2) (inv.zs 2 2) := by
  simp [determine, determine_loop, determine_row, upd]

theorem of_multiply_out_denom {x d : Nat} (hx : x < 256) (hd : d < 256) (hd0 : d ≠ 0) :
    of (multiply_out x ((255 - alpha_log.getD d 0) % 256)) = of x * (of d)⁻¹ := by
  have hl := log_lt hd hd0
  rw [Nat.mod_eq_of_lt (by omega), of_multiply_out hx (by omega), ap_compl (by omega),
    ap_log hd hd0]

theorem of_power_compl {i : Nat} (hi : i ≤ 255) :
    of (alpha_power.getD (255 - i) 0) = (ap i)⁻¹ := by
  rw [of_power (by omega), ap_compl hi]

/-- The matrix `calculate_inverse` leaves for two positions `a`, `b`. -/
def Inv2OK (inv : inv_mat) (a b : Nat) : Prop :=
  inv.zs 0 0 < 256 ∧ inv.zs 0 1 < 256 ∧ inv.zs 1 0 < 256 ∧ inv.zs 1 1 < 256 ∧
  of (inv.zs 0 0) = ((ap a)⁻¹ + (ap b)⁻¹)⁻¹ ∧
  of (inv.zs 0 1) = (ap b)⁻¹ * ((ap a)⁻¹ + (ap b)⁻¹)⁻¹ ∧
  of (inv.zs 1 0) = ((ap a)⁻¹ + (ap b)⁻¹)⁻¹ ∧
  of (inv.zs 1 1) = (ap a)⁻¹ * ((ap a)⁻¹ + (ap b)⁻¹)⁻¹

theorem ap_inv_add_ne {a b : Nat} (ha : a < 255) (hb : b < 255) (hab : a ≠ b) :
    (ap a)⁻¹ + (ap b)⁻¹ ≠ 0 := by
  intro h
  have h1 := (add_eq_zero_iff _ _).1 h
  exact hab (ap_inj_lt ha hb (inv_injective h1))

theorem calculate_inverse_two {pblk : Nat → Nat} {a b : Nat} (h0 : pblk 0 = a) (h1 : pblk 1 = b)
    (ha : a < 255) (hb : b < 255) (hab : a ≠ b) (inv : inv_mat) :
    (calculate_inverse 2 pblk inv).1 = 1 ∧ Inv2OK (calculate_inverse 2 pblk inv).2 a b := by
  have hma : a % 256 = a := Nat.mod_eq_of_lt (by omega)
  have hmb : b % 256 = b := Nat.mod_eq_of_lt (by omega)
  have za : alpha_power.getD (255 - a) 0 < 256 := power_lt _
  have zb : alpha_power.getD (255 - b) 0 < 256 := power_lt _
  have hd : alpha_power.getD (255 - a) 0 ^^^ alpha_power.getD (255 - b) 0 < 256 :=
    byte_xor_lt za zb
  have hof : of (alpha_power.getD (255 - a) 0 ^^^ alpha_power.getD (255 - b) 0)
      = (ap a)⁻¹ + (ap b)⁻¹ := by
    rw [of_xor za zb, of_power_compl (by omega), of_power_compl (by omega)]
  have hd0 : alpha_power.getD (255 - a) 0 ^^^ alpha_power.getD (255 - b) 0 ≠ 0 := by
    intro h
    rw [h] at hof
    exact ap_inv_add_ne ha hb hab hof.symm
  unfold calculate_inverse
  simp only [h0, h1, hma, hmb, if_neg hd0, (by decide : ¬ (2 < 2)), (by decide : ¬ (2 > 3)),
    if_true, if_false]
  refine ⟨trivial, ?_⟩
  unfold Inv2OK
  simp only [upd2, if_true, if_false, and_self, and_true, true_and, and_false, false_and,
    (by decide : (0 : Nat) ≠ 1), (by decide : (1 : Nat) ≠ 0)]
  have one_lt : (1 : Nat) < 256 := by decide
  have of1 : of 1 = (1 : GF) := rfl
  refine ⟨multiply_out_lt _ _, multiply_out_lt _ _, multiply_out_lt _ _, multiply_out_lt _ _,
    ?_, ?_, ?_, ?_⟩
  · rw [of_multiply_out_denom one_lt hd hd0, hof, of1, one_mul]
  · rw [of_multiply_out_denom zb hd hd0, hof, of_power_compl (by omega)]
  · rw [of_multiply_out_denom one_lt hd hd0, hof, of1, one_mul]
  · rw [of_multiply_out_denom za hd hd0, hof, of_power_compl (by omega)]

/-- The matrix `calculate_inverse` leaves for three positions `a`, `b`, `c`. -/
def Inv3OK (inv : inv_mat) (a b c : Nat) : Prop :=
  (∀ i j, i < 3 → j < 3 → inv.zs i j < 256) ∧
  of (inv.zs 0 0) = (ap b + ap c) * (det3 (ap a) (ap b) (ap c))⁻¹ ∧
  of (inv.zs 0 1) = (ap c * (ap b)⁻¹ + ap b * (ap c)⁻¹) * (det3 (ap a) (ap b) (ap c))⁻¹ ∧
  of (inv.zs 0 2) = ((ap b)⁻¹ + (ap c)⁻¹) * (det3 (ap a) (ap b) (ap c))⁻¹ ∧
  of (inv.zs 1 0) = (ap a + ap c) * (det3 (ap a) (ap b) (ap c))⁻¹ ∧
  of (inv.zs 1 1) = (ap c * (ap a)⁻¹ + ap a * (ap c)⁻¹) * (det3 (ap a) (ap b) (ap c))⁻¹ ∧
  of (inv.zs 1 2) = ((ap a)⁻¹ + (ap c)⁻¹) * (det3 (ap a) (ap b) (ap c))⁻¹ ∧
  of (inv.zs 2 0) = (ap a + ap b) * (det3 (ap a) (ap b) (ap c))⁻¹ ∧
  of (inv.zs 2 1) = (ap b * (ap a)⁻¹ + ap a * (ap b)⁻¹) * (det3 (ap a) (ap b) (ap c))⁻¹ ∧
  of (inv.zs 2 2) = ((ap a)⁻¹ + (ap b)⁻¹) * (det3 (ap a) (ap b) (ap c))⁻¹

theorem det3_ap_ne {a b c : Nat} (ha : a < 255) (hb : b < 255) (hc : c < 255)
    (hab : a ≠ b) (hac : a ≠ c) (hbc : b ≠ c) : det3 (ap a) (ap b) (ap c) ≠ 0 :=
  det3_ne_zero (ap_ne_zero a) (ap_ne_zero b) (ap_ne_zero c)
    (fun h => hab (ap_inj_lt ha hb h)) (fun h => hac (ap_inj_lt ha hc h))
    (fun h => hbc (ap_inj_lt hb hc h))

theorem calculate_inverse_three {pblk : Nat → Nat} {a b c : Nat} (h0 : pblk 0 = a)
    (h1 : pblk 1 = b) (h2 : pblk 2 = c) (ha : a < 255) (hb : b < 255) (hc : c < 255)
    (hab : a ≠ b) (hac : a ≠ c) (hbc : b ≠ c) (inv : inv_mat) :
    (calculate_inverse 3 pblk inv).1 = 1 ∧ Inv3OK (calculate_inverse 3 pblk inv).2 a b c := by
  have hma : a % 256 = a := Nat.mod_eq_of_lt (by omega)
  have hmb : b % 256 = b := Nat.mod_eq_of_lt (by omega)
  have hmc : c % 256 = c := Nat.mod_eq_of_lt (by omega)
  have hz : ∀ p q, z_of_ab p q < 256 := fun p q => power_lt _
  have oz : ∀ p q, p < 255 → q < 255 → of (z_of_ab p q) = ap p * (ap q)⁻¹ :=
    fun p q hp hq => of_z_of_ab (by omega) (by omega)
  have hdlt : z_of_ab c a ^^^ z_of_ab b a ^^^ z_of_ab c b ^^^ z_of_ab b c ^^^ z_of_ab a b
      ^^^ z_of_ab a c < 256 :=
    byte_xor_lt (byte_xor_lt (byte_xor_lt (byte_xor_lt (byte_xor_lt (hz _ _) (hz _ _))
      (hz _ _)) (hz _ _)) (hz _ _)) (hz _ _)
  have hof : of (z_of_ab c a ^^^ z_of_ab b a ^^^ z_of_ab c b ^^^ z_of_ab b c ^^^ z_of_ab a b
      ^^^ z_of_ab a c) = det3 (ap a) (ap b) (ap c) := by
    rw [of_xor (byte_xor_lt (byte_xor_lt (byte_xor_lt (byte_xor_lt (hz _ _) (hz _ _))
        (hz _ _)) (hz _ _)) (hz _ _)) (hz _ _),
      of_xor (byte_xor_lt (byte_xor_lt (byte_xor_lt (hz _ _) (hz _ _)) (hz _ _)) (hz _ _))
        (hz _ _),
      of_xor (byte_xor_lt (byte_xor_lt (hz _ _) (hz _ _)) (hz _ _)) (hz _ _),
      of_xor (byte_xor_lt (hz _ _) (hz _ _)) (hz _ _), of_xor (hz _ _) (hz _ _),
      oz _ _ hc ha, oz _ _ hb ha, oz _ _ hc hb, oz _ _ hb hc, oz _ _ ha hb, oz _ _ ha hc]
    rfl
  have hd0 : z_of_ab c a ^^^ z_of_ab b a ^^^ z_of_ab c b ^^^ z_of_ab b c ^^^ z_of_ab a b
      ^^^ z_of_ab a c ≠ 0 := by
    intro h
    rw [h] at hof
    exact det3_ap_ne ha hb hc hab hac hbc hof.symm
  have pa : alpha_power.getD a 0 < 256 := power_lt _
  have pb : alpha_power.getD b 0 < 256 := power_lt _
  have pc : alpha_power.getD c 0 < 256 := power_lt _
  have qa : alpha_power.getD (255 - a) 0 < 256 := power_lt _
  have qb : alpha_power.getD (255 - b) 0 < 256 := power_lt _
  have qc : alpha_power.getD (255 - c) 0 < 256 := power_lt _
  have opa : of (alpha_power.getD a 0) = ap a := of_power (by omega)
  have opb : of (alpha_power.getD b 0) = ap b := of_power (by omega)
  have opc : of (alpha_power.getD c 0) = ap c := of_power (by omega)
  have oqa : of (alpha_power.getD (255 - a) 0) = (ap a)⁻¹ := of_power_compl (by omega)
  have oqb : of (alpha_power.getD (255 - b) 0) = (ap b)⁻¹ := of_power_compl (by omega)
  have oqc : of (alpha_power.getD (255 - c) 0) = (ap c)⁻¹ := of_power_compl (by omega)
  have ent : ∀ u v, u < 256 → v < 256 →
      of (multiply_out (u ^^^ v) ((255 - alpha_log.getD (z_of_ab c a ^^^ z_of_ab b a
        ^^^ z_of_ab c b ^^^ z_of_ab b c ^^^ z_of_ab a b ^^^ z_of_ab a c) 0) % 256))
        = (of u + of v) * (det3 (ap a) (ap b) (ap c))⁻¹ := by
    intro u v hu hv
    rw [of_multiply_out_denom (byte_xor_lt hu hv) hdlt hd0, hof, of_xor hu hv]
  unfold calculate_inverse
  simp only [h0, h1, h2, hma, hmb, hmc, if_neg hd0, (by decide : ¬ (3 < 2)),
    (by decide : ¬ (3 > 3)), (by decide : ¬ (3 = 2)), if_true, if_false]
  refine ⟨trivial, ?_⟩
  unfold Inv3OK
  refine ⟨?_, ?_, ?_, ?_, ?_, ?_, ?_, ?_, ?_, ?_⟩
  · intro i j hi hj
    have hi' : i = 0 ∨ i = 1 ∨ i = 2 := by omega
    have hj' : j = 0 ∨ j = 1 ∨ j = 2 := by omega
    rcases hi' with rfl | rfl | rfl <;> rcases hj' with rfl | rfl | rfl <;>
      simp only [upd2, if_true, if_false, and_self, and_true, true_and, and_false, false_and,
        (by decide : (0 : Nat) ≠ 1), (by decide : (1 : Nat) ≠ 0), (by decide : (0 : Nat) ≠ 2),
        (by decide : (2 : Nat) ≠ 0), (by decide : (1 : Nat) ≠ 2), (by decide : (2 : Nat) ≠ 1)] <;>
      exact multiply_out_lt _ _
  all_goals
    simp only [upd2, if_true, if_false, and_self, and_true, true_and, and_false, false_and,
      (by decide : (0 : Nat) ≠ 1), (by decide : (1 : Nat) ≠ 0), (by decide : (0 : Nat) ≠ 2),
      (by decide : (2 : Nat) ≠ 0), (by decide : (1 : Nat) ≠ 2), (by decide : (2 : Nat) ≠ 1)]
    rw [ent] <;> first
      | exact power_lt _
      | exact hz _ _
      | simp only [opa, opb, opc, oqa, oqb, oqc, oz _ _ ha hb, oz _ _ ha hc, oz _ _ hb ha,
          oz _ _ hb hc, oz _ _ hc ha, oz _ _ hc hb]

/-! ## One column of `check_parity` -/

theorem analyze_zero {n : Nat} {s : cp_state} (h : s.crcerrs = 0) (h0 : s.ss 0 ≠ 0)
    (hlt : alpha_log.getD (divide (s.ss 1) (s.ss 0)) 0 < n) :
    analyze n s = .next { s with eblk := upd s.eblk 0 (alpha_log.getD (divide (s.ss 1) (s.ss 0)) 0),
                                 es := upd s.es 0 (s.ss 1), crcerrs := 1 } := by
  obtain ⟨data, crcerrs, eblk, ss, es, inv⟩ := s
  simp only at h h0 hlt
  subst h
  unfold analyze
  simp only [if_neg h0, upd_same, if_neg (Nat.not_le.2 hlt), Nat.zero_add,
    (by decide : ¬ (1 > 3)), if_false]

theorem analyze_one_single {n : Nat} {s : cp_state} (h : s.crcerrs = 1)
    (hi1 : s.ss 2 ^^^ multiply_out (s.ss 1) (s.eblk 0) = 0)
    (hi2 : s.ss 1 ^^^ multiply_out (s.ss 0) (s.eblk 0) = 0) :
    analyze n s = .next { s with
      inv := { log_denom := 0, zs := upd2 s.inv.zs 0 0 (alpha_power.getD (s.eblk 0) 0) },
      es := determine 1
        { log_denom := 0, zs := upd2 s.inv.zs 0 0 (alpha_power.getD (s.eblk 0) 0) } s.ss s.es } := by
  obtain ⟨data, crcerrs, eblk, ss, es, inv⟩ := s
  simp only at h hi1 hi2
  subst h
  unfold analyze
  simp only [hi1, hi2, and_self, if_true]

theorem analyze_two {n : Nat} {s : cp_state} (h : s.crcerrs = 2) :
    analyze n s = .next { s with es := determine 2 s.inv s.ss s.es } := by
  obtain ⟨data, crcerrs, eblk, ss, es, inv⟩ := s
  simp only at h
  subst h
  rfl

theorem analyze_three {n : Nat} {s : cp_state} (h : s.crcerrs = 3) :
    analyze n s = .next { s with es := determine 3 s.inv s.ss s.es } := by
  obtain ⟨data, crcerrs, eblk, ss, es, inv⟩ := s
  simp only at h
  subst h
  rfl

/-- When the analysis of a column finds the true error magnitudes at distinct
blocks, the corrections restore the column and the residual check passes. -/
theorem check_column_fix {n col : Nat} (hn : n ≤ 32) (hc : col < 1024) {enc : Buf}
    (henc : IsBytes enc) (hcode : regs enc col n = (0, 0, 0)) {s s1 : cp_state}
    (hd : IsBytes s.data)
    (hdisc : ¬ (syn0 s.data col n = 0 ∧ syn1 s.data col n = 0 ∧ syn2 s.data col n = 0))
    (han : analyze n { s with ss := (compute_syndromes s.data n col s.ss).2,
                              es := upd (upd (upd s.es 2 0) 1 0) 0 0 } = .next s1)
    (hdata1 : s1.data = s.data) (hss1 : s1.ss = (compute_syndromes s.data n col s.ss).2)
    (hpos : ∀ j, j < s1.crcerrs → s1.eblk j < n)
    (hdist : ∀ j j', j < s1.crcerrs → j' < s1.crcerrs → s1.eblk j = s1.eblk j' → j = j')
    (hes : ∀ j, j < s1.crcerrs →
      s1.es j = s.data (col + 1024 * s1.eblk j) ^^^ enc (col + 1024 * s1.eblk j))
    (hoff : ∀ r, r < n → (∀ j, j < s1.crcerrs → r ≠ s1.eblk j) →
      s.data (col + 1024 * r) = enc (col + 1024 * r)) :
    ∃ s', check_column n col s = .next s' ∧ s'.crcerrs = s1.crcerrs ∧ s'.eblk = s1.eblk ∧
      s'.inv = s1.inv ∧
      (∀ x, x % 1024 = col → x / 1024 < n → s'.data x = enc x) ∧
      (∀ x, ¬ (x % 1024 = col ∧ x / 1024 < n) → s'.data x = s.data x) := by
  have hspec := (compute_syndromes_spec hd (by omega : n ≤ 255) hc s.ss).2 hdisc
  have hsyn : SynOK n col s1.data s1.ss := by
    rw [hdata1, hss1]
    exact ⟨hspec.2.2.2.2.1, hspec.2.2.2.2.2.1, hspec.2.2.2.2.2.2.1, hspec.2.1, hspec.2.2.1,
      hspec.2.2.2.1⟩
  have hesb : ∀ j, 0 ≤ j → j < 0 + s1.crcerrs → s1.es j < 256 := by
    intro j _ hj
    rw [hes j (by omega)]
    exact byte_xor_lt (hd _) (henc _)
  have hd1 : IsBytes s1.data := by
    rw [hdata1]
    exact hd
  have hloop := correct_loop_synOK (by omega : n ≤ 255) hc s1.eblk s1.es s1.crcerrs 0 s1.data
    s1.ss (fun j _ hj => hpos j (by omega)) hesb hd1 hsyn
  have hat := correct_loop_at hc s1.eblk s1.es s1.crcerrs 0 s1.data s1.ss
    (fun j j' _ h1 _ h2 h => hdist j j' (by omega) (by omega) h)
  have hother := fun x => correct_loop_other col s1.eblk s1.es x s1.crcerrs 0 s1.data s1.ss
  generalize hcdef : correct_loop col s1.eblk s1.es s1.crcerrs 0 s1.data s1.ss = c
    at hloop hat hother
  have hA : ∀ j, j < s1.crcerrs → c.1 (col + 1024 * s1.eblk j) = enc (col + 1024 * s1.eblk j) := by
    intro j hj
    have := hat j (Nat.zero_le _) (by omega)
    rw [shl_or_eq _ hc, hes j hj, hdata1, ← Nat.xor_assoc, Nat.xor_self, Nat.zero_xor] at this
    exact this
  have hB : ∀ x, (∀ j, j < s1.crcerrs → x ≠ col + 1024 * s1.eblk j) → c.1 x = s.data x := by
    intro x hx
    rw [hother x (fun j _ hj => by rw [shl_or_eq _ hc]; exact hx j (by omega)), hdata1]
  have hcolumn : ∀ r, r < n → c.1 (col + 1024 * r) = enc (col + 1024 * r) := by
    intro r hr
    by_cases hex : ∃ j, j < s1.crcerrs ∧ r = s1.eblk j
    · obtain ⟨j, hj, rfl⟩ := hex
      exact hA j hj
    · have hne : ∀ j, j < s1.crcerrs → r ≠ s1.eblk j := fun j hj h => hex ⟨j, hj, h⟩
      rw [hB _ (fun j hj h => hne j hj (by omega))]
      exact hoff r hr hne
  have hregs : regs c.1 col n = (0, 0, 0) := by
    rw [regs_congr n hcolumn]
    exact hcode
  have hz := (regs_eq_zero_iff hloop.1 col n).1 hregs
  obtain ⟨b0, b1, b2, o0, o1, o2⟩ := hloop.2
  have z0 : c.2 0 = 0 := (of_eq_zero b0).1 (o0.trans hz.1)
  have z1 : c.2 1 = 0 := (of_eq_zero b1).1 (o1.trans hz.2.1)
  have z2 : c.2 2 = 0 := (of_eq_zero b2).1 (o2.trans hz.2.2)
  refine ⟨{ s1 with data := c.1, ss := c.2 }, ?_, rfl, rfl, rfl, ?_, ?_⟩
  · rw [check_column_disc hd (by omega) hc hdisc, han]
    simp only [hcdef]
    rw [if_neg (by simp [z0, z1, z2])]
  · intro x hx hlt
    have : x = col + 1024 * (x / 1024) := by omega
    rw [this]
    exact hcolumn _ hlt
  · intro x hx
    apply hB
    intro j hj heq
    apply hx
    have := hpos j hj
    constructor <;> omega

/-- The column loop restores an encoded segment, as long as every column step
does and keeps the invariant `I` of the state. -/
theorem column_loop_restores {n : Nat} {enc : Buf} (henc : IsBytes enc) (I : cp_state → Prop)
    (P : Nat → Prop)
    (step : ∀ col s, col < 1024 → I s → IsBytes s.data →
      (∀ x, ¬ P (x / 1024) → s.data x = enc x) →
      ∃ s', check_column n col s = .next s' ∧ I s' ∧
        (∀ x, x % 1024 = col → s'.data x = enc x) ∧
        (∀ x, x % 1024 ≠ col → s'.data x = s.data x)) :
    ∀ k col s, col + k = 1024 → I s → IsBytes s.data →
      (∀ x, ¬ P (x / 1024) → s.data x = enc x) →
      (∀ x, x % 1024 < col → s.data x = enc x) →
      column_loop n k col s = (0, enc) := by
  intro k
  induction k with
  | zero =>
    intro col s hk _ _ _ hdone
    unfold column_loop
    congr 1
    funext x
    exact hdone x (by omega)
  | succ k ih =>
    intro col s hk hI hd hP hdone
    obtain ⟨s', hs', hI', hcol, hrest⟩ := step col s (by omega) hI hd hP
    unfold column_loop
    rw [hs']
    simp only
    apply ih (col + 1) s' (by omega) hI'
    · intro x
      by_cases hx : x % 1024 = col
      · rw [hcol x hx]
        exact henc x
      · rw [hrest x hx]
        exact hd x
    · intro x hx
      by_cases hxc : x % 1024 = col
      · exact hcol x hxc
      · rw [hrest x hxc]
        exact hP x hx
    · intro x hx
      by_cases hxc : x % 1024 = col
      · exact hcol x hxc
      · rw [hrest x hxc]
        exact hdone x (by omega)

theorem row_div {col : Nat} (hc : col < 1024) (i : Nat) : (col + 1024 * i) / 1024 = i := by
  omega

theorem err_off {data enc : Buf} {P : Nat → Prop} (hP : ∀ x, ¬ P (x / 1024) → data x = enc x)
    {col : Nat} (hc : col < 1024) {i : Nat} (hi : ¬ P i) : err data enc col i = 0 :=
  err_eq_zero (hP _ (by rwa [row_div hc]))

theorem column_eq_of_err {data enc : Buf} (hd : IsBytes data) (he : IsBytes enc)
    {P : Nat → Prop} (hP : ∀ x, ¬ P (x / 1024) → data x = enc x) {col : Nat}
    (hz : ∀ i, P i → err data enc col i = 0) : ∀ x, x % 1024 = col → data x = enc x := by
  intro x hx
  by_cases hp : P (x / 1024)
  · have := (err_zero_iff hd he col (x / 1024)).1 (hz _ hp)
    have e : col + 1024 * (x / 1024) = x := by omega
    rwa [e] at this
  · exact hP x hp

/-- A column step on a state and segment in which nothing is wrong. -/
theorem step_clean {n : Nat} (hn : n ≤ 32) {enc : Buf} (henc : IsBytes enc)
    (hcode : ∀ col, col < 1024 → regs enc col n = (0, 0, 0)) :
    ∀ col s, col < 1024 → True → IsBytes s.data →
      (∀ x, ¬ False → s.data x = enc x) →
      ∃ s', check_column n col s = .next s' ∧ True ∧
        (∀ x, x % 1024 = col → s'.data x = enc x) ∧
        (∀ x, x % 1024 ≠ col → s'.data x = s.data x) := by
  intro col s hc _ hd hP
  have hsame : s.data = enc := funext (fun x => hP x (fun h => h))
  have hz : syn0 s.data col n = 0 ∧ syn1 s.data col n = 0 ∧ syn2 s.data col n = 0 := by
    rw [hsame]
    exact (regs_eq_zero_iff henc col n).1 (hcode col hc)
  exact ⟨s, check_column_clean hd (by omega) hc hz, trivial, fun x _ => hP x (fun h => h),
    fun x _ => rfl⟩

/-- A column step with one known error location `a`. -/
theorem step_one {n : Nat} (hn : n ≤ 32) {enc : Buf} (henc : IsBytes enc)
    (hcode : ∀ col, col < 1024 → regs enc col n = (0, 0, 0)) {a : Nat} (ha : a < n) :
    ∀ col s, col < 1024 → (s.crcerrs = 1 ∧ s.eblk 0 = a) → IsBytes s.data →
      (∀ x, ¬ (x / 1024 = a) → s.data x = enc x) →
      ∃ s', check_column n col s = .next s' ∧ (s'.crcerrs = 1 ∧ s'.eblk 0 = a) ∧
        (∀ x, x % 1024 = col → s'.data x = enc x) ∧
        (∀ x, x % 1024 ≠ col → s'.data x = s.data x) := by
  intro col s hc hI hd hP
  obtain ⟨hcr, hea⟩ := hI
  have hz := (regs_eq_zero_iff henc col n).1 (hcode col hc)
  obtain ⟨e0, e1, e2⟩ := @syn_err s.data _ _ _ hz
  have hoffz : ∀ i, ¬ (i = a) → err s.data enc col i = 0 :=
    fun i hi => err_off (P := fun r => r = a) hP hc hi
  rw [sum_support1 _ ha (fun i _ hia => by rw [hoffz i hia, zero_mul])] at e0 e2
  rw [sum_support1 _ ha (fun i _ hia => hoffz i hia)] at e1
  obtain ⟨k1, k2, k3⟩ := solve1 (ap_ne_zero a) e0 e1 e2
  by_cases hclean : syn0 s.data col n = 0 ∧ syn1 s.data col n = 0 ∧ syn2 s.data col n = 0
  · refine ⟨s, check_column_clean hd (by omega) hc hclean, ⟨hcr, hea⟩, ?_, fun x _ => rfl⟩
    apply column_eq_of_err hd henc (P := fun r => r = a) hP
    intro i hi
    rw [hi, ← k1, hclean.1, zero_mul]
  · have hspec := (compute_syndromes_spec hd (by omega : n ≤ 255) hc s.ss).2 hclean
    obtain ⟨-, o0, o1, o2, b0, b1, b2, -⟩ := hspec
    have hi1 : (compute_syndromes s.data n col s.ss).2 2 ^^^
        multiply_out ((compute_syndromes s.data n col s.ss).2 1) (s.eblk 0) = 0 := by
      apply (of_eq_zero (byte_xor_lt b2 (multiply_out_lt _ _))).1
      rw [of_xor b2 (multiply_out_lt _ _), of_multiply_out b1 (by omega), o2, o1, hea]
      exact k2
    have hi2 : (compute_syndromes s.data n col s.ss).2 1 ^^^
        multiply_out ((compute_syndromes s.data n col s.ss).2 0) (s.eblk 0) = 0 := by
      apply (of_eq_zero (byte_xor_lt b1 (multiply_out_lt _ _))).1
      rw [of_xor b1 (multiply_out_lt _ _), of_multiply_out b0 (by omega), o1, o0, hea]
      exact k3
    have han := analyze_one_single (n := n)
      (s := { s with ss := (compute_syndromes s.data n col s.ss).2,
                     es := upd (upd (upd s.es 2 0) 1 0) 0 0 }) hcr hi1 hi2
    obtain ⟨s', h1, h2, h3, -, h5, h6⟩ := check_column_fix hn hc henc (hcode col hc) hd hclean han
      rfl rfl
      (by
        intro j hj
        have hj0 : j = 0 := by
          have : j < s.crcerrs := hj
          omega
        subst hj0
        show s.eblk 0 < n
        omega)
      (by
        intro j j' hj hj' _
        have : j < s.crcerrs := hj
        have : j' < s.crcerrs := hj'
        omega)
      (by
        intro j hj
        have hj0 : j = 0 := by
          have : j < s.crcerrs := hj
          omega
        subst hj0
        show determine 1 _ _ _ 0 = s.data (col + 1024 * s.eblk 0) ^^^ enc (col + 1024 * s.eblk 0)
        rw [determine_one, hea]
        apply (of_inj (multiply_lt _ _) (byte_xor_lt (hd _) (henc _))).1
        simp only [upd2, and_self, if_true]
        rw [of_multiply b0 (power_lt _), o0, of_power (by omega), err_of hd henc]
        exact k1)
      (by
        intro r hr hne
        apply hP
        rw [row_div hc]
        have := hne 0 (by show 0 < s.crcerrs; omega)
        intro h
        apply this
        show r = s.eblk 0
        omega)
    refine ⟨s', h1, ⟨h2.trans hcr, by rw [h3]; exact hea⟩, ?_, ?_⟩
    · intro x hx
      by_cases hlt : x / 1024 < n
      · exact h5 x hx hlt
      · rw [h6 x (fun h => hlt h.2)]
        exact hP x (by omega)
    · intro x hx
      exact h6 x (fun h => hx h.1)

/-- A column step with two known error locations `a`, `b`. -/
theorem step_two {n : Nat} (hn : n ≤ 32) {enc : Buf} (henc : IsBytes enc)
    (hcode : ∀ col, col < 1024 → regs enc col n = (0, 0, 0)) {a b : Nat} (ha : a < n)
    (hb : b < n) (hab : a ≠ b) :
    ∀ col s, col < 1024 →
      (s.crcerrs = 2 ∧ s.eblk 0 = a ∧ s.eblk 1 = b ∧ Inv2OK s.inv a b) → IsBytes s.data →
      (∀ x, ¬ (x / 1024 = a ∨ x / 1024 = b) → s.data x = enc x) →
      ∃ s', check_column n col s = .next s' ∧
        (s'.crcerrs = 2 ∧ s'.eblk 0 = a ∧ s'.eblk 1 = b ∧ Inv2OK s'.inv a b) ∧
        (∀ x, x % 1024 = col → s'.data x = enc x) ∧
        (∀ x, x % 1024 ≠ col → s'.data x = s.data x) := by
  intro col s hc hI hd hP
  obtain ⟨hcr, hea, heb, hinv⟩ := hI
  have hz := (regs_eq_zero_iff henc col n).1 (hcode col hc)
  obtain ⟨e0, e1, -⟩ := @syn_err s.data _ _ _ hz
  have hoffz : ∀ i, ¬ (i = a ∨ i = b) → err s.data enc col i = 0 :=
    fun i hi => err_off (P := fun r => r = a ∨ r = b) hP hc hi
  rw [sum_support2 _ ha hb hab (fun i _ h1 h2 => by
    rw [hoffz i (fun h => h.elim h1 h2), zero_mul])] at e0
  rw [sum_support2 _ ha hb hab (fun i _ h1 h2 => hoffz i (fun h => h.elim h1 h2))] at e1
  have hD := ap_inv_add_ne (by omega : a < 255) (by omega : b < 255) hab
  obtain ⟨ka, kb⟩ := solve2 hD e0 e1
  by_cases hclean : syn0 s.data col n = 0 ∧ syn1 s.data col n = 0 ∧ syn2 s.data col n = 0
  · refine ⟨s, check_column_clean hd (by omega) hc hclean, ⟨hcr, hea, heb, hinv⟩, ?_,
      fun x _ => rfl⟩
    apply column_eq_of_err hd henc (P := fun r => r = a ∨ r = b) hP
    intro i hi
    rcases hi with hi | hi
    · rw [hi, ka, hclean.1, hclean.2.1, zero_mul, zero_mul, add_zero]
    · rw [hi, kb, hclean.1, hclean.2.1, zero_mul, zero_mul, add_zero]
  · have hspec := (compute_syndromes_spec hd (by omega : n ≤ 255) hc s.ss).2 hclean
    obtain ⟨-, o0, o1, -, b0, b1, -, -⟩ := hspec
    obtain ⟨z00, z01, z10, z11, v00, v01, v10, v11⟩ := hinv
    have han := analyze_two (n := n)
      (s := { s with ss := (compute_syndromes s.data n col s.ss).2,
                     es := upd (upd (upd s.es 2 0) 1 0) 0 0 }) hcr
    have hj2 : ∀ j, j < s.crcerrs → j = 0 ∨ j = 1 := by
      intro j hj
      omega
    obtain ⟨s', h1, h2, h3, h4, h5, h6⟩ := check_column_fix hn hc henc (hcode col hc) hd hclean
      han rfl rfl
      (by
        intro j hj
        rcases hj2 j hj with rfl | rfl
        · show s.eblk 0 < n
          omega
        · show s.eblk 1 < n
          omega)
      (by
        intro j j' hj hj' heq
        have heq' : s.eblk j = s.eblk j' := heq
        rcases hj2 j hj with rfl | rfl <;> rcases hj2 j' hj' with rfl | rfl
        · rfl
        · rw [hea, heb] at heq'
          exact absurd heq' hab
        · rw [hea, heb] at heq'
          exact absurd heq'.symm hab
        · rfl)
      (by
        intro j hj
        rcases hj2 j hj with rfl | rfl
        · show determine 2 s.inv _ _ 0
            = s.data (col + 1024 * s.eblk 0) ^^^ enc (col + 1024 * s.eblk 0)
          rw [(determine_two _ _ _).1, hea]
          apply (of_inj (byte_xor_lt (multiply_lt _ _) (multiply_lt _ _))
            (byte_xor_lt (hd _) (henc _))).1
          rw [of_xor (multiply_lt _ _) (multiply_lt _ _), of_multiply b0 z00,
            of_multiply b1 z01, o0, o1, v00, v01, err_of hd henc]
          exact ka.symm
        · show determine 2 s.inv _ _ 1
            = s.data (col + 1024 * s.eblk 1) ^^^ enc (col + 1024 * s.eblk 1)
          rw [(determine_two _ _ _).2, heb]
          apply (of_inj (byte_xor_lt (multiply_lt _ _) (multiply_lt _ _))
            (byte_xor_lt (hd _) (henc _))).1
          rw [of_xor (multiply_lt _ _) (multiply_lt _ _), of_multiply b0 z10,
            of_multiply b1 z11, o0, o1, v10, v11, err_of hd henc]
          exact kb.symm)
      (by
        intro r hr hne
        apply hP
        rw [row_div hc]
        have n0 : r ≠ s.eblk 0 := hne 0 (by show 0 < s.crcerrs; omega)
        have n1 : r ≠ s.eblk 1 := hne 1 (by show 1 < s.crcerrs; omega)
        rw [hea] at n0
        rw [heb] at n1
        exact fun h => h.elim n0 n1)
    refine ⟨s', h1, ⟨h2.trans hcr, by rw [h3]; exact hea, by rw [h3]; exact heb, ?_⟩, ?_, ?_⟩
    · rw [h4]
      exact ⟨z00, z01, z10, z11, v00, v01, v10, v11⟩
    · intro x hx
      by_cases hlt : x / 1024 < n
      · exact h5 x hx hlt
      · rw [h6 x (fun h => hlt h.2)]
        exact hP x (by omega)
    · intro x hx
      exact h6 x (fun h => hx h.1)

/-- A column step with three known error locations `a`, `b`, `c`. -/
theorem step_three {n : Nat} (hn : n ≤ 32) {enc : Buf} (henc : IsBytes enc)
    (hcode : ∀ col, col < 1024 → regs enc col n = (0, 0, 0)) {a b c : Nat} (ha : a < n)
    (hb : b < n) (hcn : c < n) (hab : a ≠ b) (hac : a ≠ c) (hbc : b ≠ c) :
    ∀ col s, col < 1024 →
      (s.crcerrs = 3 ∧ s.eblk 0 = a ∧ s.eblk 1 = b ∧ s.eblk 2 = c ∧ Inv3OK s.inv a b c) →
      IsBytes s.data →
      (∀ x, ¬ (x / 1024 = a ∨ x / 1024 = b ∨ x / 1024 = c) → s.data x = enc x) →
      ∃ s', check_column n col s = .next s' ∧
        (s'.crcerrs = 3 ∧ s'.eblk 0 = a ∧ s'.eblk 1 = b ∧ s'.eblk 2 = c ∧ Inv3OK s'.inv a b c) ∧
        (∀ x, x % 1024 = col → s'.data x = enc x) ∧
        (∀ x, x % 1024 ≠ col → s'.data x = s.data x) := by
  intro col s hc hI hd hP
  obtain ⟨hcr, hea, heb, hec, hinv⟩ := hI
  have hz := (regs_eq_zero_iff henc col n).1 (hcode col hc)
  obtain ⟨e0, e1, e2⟩ := @syn_err s.data _ _ _ hz
  have hoffz : ∀ i, ¬ (i = a ∨ i = b ∨ i = c) → err s.data enc col i = 0 :=
    fun i hi => err_off (P := fun r => r = a ∨ r = b ∨ r = c) hP hc hi
  have hnot : ∀ i, i ≠ a → i ≠ b → i ≠ c → ¬ (i = a ∨ i = b ∨ i = c) :=
    fun i h1 h2 h3 h => h.elim h1 (fun h' => h'.elim h2 h3)
  rw [sum_support3 _ ha hb hcn hab hac hbc (fun i _ h1 h2 h3 => by
    rw [hoffz i (hnot i h1 h2 h3), zero_mul])] at e0 e2
  rw [sum_support3 _ ha hb hcn hab hac hbc (fun i _ h1 h2 h3 => hoffz i (hnot i h1 h2 h3))] at e1
  have hD := det3_ap_ne (by omega : a < 255) (by omega : b < 255) (by omega : c < 255) hab hac hbc
  obtain ⟨ka, kb, kc⟩ := solve3 hD e0 e1 e2
  by_cases hclean : syn0 s.data col n = 0 ∧ syn1 s.data col n = 0 ∧ syn2 s.data col n = 0
  · refine ⟨s, check_column_clean hd (by omega) hc hclean, ⟨hcr, hea, heb, hec, hinv⟩, ?_,
      fun x _ => rfl⟩
    apply column_eq_of_err hd henc (P := fun r => r = a ∨ r = b ∨ r = c) hP
    intro i hi
    rcases hi with hi | hi | hi
    · rw [hi, ka, hclean.1, hclean.2.1, hclean.2.2, zero_mul, zero_mul, zero_mul, add_zero,
        add_zero]
    · rw [hi, kb, hclean.1, hclean.2.1, hclean.2.2, zero_mul, zero_mul, zero_mul, add_zero,
        add_zero]
    · rw [hi, kc, hclean.1, hclean.2.1, hclean.2.2, zero_mul, zero_mul, zero_mul, add_zero,
        add_zero]
  · have hspec := (compute_syndromes_spec hd (by omega : n ≤ 255) hc s.ss).2 hclean
    obtain ⟨-, o0, o1, o2, b0, b1, b2, -⟩ := hspec
    obtain ⟨zlt, v00, v01, v02, v10, v11, v12, v20, v21, v22⟩ := hinv
    have han := analyze_three (n := n)
      (s := { s with ss := (compute_syndromes s.data n col s.ss).2,
                     es := upd (upd (upd s.es 2 0) 1 0) 0 0 }) hcr
    have hj3 : ∀ j, j < s.crcerrs → j = 0 ∨ j = 1 ∨ j = 2 := by
      intro j hj
      omega
    have l3 : ∀ i j, i < 3 → j < 3 → s.inv.zs i j < 256 := zlt
    obtain ⟨s', h1, h2, h3, h4, h5, h6⟩ := check_column_fix hn hc henc (hcode col hc) hd hclean
      han rfl rfl
      (by
        intro j hj
        rcases hj3 j hj with rfl | rfl | rfl
        · show s.eblk 0 < n
          omega
        · show s.eblk 1 < n
          omega
        · show s.eblk 2 < n
          omega)
      (by
        intro j j' hj hj' heq
        have heq' : s.eblk j = s.eblk j' := heq
        rcases hj3 j hj with rfl | rfl | rfl <;> rcases hj3 j' hj' with rfl | rfl | rfl <;>
          first
          | rfl
          | (rw [hea, heb] at heq'; exact absurd heq' hab)
          | (rw [hea, hec] at heq'; exact absurd heq' hac)
          | (rw [heb, hec] at heq'; exact absurd heq' hbc)
          | (rw [heb, hea] at heq'; exact absurd heq'.symm hab)
          | (rw [hec, hea] at heq'; exact absurd heq'.symm hac)
          | (rw [hec, heb] at heq'; exact absurd heq'.symm hbc))
      (by
        have xl : ∀ u v w : Nat, u < 256 → v < 256 → w < 256 → u ^^^ v ^^^ w < 256 :=
          fun u v w hu hv hw => byte_xor_lt (byte_xor_lt hu hv) hw
        intro j hj
        rcases hj3 j hj with rfl | rfl | rfl
        · show determine 3 s.inv _ _ 0
            = s.data (col + 1024 * s.eblk 0) ^^^ enc (col + 1024 * s.eblk 0)
          rw [(determine_three _ _ _).1, hea]
          apply (of_inj (xl _ _ _ (multiply_lt _ _) (multiply_lt _ _) (multiply_lt _ _))
            (byte_xor_lt (hd _) (henc _))).1
          rw [of_xor (byte_xor_lt (multiply_lt _ _) (multiply_lt _ _)) (multiply_lt _ _),
            of_xor (multiply_lt _ _) (multiply_lt _ _),
            of_multiply b0 (l3 0 0 (by decide) (by decide)),
            of_multiply b1 (l3 0 1 (by decide) (by decide)),
            of_multiply b2 (l3 0 2 (by decide) (by decide)),
            o0, o1, o2, v00, v01, v02, err_of hd henc]
          exact ka.symm
        · show determine 3 s.inv _ _ 1
            = s.data (col + 1024 * s.eblk 1) ^^^ enc (col + 1024 * s.eblk 1)
          rw [(determine_three _ _ _).2.1, heb]
          apply (of_inj (xl _ _ _ (multiply_lt _ _) (multiply_lt _ _) (multiply_lt _ _))
            (byte_xor_lt (hd _) (henc _))).1
          rw [of_xor (byte_xor_lt (multiply_lt _ _) (multiply_lt _ _)) (multiply_lt _ _),
            of_xor (multiply_lt _ _) (multiply_lt _ _),
            of_multiply b0 (l3 1 0 (by decide) (by decide)),
            of_multiply b1 (l3 1 1 (by decide) (by decide)),
            of_multiply b2 (l3 1 2 (by decide) (by decide)),
            o0, o1, o2, v10, v11, v12, err_of hd henc]
          exact kb.symm
        · show determine 3 s.inv _ _ 2
            = s.data (col + 1024 * s.eblk 2) ^^^ enc (col + 1024 * s.eblk 2)
          rw [(determine_three _ _ _).2.2, hec]
          apply (of_inj (xl _ _ _ (multiply_lt _ _) (multiply_lt _ _) (multiply_lt _ _))
            (byte_xor_lt (hd _) (henc _))).1
          rw [of_xor (byte_xor_lt (multiply_lt _ _) (multiply_lt _ _)) (multiply_lt _ _),
            of_xor (multiply_lt _ _) (multiply_lt _ _),
            of_multiply b0 (l3 2 0 (by decide) (by decide)),
            of_multiply b1 (l3 2 1 (by decide) (by decide)),
            of_multiply b2 (l3 2 2 (by decide) (by decide)),
            o0, o1, o2, v20, v21, v22, err_of hd henc]
          exact kc.symm)
      (by
        intro r hr hne
        apply hP
        rw [row_div hc]
        have n0 : r ≠ s.eblk 0 := hne 0 (by show 0 < s.crcerrs; omega)
        have n1 : r ≠ s.eblk 1 := hne 1 (by show 1 < s.crcerrs; omega)
        have n2 : r ≠ s.eblk 2 := hne 2 (by show 2 < s.crcerrs; omega)
        rw [hea] at n0
        rw [heb] at n1
        rw [hec] at n2
        exact hnot r n0 n1 n2)
    refine ⟨s', h1, ⟨h2.trans hcr, by rw [h3]; exact hea, by rw [h3]; exact heb,
      by rw [h3]; exact hec, ?_⟩, ?_, ?_⟩
    · rw [h4]
      exact ⟨zlt, v00, v01, v02, v10, v11, v12, v20, v21, v22⟩
    · intro x hx
      by_cases hlt : x / 1024 < n
      · exact h5 x hx hlt
      · rw [h6 x (fun h => hlt h.2)]
        exact hP x (by omega)
    · intro x hx
      exact h6 x (fun h => hx h.1)

/-- A column step of a decode started with no known location, all errors lying
in block `b`: the location is discovered in the first column with a discrepancy
and kept. -/
theorem step_zero {n : Nat} (hn : n ≤ 32) {enc : Buf} (henc : IsBytes enc)
    (hcode : ∀ col, col < 1024 → regs enc col n = (0, 0, 0)) {b : Nat} (hb : b < n) :
    ∀ col s, col < 1024 → (s.crcerrs = 0 ∨ (s.crcerrs = 1 ∧ s.eblk 0 = b)) → IsBytes s.data →
      (∀ x, ¬ (x / 1024 = b) → s.data x = enc x) →
      ∃ s', check_column n col s = .next s' ∧
        (s'.crcerrs = 0 ∨ (s'.crcerrs = 1 ∧ s'.eblk 0 = b)) ∧
        (∀ x, x % 1024 = col → s'.data x = enc x) ∧
        (∀ x, x % 1024 ≠ col → s'.data x = s.data x) := by
  intro col s hc hI hd hP
  rcases hI with hcr | hI
  swap
  · obtain ⟨s', h1, h2, h3, h4⟩ := step_one hn henc hcode hb col s hc hI hd hP
    exact ⟨s', h1, Or.inr h2, h3, h4⟩
  have hz := (regs_eq_zero_iff henc col n).1 (hcode col hc)
  obtain ⟨e0, e1, e2⟩ := @syn_err s.data _ _ _ hz
  have hoffz : ∀ i, ¬ (i = b) → err s.data enc col i = 0 :=
    fun i hi => err_off (P := fun r => r = b) hP hc hi
  rw [sum_support1 _ hb (fun i _ hib => by rw [hoffz i hib, zero_mul])] at e0 e2
  rw [sum_support1 _ hb (fun i _ hib => hoffz i hib)] at e1
  obtain ⟨k1, -, -⟩ := solve1 (ap_ne_zero b) e0 e1 e2
  by_cases hclean : syn0 s.data col n = 0 ∧ syn1 s.data col n = 0 ∧ syn2 s.data col n = 0
  · refine ⟨s, check_column_clean hd (by omega) hc hclean, Or.inl hcr, ?_, fun x _ => rfl⟩
    apply column_eq_of_err hd henc (P := fun r => r = b) hP
    intro i hi
    rw [hi, ← k1, hclean.1, zero_mul]
  · have hspec := (compute_syndromes_spec hd (by omega : n ≤ 255) hc s.ss).2 hclean
    obtain ⟨-, o0, o1, o2, b0, b1, b2, -⟩ := hspec
    have herr : err s.data enc col b ≠ 0 := by
      intro h
      apply hclean
      rw [e0, e1, e2, h]
      simp
    have hs0 : syn0 s.data col n ≠ 0 := by
      rw [e0]
      exact mul_ne_zero herr (inv_ne_zero (ap_ne_zero b))
    have hss0 : (compute_syndromes s.data n col s.ss).2 0 ≠ 0 := by
      intro h
      rw [h] at o0
      exact hs0 o0.symm
    have hdiv : divide ((compute_syndromes s.data n col s.ss).2 1)
        ((compute_syndromes s.data n col s.ss).2 0) = apow b := by
      apply (of_inj (divide_lt _ _) (apow_lt b)).1
      rw [of_divide b1 b0, o0, o1, e0, e1]
      show _ = ap b
      field_simp
    have hlog : alpha_log.getD (divide ((compute_syndromes s.data n col s.ss).2 1)
        ((compute_syndromes s.data n col s.ss).2 0)) 0 = b := by
      rw [hdiv, log_apow]
      exact Nat.mod_eq_of_lt (by omega)
    have han := analyze_zero (n := n)
      (s := { s with ss := (compute_syndromes s.data n col s.ss).2,
                     es := upd (upd (upd s.es 2 0) 1 0) 0 0 }) hcr hss0
      (by
        show alpha_log.getD (divide ((compute_syndromes s.data n col s.ss).2 1)
          ((compute_syndromes s.data n col s.ss).2 0)) 0 < n
        rw [hlog]
        exact hb)
    have hj1 : ∀ j : Nat, j < 1 → j = 0 := by
      intro j hj
      omega
    obtain ⟨s', h1, h2, h3, -, h5, h6⟩ := check_column_fix hn hc henc (hcode col hc) hd hclean han
      rfl rfl
      (by
        intro j hj
        have hj0 := hj1 j hj
        subst hj0
        dsimp only
        rw [upd_same, hlog]
        exact hb)
      (by
        intro j j' hj hj' _
        rw [hj1 j hj, hj1 j' hj'])
      (by
        intro j hj
        have hj0 := hj1 j hj
        subst hj0
        dsimp only
        rw [upd_same, upd_same, hlog]
        apply (of_inj b1 (byte_xor_lt (hd _) (henc _))).1
        rw [o1, e1, err_of hd henc])
      (by
        intro r hr hne
        apply hP
        rw [row_div hc]
        have := hne 0 Nat.zero_lt_one
        intro h
        apply this
        dsimp only
        rw [upd_same, hlog]
        exact h)
    refine ⟨s', h1, Or.inr ⟨h2, ?_⟩, ?_, ?_⟩
    · rw [h3]
      dsimp only
      rw [upd_same, hlog]
    · intro x hx
      by_cases hlt : x / 1024 < n
      · exact h5 x hx hlt
      · rw [h6 x (fun h => hlt h.2)]
        exact hP x (by omega)
    · intro x hx
      exact h6 x (fun h => hx h.1)

/-! ## Decoding restores what was encoded -/

theorem flagged_lt {crcmap n x : Nat} (h : x ∈ flagged crcmap 0 n) : x < n := by
  unfold flagged at h
  rw [List.mem_filter, List.mem_range'_1] at h
  omega

theorem flagged_nodup (crcmap n : Nat) : (flagged crcmap 0 n).Nodup :=
  (List.nodup_range' 0 n).filter _

theorem flagged_mem {crcmap n x : Nat} :
    x ∈ flagged crcmap 0 n ↔ x < n ∧ crcmap.testBit x = true := by
  unfold flagged
  rw [List.mem_filter, List.mem_range'_1]
  constructor
  · rintro ⟨h1, h2⟩
    exact ⟨by omega, h2⟩
  · rintro ⟨h1, h2⟩
    exact ⟨by omega, h2⟩

theorem encoded_code (buf : Buf) {n : Nat} (hn : 3 ≤ n) :
    ∀ col, col < 1024 → regs (parity_spec buf (n - 3)) col n = (0, 0, 0) := by
  intro col hc
  have := regs_parity_spec buf (n - 3) hc
  have e : n - 3 + 3 = n := by omega
  rwa [e] at this

/-- With at most three flagged blocks, all of the corruption lying inside flagged
blocks, `check_parity` returns 0 and restores the encoded segment. -/
theorem check_parity_restore_flagged (badmap crcmap : Nat) (hn : 3 ≤ sect_count badmap)
    (buf buf' : Buf) (hb : IsBytes buf) (hb' : IsBytes buf')
    (hlen : (flagged crcmap 0 (sect_count badmap)).length ≤ 3)
    (hchg : ∀ x, x / 1024 ∉ flagged crcmap 0 (sect_count badmap) →
      buf' x = (set_parity buf badmap).2 x) :
    check_parity buf' badmap crcmap = (0, (set_parity buf badmap).2) := by
  have hn32 := sect_count_le badmap
  rw [set_parity_eq] at hchg ⊢
  simp only at hchg ⊢
  have henc : IsBytes (parity_spec buf (sect_count badmap - 3)) := parity_spec_bytes hb _
  have hcode := encoded_code buf hn
  have hlt : ∀ x, x ∈ flagged crcmap 0 (sect_count badmap) → x < sect_count badmap :=
    fun x hx => flagged_lt hx
  have hnd := flagged_nodup crcmap (sect_count badmap)
  unfold check_parity
  simp only
  rw [crc_scan_eq, if_pos hlen]
  generalize flagged crcmap 0 (sect_count badmap) = L at hlen hchg hlt hnd
  generalize sect_count badmap = n at hn hn32 henc hcode hlt hchg
  generalize parity_spec buf (n - 3) = enc at henc hcode hchg
  rcases L with _ | ⟨a, _ | ⟨b, _ | ⟨c, _ | ⟨d, rest⟩⟩⟩⟩
  · simp only [List.length_nil]
    have hci : ∀ (e : Nat → Nat) (inv : inv_mat), calculate_inverse 0 e inv = (1, inv) := by
      intro e inv
      rfl
    rw [hci]
    simp only [QCV_BLKSIZE, Nat.succ_ne_zero, if_false]
    exact column_loop_restores henc (fun _ => True) (fun _ => False)
      (step_clean hn32 henc hcode) 1024 0 _ (by omega) trivial hb'
      (fun x _ => hchg x (by simp)) (fun x hx => by omega)
  · simp only [List.length_cons, List.length_nil]
    have hci : ∀ (e : Nat → Nat) (inv : inv_mat), calculate_inverse 1 e inv = (1, inv) := by
      intro e inv
      rfl
    rw [hci]
    simp only [QCV_BLKSIZE, Nat.succ_ne_zero, if_false]
    have ha : a < n := hlt a (by simp)
    exact column_loop_restores henc (fun s => s.crcerrs = 1 ∧ s.eblk 0 = a)
      (fun r => r = a) (step_one hn32 henc hcode ha) 1024 0 _ (by omega)
      ⟨rfl, rfl⟩ hb' (fun x hx => hchg x (by simpa using hx)) (fun x hx => by omega)
  · simp only [List.length_cons, List.length_nil]
    have ha : a < n := hlt a (by simp)
    have hbn : b < n := hlt b (by simp)
    have hab : a ≠ b := by
      intro h
      subst h
      simp at hnd
    obtain ⟨h1, h2⟩ := @calculate_inverse_two
      (fun j => if j < 0 + 1 + 1 then [a, b].getD j 0 else 0) a b rfl rfl
      (by omega) (by omega) hab { log_denom := 0, zs := fun _ _ => 0 }
    rw [if_neg (by rw [h1]; decide)]
    simp only [QCV_BLKSIZE]
    exact column_loop_restores henc
      (fun s => s.crcerrs = 2 ∧ s.eblk 0 = a ∧ s.eblk 1 = b ∧ Inv2OK s.inv a b)
      (fun r => r = a ∨ r = b) (step_two hn32 henc hcode ha hbn hab) 1024 0 _ (by omega)
      ⟨rfl, rfl, rfl, h2⟩ hb' (fun x hx => hchg x (by simpa using hx)) (fun x hx => by omega)
  · simp only [List.length_cons, List.length_nil]
    have ha : a < n := hlt a (by simp)
    have hbn : b < n := hlt b (by simp)
    have hcn : c < n := hlt c (by simp)
    have hab : a ≠ b := by
      intro h
      subst h
      simp at hnd
    have hac : a ≠ c := by
      intro h
      subst h
      simp at hnd
    have hbc : b ≠ c := by
      intro h
      subst h
      simp at hnd
    obtain ⟨h1, h2⟩ := @calculate_inverse_three
      (fun j => if j < 0 + 1 + 1 + 1 then [a, b, c].getD j 0 else 0) a b c rfl rfl rfl (by omega) (by omega) (by omega) hab hac hbc
      { log_denom := 0, zs := fun _ _ => 0 }
    rw [if_neg (by rw [h1]; decide)]
    simp only [QCV_BLKSIZE]
    exact column_loop_restores henc
      (fun s => s.crcerrs = 3 ∧ s.eblk 0 = a ∧ s.eblk 1 = b ∧ s.eblk 2 = c ∧ Inv3OK s.inv a b c)
      (fun r => r = a ∨ r = b ∨ r = c) (step_three hn32 henc hcode ha hbn hcn hab hac hbc)
      1024 0 _ (by omega) ⟨rfl, rfl, rfl, rfl, h2⟩ hb'
      (fun x hx => hchg x (by simpa using hx)) (fun x hx => by omega)
  · simp only [List.length_cons] at hlen
    omega

theorem flagged_of_set {crcmap n : Nat} {K : Finset Nat} (hKn : ∀ k ∈ K, k < n)
    (hcrc : ∀ i, i < n → (crcmap.testBit i = true ↔ i ∈ K)) :
    (∀ x, x ∈ flagged crcmap 0 n ↔ x ∈ K) ∧ (flagged crcmap 0 n).length = K.card := by
  have hmem : ∀ x, x ∈ flagged crcmap 0 n ↔ x ∈ K := by
    intro x
    rw [flagged_mem]
    exact ⟨fun h => (hcrc x h.1).1 h.2, fun h => ⟨hKn x h, (hcrc x (hKn x h)).2 h⟩⟩
  refine ⟨hmem, ?_⟩
  rw [← List.toFinset_card_of_nodup (flagged_nodup crcmap n)]
  congr 1
  ext x
  rw [List.mem_toFinset, hmem]

theorem set_parity_bytes {buf : Buf} (hb : IsBytes buf) (badmap : Nat) :
    IsBytes (set_parity buf badmap).2 := by
  rw [set_parity_eq]
  exact parity_spec_bytes hb _

theorem zero_bytes : IsBytes (fun _ => 0) := fun _ => Nat.zero_lt_succ _

/-- C1. Round trip with up to 3 flagged blocks: a 32-block segment encoded by
`set_parity` with `badmap = 0`, then changed arbitrarily inside the blocks of a
set `K` of at most 3 blocks, is restored exactly by `check_parity` called with a
`crcmap` whose set bits are exactly `K`, and the call returns 0. -/
theorem check_parity_round_trip (buf buf' : Buf) (hb : IsBytes buf) (hb' : IsBytes buf')
    (K : Finset Nat) (hK : K.card ≤ 3) (hK32 : ∀ k ∈ K, k < 32)
    (hchg : ∀ x, buf' x ≠ (set_parity buf 0).2 x → x / 1024 ∈ K)
    (crcmap : Nat) (hcrc : ∀ i, i < 32 → (crcmap.testBit i = true ↔ i ∈ K)) :
    check_parity buf' 0 crcmap = (0, (set_parity buf 0).2) := by
  have hfl := flagged_of_set (n := sect_count 0) (by rw [sect_count_zero]; exact hK32)
    (by rw [sect_count_zero]; exact hcrc)
  apply check_parity_restore_flagged 0 crcmap (by rw [sect_count_zero]; decide) buf buf' hb hb'
  · rw [hfl.2]
    exact hK
  · intro x hx
    by_contra hne
    exact hx ((hfl.1 _).2 (hchg x hne))

theorem check_parity_round_trip_witness :
    (({5} : Finset Nat).card ≤ 3 ∧
      ∀ i, i < 32 → (Nat.testBit 32 i = true ↔ i ∈ ({5} : Finset Nat))) ∧
    check_parity (fun x => if x = 5127 then 1 else (set_parity (fun _ => 0) 0).2 x) 0 32
      = (0, (set_parity (fun _ => 0) 0).2) :=
  have hcrc : ∀ i, i < 32 → (Nat.testBit 32 i = true ↔ i ∈ ({5} : Finset Nat)) := by
    decide
  ⟨⟨by decide, hcrc⟩,
    check_parity_round_trip (fun _ => 0)
      (fun x => if x = 5127 then 1 else (set_parity (fun _ => 0) 0).2 x) zero_bytes
      (by
        intro x
        by_cases h : x = 5127
        · simp [h]
        · simp only [h, if_false]
          exact set_parity_bytes zero_bytes 0 x)
      {5} (by decide) (by decide)
      (by
        intro x hx
        by_cases h : x = 5127
        · subst h
          decide
        · simp [h] at hx)
      32 hcrc⟩

/-- C2. Single unlocated error: a segment encoded with `badmap = 0`, then changed
arbitrarily inside one block `b`, is restored exactly by `check_parity` called
with `badmap = 0` and `crcmap = 0`, and the call returns 0. -/
theorem check_parity_single_unlocated (buf buf' : Buf) (hb : IsBytes buf) (hb' : IsBytes buf')
    (b : Nat) (hb32 : b < 32)
    (hchg : ∀ x, buf' x ≠ (set_parity buf 0).2 x → x / 1024 = b) :
    check_parity buf' 0 0 = (0, (set_parity buf 0).2) := by
  have henc : IsBytes (set_parity buf 0).2 := set_parity_bytes hb 0
  have hcode : ∀ col, col < 1024 → regs (set_parity buf 0).2 col 32 = (0, 0, 0) := by
    rw [set_parity_eq, sect_count_zero]
    exact encoded_code buf (by decide)
  unfold check_parity
  simp only
  rw [crc_scan_eq, flagged_of_zero, sect_count_zero]
  simp only [List.length_nil, Nat.zero_le, if_true]
  have hci : ∀ (e : Nat → Nat) (inv : inv_mat), calculate_inverse 0 e inv = (1, inv) := by
    intro e inv
    rfl
  rw [hci]
  simp only [QCV_BLKSIZE, Nat.succ_ne_zero, if_false]
  exact column_loop_restores henc (fun s => s.crcerrs = 0 ∨ (s.crcerrs = 1 ∧ s.eblk 0 = b))
    (fun r => r = b) (step_zero (by decide) henc hcode hb32) 1024 0 _ (by omega)
    (Or.inl rfl) hb' (fun x hx => by
      by_contra hne
      exact hx (hchg x hne)) (fun x hx => by omega)

theorem check_parity_single_unlocated_witness :
    (17 : Nat) < 32 ∧
    check_parity (fun x => if x = 17 * 1024 + 3 then 255 else (set_parity (fun _ => 0) 0).2 x) 0 0
      = (0, (set_parity (fun _ => 0) 0).2) :=
  ⟨by decide,
    check_parity_single_unlocated (fun _ => 0)
      (fun x => if x = 17 * 1024 + 3 then 255 else (set_parity (fun _ => 0) 0).2 x) zero_bytes
      (by
        intro x
        by_cases h : x = 17 * 1024 + 3
        · simp [h]
        · simp only [h, if_false]
          exact set_parity_bytes zero_bytes 0 x)
      17 (by decide)
      (by
        intro x hx
        by_cases h : x = 17 * 1024 + 3
        · subst h
          decide
        · simp [h] at hx)⟩

/-- C4. Erasure-only correction for every segment geometry: with
`n = sect_count badmap`, `3 <= n <= 32`, a segment encoded by `set_parity` in
which every byte of the blocks of a set `K` of at most 3 blocks below `n` has
been overwritten with 0 is restored exactly by `check_parity` called with a
`crcmap` whose set bits are exactly `K`, and the call returns 0. -/
theorem check_parity_erasures (badmap : Nat) (hn : 3 ≤ sect_count badmap)
    (buf : Buf) (hb : IsBytes buf) (K : Finset Nat) (hK : K.card ≤ 3)
    (hKn : ∀ k ∈ K, k < sect_count badmap)
    (crcmap : Nat) (hcrc : ∀ i, i < 32 → (crcmap.testBit i = true ↔ i ∈ K)) :
    sect_count badmap ≤ 32 ∧
    check_parity (fun x => if x / 1024 ∈ K then 0 else (set_parity buf badmap).2 x) badmap crcmap
      = (0, (set_parity buf badmap).2) := by
  have hfl := flagged_of_set hKn
    (fun i hi => hcrc i (Nat.lt_of_lt_of_le hi (sect_count_le badmap)))
  refine ⟨sect_count_le badmap, ?_⟩
  apply check_parity_restore_flagged badmap crcmap hn buf _ hb
  · intro x
    show (if x / 1024 ∈ K then 0 else (set_parity buf badmap).2 x) < 256
    split
    · decide
    · exact set_parity_bytes hb badmap x
  · rw [hfl.2]
    exact hK
  · intro x hx
    show (if x / 1024 ∈ K then 0 else (set_parity buf badmap).2 x) = _
    rw [if_neg (fun h => hx ((hfl.1 _).2 h))]

theorem check_parity_erasures_witness :
    (3 ≤ sect_count 0 ∧ ({0, 31} : Finset Nat).card ≤ 3) ∧
    sect_count 0 ≤ 32 ∧
    check_parity (fun x => if x / 1024 ∈ ({0, 31} : Finset Nat) then 0
        else (set_parity (fun x => x % 256) 0).2 x) 0 (2 ^ 31 + 1)
      = (0, (set_parity (fun x => x % 256) 0).2) :=
  have h3 : 3 ≤ sect_count 0 := by
    rw [sect_count_zero]
    decide
  ⟨⟨h3, by decide⟩,
    check_parity_erasures 0 h3 (fun x => x % 256) (fun x => Nat.mod_lt x (by decide))
      {0, 31} (by decide)
      (by
        rw [sect_count_zero]
        decide)
      (2 ^ 31 + 1)
      (by decide)⟩

/-! ## Detection -/

/-- The rows of column `c`, among the first `n`, in which `d'` differs from `d`. -/
def altered (d d' : Buf) (c n : Nat) : Finset Nat :=
  (Finset.range n).filter (fun r => d' (c + 1024 * r) ≠ d (c + 1024 * r))

theorem mem_altered {d d' : Buf} {c n r : Nat} :
    r ∈ altered d d' c n ↔ r < n ∧ d' (c + 1024 * r) ≠ d (c + 1024 * r) := by
  unfold altered
  rw [Finset.mem_filter, Finset.mem_range]

/-- The code has distance 4: a column of an encoded segment altered in at most
three rows has vanishing syndromes only if it was not altered at all. -/
theorem altered_eq_empty {n : Nat} (hn : n ≤ 32) {enc d : Buf} (henc : IsBytes enc)
    (hd : IsBytes d) {c : Nat} (hcode : regs enc c n = (0, 0, 0))
    (hcard : (altered enc d c n).card ≤ 3)
    (hz : syn0 d c n = 0 ∧ syn1 d c n = 0 ∧ syn2 d c n = 0) : altered enc d c n = ∅ := by
  have hze := (regs_eq_zero_iff henc c n).1 hcode
  obtain ⟨e0, e1, e2⟩ := @syn_err d _ _ _ hze
  rw [hz.1] at e0
  rw [hz.2.1] at e1
  rw [hz.2.2] at e2
  have hoff : ∀ i, i < n → i ∉ altered enc d c n → err d enc c i = 0 := by
    intro i hi hni
    apply err_eq_zero
    by_contra hne
    exact hni (mem_altered.2 ⟨hi, hne⟩)
  have hon : ∀ i, i ∈ altered enc d c n → err d enc c i ≠ 0 := by
    intro i hi h
    exact (mem_altered.1 hi).2 ((err_zero_iff hd henc c i).1 h)
  have hcases : (altered enc d c n).card = 0 ∨ (altered enc d c n).card = 1 ∨
      (altered enc d c n).card = 2 ∨ (altered enc d c n).card = 3 := by omega
  rcases hcases with h | h | h | h
  · exact Finset.card_eq_zero.1 h
  · exfalso
    obtain ⟨a, hA⟩ := Finset.card_eq_one.1 h
    have ha : a ∈ altered enc d c n := by
      rw [hA]
      exact Finset.mem_singleton_self a
    have han := (mem_altered.1 ha).1
    have hsup : ∀ i, i < n → i ≠ a → err d enc c i = 0 := by
      intro i hi hia
      apply hoff i hi
      rw [hA, Finset.mem_singleton]
      exact hia
    rw [sum_support1 _ han (fun i hi hia => hsup i hi hia)] at e1
    exact hon a ha e1.symm
  · exfalso
    obtain ⟨a, b, hab, hA⟩ := Finset.card_eq_two.1 h
    have ha : a ∈ altered enc d c n := by
      rw [hA]
      simp
    have hb : b ∈ altered enc d c n := by
      rw [hA]
      simp
    have han := (mem_altered.1 ha).1
    have hbn := (mem_altered.1 hb).1
    have hsup : ∀ i, i < n → i ≠ a → i ≠ b → err d enc c i = 0 := by
      intro i hi hia hib
      apply hoff i hi
      rw [hA]
      simp [hia, hib]
    rw [sum_support2 _ han hbn hab (fun i hi h1 h2 => by rw [hsup i hi h1 h2, zero_mul])] at e0
    rw [sum_support2 _ han hbn hab (fun i hi h1 h2 => hsup i hi h1 h2)] at e1
    have hD := ap_inv_add_ne (by omega : a < 255) (by omega : b < 255) hab
    obtain ⟨ka, -⟩ := solve2 hD e0 e1
    apply hon a ha
    rw [ka]
    simp
  · exfalso
    obtain ⟨a, b, c', hab, hac, hbc, hA⟩ := Finset.card_eq_three.1 h
    have ha : a ∈ altered enc d c n := by
      rw [hA]
      simp
    have hb : b ∈ altered enc d c n := by
      rw [hA]
      simp
    have hc' : c' ∈ altered enc d c n := by
      rw [hA]
      simp
    have han := (mem_altered.1 ha).1
    have hbn := (mem_altered.1 hb).1
    have hcn := (mem_altered.1 hc').1
    have hsup : ∀ i, i < n → i ≠ a → i ≠ b → i ≠ c' → err d enc c i = 0 := by
      intro i hi hia hib hic
      apply hoff i hi
      rw [hA]
      simp [hia, hib, hic]
    rw [sum_support3 _ han hbn hcn hab hac hbc
      (fun i hi h1 h2 h3 => by rw [hsup i hi h1 h2 h3, zero_mul])] at e0 e2
    rw [sum_support3 _ han hbn hcn hab hac hbc (fun i hi h1 h2 h3 => hsup i hi h1 h2 h3)] at e1
    have hD := det3_ap_ne (by omega : a < 255) (by omega : b < 255) (by omega : c' < 255)
      hab hac hbc
    obtain ⟨ka, -, -⟩ := solve3 hD e0 e1 e2
    apply hon a ha
    rw [ka]
    simp

/-- C6. Syndromes vanish exactly on uncorrupted columns: on every column of a
segment encoded by `set_parity` (`3 <= n = sect_count badmap <= 32`)
`compute_syndromes` returns 1; once the column is altered in at least one and
at most three of its `n` rows it returns 0; and for alterations of at most three
rows the three outputs of the recurrence are all zero exactly when no row was
altered. -/
theorem compute_syndromes_detects (badmap : Nat) (hn : 3 ≤ sect_count badmap) (buf : Buf)
    (hb : IsBytes buf) (c : Nat) (hc : c < 1024) (ss : Nat → Nat) :
    sect_count badmap ≤ 32 ∧
    (compute_syndromes (set_parity buf badmap).2 (sect_count badmap) c ss).1 = 1 ∧
    ∀ buf' : Buf, IsBytes buf' →
      (altered (set_parity buf badmap).2 buf' c (sect_count badmap)).card ≤ 3 →
      (1 ≤ (altered (set_parity buf badmap).2 buf' c (sect_count badmap)).card →
        (compute_syndromes buf' (sect_count badmap) c ss).1 = 0) ∧
      (syndrome_rows buf' (sect_count badmap <<< 10) (sect_count badmap <<< 10) c (0, 0, 0)
          = (0, 0, 0) ↔
        (altered (set_parity buf badmap).2 buf' c (sect_count badmap)).card = 0) := by
  have hn32 := sect_count_le badmap
  have henc : IsBytes (set_parity buf badmap).2 := set_parity_bytes hb badmap
  have hcode : regs (set_parity buf badmap).2 c (sect_count badmap) = (0, 0, 0) := by
    rw [set_parity_eq]
    exact encoded_code buf hn c hc
  refine ⟨hn32, ?_, ?_⟩
  · rw [(compute_syndromes_spec henc (by omega) hc ss).1 ((regs_eq_zero_iff henc c _).1 hcode)]
  · intro buf' hb' hcard
    constructor
    · intro h1
      apply ((compute_syndromes_spec hb' (by omega) hc ss).2 ?_).1
      intro hz
      rw [altered_eq_empty hn32 henc hb' hcode hcard hz] at h1
      simp at h1
    · rw [syndrome_rows_regs buf' hc, regs_eq_zero_iff hb' c]
      constructor
      · intro hz
        rw [altered_eq_empty hn32 henc hb' hcode hcard hz]
        rfl
      · intro h0
        have hempty := Finset.card_eq_zero.1 h0
        have hsame : regs buf' c (sect_count badmap)
            = regs (set_parity buf badmap).2 c (sect_count badmap) := by
          apply regs_congr
          intro i hi
          by_contra hne
          have : i ∈ altered (set_parity buf badmap).2 buf' c (sect_count badmap) :=
            mem_altered.2 ⟨hi, hne⟩
          rw [hempty] at this
          simp at this
        apply (regs_eq_zero_iff hb' c _).1
        rw [hsame]
        exact hcode

theorem compute_syndromes_detects_witness :
    (3 ≤ sect_count 0 ∧ (7 : Nat) < 1024) ∧
    sect_count 0 ≤ 32 ∧
    (compute_syndromes (set_parity (fun _ => 0) 0).2 (sect_count 0) 7 (fun _ => 0)).1 = 1 ∧
    ∀ buf' : Buf, IsBytes buf' →
      (altered (set_parity (fun _ => 0) 0).2 buf' 7 (sect_count 0)).card ≤ 3 →
      (1 ≤ (altered (set_parity (fun _ => 0) 0).2 buf' 7 (sect_count 0)).card →
        (compute_syndromes buf' (sect_count 0) 7 (fun _ => 0)).1 = 0) ∧
      (syndrome_rows buf' (sect_count 0 <<< 10) (sect_count 0 <<< 10) 7 (0, 0, 0)
          = (0, 0, 0) ↔
        (altered (set_parity (fun _ => 0) 0).2 buf' 7 (sect_count 0)).card = 0) :=
  have h3 : 3 ≤ sect_count 0 := by
    rw [sect_count_zero]
    decide
  ⟨⟨h3, by decide⟩, compute_syndromes_detects 0 h3 (fun _ => 0) zero_bytes 7 (by decide)
    (fun _ => 0)⟩

/-! ## More than three corrupted blocks -/

theorem regs_zero (col m : Nat) : regs (fun _ => 0) col m = (0, 0, 0) := by
  induction m with
  | zero => rfl
  | succ m ih =>
    show lfsr_step 0 (regs (fun _ => 0) col m) = (0, 0, 0)
    rw [ih]
    simp only [lfsr_step, Nat.xor_self, mult_c0_zero, Nat.zero_xor, Nat.xor_zero]

/-- An encoded segment that nothing has changed decodes to itself. -/
theorem check_parity_keeps_encoded (buf : Buf) (hb : IsBytes buf) :
    check_parity (set_parity buf 0).2 0 0 = (0, (set_parity buf 0).2) :=
  check_parity_restore_flagged 0 0 (by rw [sect_count_zero]; decide) buf _ hb
    (set_parity_bytes hb 0) (by rw [flagged_of_zero]; decide) (fun _ _ => rfl)

/-- The segment `data` agrees with `data0` outside the blocks `e 0 .. e (m - 1)`. -/
def Touched (data0 data : Buf) (e : Nat → Nat) (m : Nat) : Prop :=
  ∀ x, (∀ j, j < m → x / 1024 ≠ e j) → data x = data0 x

/-- What `analyze` does to the state, whatever the syndromes: it fails without
touching the segment, or it keeps the locations known so far and knows at most
three. -/
theorem analyze_general (n : Nat) (s : cp_state) (h3 : s.crcerrs ≤ 3) :
    match analyze n s with
    | .ret code data => code = 1 ∧ data = s.data
    | .next s1 => s1.data = s.data ∧ s1.crcerrs ≤ 3 ∧ s.crcerrs ≤ s1.crcerrs ∧
        ∀ j, j < s.crcerrs → s1.eblk j = s.eblk j := by
  obtain ⟨data, crcerrs, eblk, ss, es, inv⟩ := s
  simp only at h3
  have hcases : crcerrs = 0 ∨ crcerrs = 1 ∨ crcerrs = 2 ∨ crcerrs = 3 := by omega
  rcases hcases with rfl | rfl | rfl | rfl
  · unfold analyze
    simp only
    split_ifs <;> simp
  · unfold analyze
    simp only
    split_ifs <;> simp [upd]
  · unfold analyze
    simp
  · unfold analyze
    simp

/-- The state's segment agrees with `data0` outside the blocks located so far,
of which there are at most three. -/
def StateTouched (data0 : Buf) (s : cp_state) : Prop :=
  s.crcerrs ≤ 3 ∧ Touched data0 s.data s.eblk s.crcerrs

/-- The corrections after a successful analysis keep every change inside the
blocks located so far. -/
theorem correct_general {col : Nat} (hc : col < 1024) (data0 : Buf) (s0 : cp_state)
    (hs : StateTouched data0 s0) (r : outcome)
    (han : match r with
      | .ret code data => code = 1 ∧ data = s0.data
      | .next s1 => s1.data = s0.data ∧ s1.crcerrs ≤ 3 ∧ s0.crcerrs ≤ s1.crcerrs ∧
          ∀ j, j < s0.crcerrs → s1.eblk j = s0.eblk j) :
    match (match r with
      | .ret code data => outcome.ret code data
      | .next s1 =>
        if (correct_loop col s1.eblk s1.es s1.crcerrs 0 s1.data s1.ss).2 0 ≠ 0 ∨
            (correct_loop col s1.eblk s1.es s1.crcerrs 0 s1.data s1.ss).2 1 ≠ 0 ∨
            (correct_loop col s1.eblk s1.es s1.crcerrs 0 s1.data s1.ss).2 2 ≠ 0 then
          outcome.ret 1 (correct_loop col s1.eblk s1.es s1.crcerrs 0 s1.data s1.ss).1
        else
          outcome.next
            { s1 with data := (correct_loop col s1.eblk s1.es s1.crcerrs 0 s1.data s1.ss).1,
                      ss := (correct_loop col s1.eblk s1.es s1.crcerrs 0 s1.data s1.ss).2 }) with
    | .ret code data => code = 1 ∧ ∃ e m, m ≤ 3 ∧ Touched data0 data e m
    | .next s' => StateTouched data0 s' := by
  rcases r with s1 | ⟨code, data⟩
  · simp only at han ⊢
    obtain ⟨hd1, h3, hle, hpre⟩ := han
    have hother := fun x => correct_loop_other col s1.eblk s1.es x s1.crcerrs 0 s1.data s1.ss
    have htouch : Touched data0
        (correct_loop col s1.eblk s1.es s1.crcerrs 0 s1.data s1.ss).1 s1.eblk s1.crcerrs := by
      intro x hx
      rw [hother x (fun j _ hj heq => by
        rw [shl_or_eq _ hc] at heq
        apply hx j (by omega)
        rw [heq, row_div hc]), hd1]
      apply hs.2
      intro j hj
      rw [← hpre j hj]
      exact hx j (Nat.lt_of_lt_of_le hj hle)
    split_ifs
    · exact ⟨rfl, s1.eblk, s1.crcerrs, h3, htouch⟩
    · exact ⟨h3, htouch⟩
  · simp only at han ⊢
    obtain ⟨h1, h2⟩ := han
    refine ⟨h1, s0.eblk, s0.crcerrs, hs.1, ?_⟩
    rw [h2]
    exact hs.2

/-- A column step keeps every change inside at most three blocks. -/
theorem check_column_general (n : Nat) {col : Nat} (hc : col < 1024) (data0 : Buf)
    (s : cp_state) (hs : StateTouched data0 s) :
    match check_column n col s with
    | .ret code data => code = 1 ∧ ∃ e m, m ≤ 3 ∧ Touched data0 data e m
    | .next s' => StateTouched data0 s' := by
  unfold check_column
  simp only
  by_cases hcs : (compute_syndromes s.data n col s.ss).1 ≠ 0
  · rw [if_pos hcs]
    exact hs
  · rw [if_neg hcs]
    have hs0 : StateTouched data0
        ({ s with ss := (compute_syndromes s.data n col s.ss).2,
                  es := upd (upd (upd s.es 2 0) 1 0) 0 0 } : cp_state) := ⟨hs.1, hs.2⟩
    exact correct_general hc data0
      ({ s with ss := (compute_syndromes s.data n col s.ss).2,
                es := upd (upd (upd s.es 2 0) 1 0) 0 0 } : cp_state) hs0
      (analyze n ({ s with ss := (compute_syndromes s.data n col s.ss).2,
                           es := upd (upd (upd s.es 2 0) 1 0) 0 0 } : cp_state))
      (analyze_general n _ hs0.1)

theorem column_loop_zero (n col : Nat) (s : cp_state) :
    column_loop n 0 col s = (0, s.data) := rfl

theorem column_loop_succ (n k col : Nat) (s : cp_state) :
    column_loop n (k + 1) col s =
      match check_column n col s with
      | .ret code data => (code, data)
      | .next s' => column_loop n k (col + 1) s' := rfl

theorem column_loop_general (n : Nat) (data0 : Buf) :
    ∀ k col s, col + k = 1024 → StateTouched data0 s →
      ((column_loop n k col s).1 = 0 ∨ (column_loop n k col s).1 = 1) ∧
      ∃ e m, m ≤ 3 ∧ Touched data0 (column_loop n k col s).2 e m := by
  intro k
  induction k with
  | zero =>
    intro col s _ hs
    rw [column_loop_zero]
    exact ⟨Or.inl rfl, s.eblk, s.crcerrs, hs.1, hs.2⟩
  | succ k ih =>
    intro col s hk hs
    have hstep := check_column_general n (by omega : col < 1024) data0 s hs
    rw [column_loop_succ]
    cases hr : check_column n col s with
    | next s' =>
      rw [hr] at hstep
      exact ih (col + 1) s' (by omega) hstep
    | ret code data =>
      rw [hr] at hstep
      exact ⟨Or.inr hstep.1, hstep.2⟩

/-- Whatever the segment and the bitmaps, `check_parity` returns 0 or 1 and
changes bytes of at most three blocks. -/
theorem check_parity_general (data : Buf) (badmap crcmap : Nat) :
    ((check_parity data badmap crcmap).1 = 0 ∨ (check_parity data badmap crcmap).1 = 1) ∧
    ∃ e m, m ≤ 3 ∧ Touched data (check_parity data badmap crcmap).2 e m := by
  have hsame : ∃ e m, m ≤ 3 ∧ Touched data data e m :=
    ⟨fun _ => 0, 0, by decide, fun _ _ => rfl⟩
  unfold check_parity
  simp only
  rw [crc_scan_eq]
  by_cases hlen : (flagged crcmap 0 (sect_count badmap)).length ≤ 3
  · rw [if_pos hlen]
    simp only [QCV_BLKSIZE]
    split_ifs
    · exact ⟨Or.inr rfl, hsame⟩
    · exact column_loop_general _ data 1024 0 _ (by omega) ⟨hlen, fun _ _ => rfl⟩
  · rw [if_neg hlen]
    exact ⟨Or.inr rfl, hsame⟩

/-! ## Segment geometry -/

theorem flagged_length_le (m i k : Nat) : (flagged m i k).length ≤ k := by
  unfold flagged
  exact (List.length_filter_le _ _).trans (by rw [List.length_range'])

/-- What the loop of `sect_count` computes: one is taken off `amt` for every set
bit among the `k` positions from `i` on. -/
theorem sect_count_loop_eq (badmap : Nat) : ∀ k i amt,
    sect_count_loop badmap k i amt = amt - (flagged badmap i k).length := by
  intro k
  induction k with
  | zero => intro i amt; rfl
  | succ k ih =>
    intro i amt
    unfold sect_count_loop
    by_cases hb : badmap.testBit i = true
    · rw [if_pos ((and_one_shiftLeft_ne_zero _ _).2 hb), flagged_succ_pos k hb, ih]
      simp only [List.length_cons]
      omega
    · rw [if_neg (fun h => hb ((and_one_shiftLeft_ne_zero _ _).1 h)), flagged_succ_neg k hb, ih]

/-- What the loop of `sect_bytes` computes: a block size is taken off `amt` for
every set bit among the `k` positions from `i` on. -/
theorem sect_bytes_loop_eq (badmap : Nat) : ∀ k i amt,
    sect_bytes_loop badmap k i amt = amt - QCV_BLKSIZE * (flagged badmap i k).length := by
  intro k
  induction k with
  | zero => intro i amt; rfl
  | succ k ih =>
    intro i amt
    unfold sect_bytes_loop
    by_cases hb : badmap.testBit i = true
    · rw [if_pos ((and_one_shiftLeft_ne_zero _ _).2 hb), flagged_succ_pos k hb, ih]
      simp only [List.length_cons]
      rw [Nat.mul_succ]
      omega
    · rw [if_neg (fun h => hb ((and_one_shiftLeft_ne_zero _ _).1 h)), flagged_succ_neg k hb, ih]

theorem countP_eq_flagged (m n : Nat) :
    (List.range n).countP (fun i => m.testBit i) = (flagged m 0 n).length := by
  unfold flagged
  rw [← List.range_eq_range', ← List.countP_eq_length_filter]

/-- C11. Segment geometry: with 32 block slots of 1024 bytes in a segment of
`32 * 1024` bytes, `sect_count badmap` is 32 minus the number of set bits among
bits 0..31 of `badmap`, and `sect_bytes badmap` is `sect_count badmap * 1024`. -/
theorem sect_count_sect_bytes (badmap : Nat) :
    QCV_BLKSEG = 32 ∧ QCV_BLKSIZE = 1024 ∧ QCV_SEGSIZE = 32 * 1024 ∧
    sect_count badmap = 32 - (List.range 32).countP (fun i => badmap.testBit i) ∧
    sect_bytes badmap = sect_count badmap * 1024 := by
  have hle := flagged_length_le badmap 0 32
  have hc : sect_count badmap = 32 - (flagged badmap 0 32).length :=
    sect_count_loop_eq badmap 32 0 32
  have hb : sect_bytes badmap = 32 * 1024 - 1024 * (flagged badmap 0 32).length :=
    sect_bytes_loop_eq badmap 32 0 (32 * 1024)
  refine ⟨rfl, rfl, rfl, ?_, ?_⟩
  · rw [countP_eq_flagged]
    exact hc
  · rw [hb, hc]
    omega

/-! ## Syndromes as position-weighted sums -/

/-- The XOR of `f 0, ..., f (n - 1)`. -/
def xor_sum (f : Nat → Nat) : Nat → Nat
  | 0 => 0
  | n + 1 => xor_sum f n ^^^ f n

theorem xor_sum_lt {f : Nat → Nat} (hf : ∀ i, f i < 256) : ∀ n, xor_sum f n < 256
  | 0 => Nat.zero_lt_succ _
  | n + 1 => byte_xor_lt (xor_sum_lt hf n) (hf n)

theorem of_xor_sum {f : Nat → Nat} (hf : ∀ i, f i < 256) :
    ∀ n, of (xor_sum f n) = ∑ i ∈ Finset.range n, of (f i)
  | 0 => by
    rw [Finset.sum_range_zero]
    rfl
  | n + 1 => by
    rw [Finset.sum_range_succ, ← of_xor_sum hf n]
    exact of_xor (xor_sum_lt hf n) (hf n)

/-- The three position-weighted sums of a column, as field elements. -/
theorem of_weighted_sums {d : Buf} (hd : IsBytes d) (col : Nat) {n : Nat} (hn : n ≤ 255) :
    of (xor_sum (fun i => divide_out (d (col + 1024 * i)) i) n) = syn0 d col n ∧
    of (xor_sum (fun i => d (col + 1024 * i)) n) = syn1 d col n ∧
    of (xor_sum (fun i => multiply_out (d (col + 1024 * i)) i) n) = syn2 d col n := by
  refine ⟨?_, ?_, ?_⟩
  · rw [of_xor_sum (fun i => divide_out_lt _ _)]
    unfold syn0 cv
    apply Finset.sum_congr rfl
    intro i hi
    rw [Finset.mem_range] at hi
    exact of_divide_out (hd _) (by omega)
  · rw [of_xor_sum (fun i => hd _)]
    rfl
  · rw [of_xor_sum (fun i => multiply_out_lt _ _)]
    unfold syn2 cv
    apply Finset.sum_congr rfl
    intro i hi
    rw [Finset.mem_range] at hi
    exact of_multiply_out (hd _) (by omega)

/-- The weighted sums vanish exactly when the field syndromes do. -/
theorem weighted_sums_zero_iff {d : Buf} (hd : IsBytes d) (col : Nat) {n : Nat} (hn : n ≤ 255) :
    (xor_sum (fun i => divide_out (d (col + 1024 * i)) i) n = 0 ∧
      xor_sum (fun i => d (col + 1024 * i)) n = 0 ∧
      xor_sum (fun i => multiply_out (d (col + 1024 * i)) i) n = 0) ↔
    (syn0 d col n = 0 ∧ syn1 d col n = 0 ∧ syn2 d col n = 0) := by
  obtain ⟨h0, h1, h2⟩ := of_weighted_sums hd col hn
  rw [← h0, ← h1, ← h2, of_eq_zero (xor_sum_lt (fun i => divide_out_lt _ _) n),
    of_eq_zero (xor_sum_lt (fun i => hd _) n),
    of_eq_zero (xor_sum_lt (fun i => multiply_out_lt _ _) n)]

/-- XOR-ing `e` into row `p` of a column changes the three weighted sums by
`divide_out e p`, `e` and `multiply_out e p`. -/
theorem weighted_sums_upd {d : Buf} (hd : IsBytes d) (col : Nat) {n p e : Nat} (hn : n ≤ 255)
    (hp : p < n) (he : e < 256) :
    xor_sum (fun i => divide_out (upd d (col + 1024 * p) (d (col + 1024 * p) ^^^ e)
        (col + 1024 * i)) i) n =
      xor_sum (fun i => divide_out (d (col + 1024 * i)) i) n ^^^ divide_out e p ∧
    xor_sum (fun i => upd d (col + 1024 * p) (d (col + 1024 * p) ^^^ e) (col + 1024 * i)) n =
      xor_sum (fun i => d (col + 1024 * i)) n ^^^ e ∧
    xor_sum (fun i => multiply_out (upd d (col + 1024 * p) (d (col + 1024 * p) ^^^ e)
        (col + 1024 * i)) i) n =
      xor_sum (fun i => multiply_out (d (col + 1024 * i)) i) n ^^^ multiply_out e p := by
  have hx : d (col + 1024 * p) ^^^ e < 256 := byte_xor_lt (hd _) he
  have hd' : IsBytes (upd d (col + 1024 * p) (d (col + 1024 * p) ^^^ e)) := hd.upd _ hx
  obtain ⟨a0, a1, a2⟩ := of_weighted_sums hd col hn
  obtain ⟨b0, b1, b2⟩ := of_weighted_sums hd' col hn
  have hv : of (d (col + 1024 * p) ^^^ e) + cv d col p = of e := by
    unfold cv
    rw [of_xor (hd _) he, add_comm (of (d _)), add_assoc, add_self, add_zero]
  refine ⟨?_, ?_, ?_⟩
  · apply (of_inj (xor_sum_lt (fun i => divide_out_lt _ _) n)
      (byte_xor_lt (xor_sum_lt (fun i => divide_out_lt _ _) n) (divide_out_lt _ _))).1
    rw [b0, syn0_upd d col p n _ hp, hv, of_xor (xor_sum_lt (fun i => divide_out_lt _ _) n)
      (divide_out_lt _ _), a0, of_divide_out he (by omega)]
  · apply (of_inj (xor_sum_lt (fun i => hd' _) n)
      (byte_xor_lt (xor_sum_lt (fun i => hd _) n) he)).1
    rw [b1, syn1_upd d col p n _ hp, hv, of_xor (xor_sum_lt (fun i => hd _) n) he, a1]
  · apply (of_inj (xor_sum_lt (fun i => multiply_out_lt _ _) n)
      (byte_xor_lt (xor_sum_lt (fun i => multiply_out_lt _ _) n) (multiply_out_lt _ _))).1
    rw [b2, syn2_upd d col p n _ hp, hv, of_xor (xor_sum_lt (fun i => multiply_out_lt _ _) n)
      (multiply_out_lt _ _), a2, of_multiply_out he (by omega)]

/-- C12. Syndrome values are position-weighted sums independent of the block
count: for `1 ≤ n ≤ 32` and a column of bytes `c_i = data (col + 1024 * i)`,
`compute_syndromes` returns 1 exactly when `S0 = XOR divide_out (c_i, i)`,
`S1 = XOR c_i` and `S2 = XOR multiply_out (c_i, i)` are all zero, and otherwise
returns 0 with `ss[0] = S0`, `ss[1] = S1`, `ss[2] = S2`.  XOR-ing a byte `e` into
row `p` changes the three sums by `divide_out (e, p)`, `e` and
`multiply_out (e, p)`, which is the per-position update of the correction step. -/
theorem compute_syndromes_weighted_sums (data : Buf) (hd : IsBytes data) (n col : Nat)
    (h1 : 1 ≤ n) (h32 : n ≤ 32) (hc : col < 1024) (ss : Nat → Nat) :
    ((compute_syndromes data n col ss).1 = 1 ↔
      (xor_sum (fun i => divide_out (data (col + 1024 * i)) i) n = 0 ∧
        xor_sum (fun i => data (col + 1024 * i)) n = 0 ∧
        xor_sum (fun i => multiply_out (data (col + 1024 * i)) i) n = 0)) ∧
    ((compute_syndromes data n col ss).1 ≠ 1 →
      (compute_syndromes data n col ss).1 = 0 ∧
      (compute_syndromes data n col ss).2 0 =
        xor_sum (fun i => divide_out (data (col + 1024 * i)) i) n ∧
      (compute_syndromes data n col ss).2 1 = xor_sum (fun i => data (col + 1024 * i)) n ∧
      (compute_syndromes data n col ss).2 2 =
        xor_sum (fun i => multiply_out (data (col + 1024 * i)) i) n) ∧
    (∀ p e, p < n → e < 256 →
      xor_sum (fun i => divide_out (upd data (col + 1024 * p) (data (col + 1024 * p) ^^^ e)
          (col + 1024 * i)) i) n =
        xor_sum (fun i => divide_out (data (col + 1024 * i)) i) n ^^^ divide_out e p ∧
      xor_sum (fun i => upd data (col + 1024 * p) (data (col + 1024 * p) ^^^ e)
          (col + 1024 * i)) n =
        xor_sum (fun i => data (col + 1024 * i)) n ^^^ e ∧
      xor_sum (fun i => multiply_out (upd data (col + 1024 * p) (data (col + 1024 * p) ^^^ e)
          (col + 1024 * i)) i) n =
        xor_sum (fun i => multiply_out (data (col + 1024 * i)) i) n ^^^ multiply_out e p) := by
  have hn : n ≤ 255 := by omega
  refine ⟨?_, ?_⟩
  swap
  · refine ⟨?_, fun p e hp he => weighted_sums_upd hd col hn hp he⟩
    obtain ⟨_, hnz⟩ := compute_syndromes_spec hd hn hc ss
    obtain ⟨w0, w1, w2⟩ := of_weighted_sums hd col hn
    have hz := (compute_syndromes_spec hd hn hc ss).1
    intro hne
    by_cases h : syn0 data col n = 0 ∧ syn1 data col n = 0 ∧ syn2 data col n = 0
    · exact absurd (by rw [hz h]) hne
    · obtain ⟨e, s0, s1, s2, b0, b1, b2, _⟩ := hnz h
      refine ⟨e, ?_, ?_, ?_⟩
      · exact (of_inj b0 (xor_sum_lt (fun i => divide_out_lt _ _) n)).1 (s0.trans w0.symm)
      · exact (of_inj b1 (xor_sum_lt (fun i => hd _) n)).1 (s1.trans w1.symm)
      · exact (of_inj b2 (xor_sum_lt (fun i => multiply_out_lt _ _) n)).1 (s2.trans w2.symm)
  obtain ⟨hz, hnz⟩ := compute_syndromes_spec hd hn hc ss
  obtain ⟨w0, w1, w2⟩ := of_weighted_sums hd col hn
  have hiff := weighted_sums_zero_iff hd col hn
  by_cases h : syn0 data col n = 0 ∧ syn1 data col n = 0 ∧ syn2 data col n = 0
  · have e := hz h
    exact ⟨fun _ => hiff.2 h, fun _ => by rw [e]⟩
  · obtain ⟨e, _⟩ := hnz h
    refine ⟨fun h1 => ?_, fun hs => absurd (hiff.1 hs) h⟩
    rw [e] at h1
    exact absurd h1 (by decide)

theorem compute_syndromes_weighted_sums_witness :
    ((compute_syndromes (fun _ => 0) 32 0 (fun _ => 0)).1 = 1 ↔
      (xor_sum (fun i => divide_out ((fun _ => 0 : Buf) (0 + 1024 * i)) i) 32 = 0 ∧
        xor_sum (fun i => (fun _ => 0 : Buf) (0 + 1024 * i)) 32 = 0 ∧
        xor_sum (fun i => multiply_out ((fun _ => 0 : Buf) (0 + 1024 * i)) i) 32 = 0)) :=
  (compute_syndromes_weighted_sums (fun _ => 0) (fun _ => Nat.zero_lt_succ _) 32 0
    (by decide) (by decide) (by decide) (fun _ => 0)).1

/-! ## The inverse matrix and the error magnitudes -/

theorem of_one : of 1 = (1 : GF) := rfl

/-- Two positions: the matrix of `calculate_inverse` applied to the syndromes of
two errors gives the two magnitudes. -/
theorem determine_recovers_two {p e ss : Nat → Nat} (es : Nat → Nat) (inv : inv_mat)
    (hp0 : p 0 < 255) (hp1 : p 1 < 255) (hne : p 0 ≠ p 1) (he0 : e 0 < 256) (he1 : e 1 < 256)
    (h0 : ss 0 = divide_out (e 0) (p 0) ^^^ divide_out (e 1) (p 1))
    (h1 : ss 1 = e 0 ^^^ e 1) :
    (calculate_inverse 2 p inv).1 = 1 ∧
    determine 2 (calculate_inverse 2 p inv).2 ss es 0 = e 0 ∧
    determine 2 (calculate_inverse 2 p inv).2 ss es 1 = e 1 := by
  obtain ⟨hr, z00, z01, z10, z11, v00, v01, v10, v11⟩ :=
    @calculate_inverse_two p (p 0) (p 1) rfl rfl hp0 hp1 hne inv
  have b0 : ss 0 < 256 := by
    rw [h0]
    exact byte_xor_lt (divide_out_lt _ _) (divide_out_lt _ _)
  have b1 : ss 1 < 256 := by
    rw [h1]
    exact byte_xor_lt he0 he1
  have o0 : of (ss 0) = of (e 0) * (ap (p 0))⁻¹ + of (e 1) * (ap (p 1))⁻¹ := by
    rw [h0, of_xor (divide_out_lt _ _) (divide_out_lt _ _), of_divide_out he0 (by omega),
      of_divide_out he1 (by omega)]
  have o1 : of (ss 1) = of (e 0) + of (e 1) := by
    rw [h1, of_xor he0 he1]
  obtain ⟨ka, kb⟩ := solve2 (ap_inv_add_ne hp0 hp1 hne) o0 o1
  refine ⟨hr, ?_, ?_⟩
  · rw [(determine_two _ _ _).1]
    apply (of_inj (byte_xor_lt (multiply_lt _ _) (multiply_lt _ _)) he0).1
    rw [of_xor (multiply_lt _ _) (multiply_lt _ _), of_multiply b0 z00, of_multiply b1 z01,
      v00, v01]
    exact ka.symm
  · rw [(determine_two _ _ _).2]
    apply (of_inj (byte_xor_lt (multiply_lt _ _) (multiply_lt _ _)) he1).1
    rw [of_xor (multiply_lt _ _) (multiply_lt _ _), of_multiply b0 z10, of_multiply b1 z11,
      v10, v11]
    exact kb.symm

/-- Three positions: the matrix of `calculate_inverse` applied to the syndromes
of three errors gives the three magnitudes. -/
theorem determine_recovers_three {p e ss : Nat → Nat} (es : Nat → Nat) (inv : inv_mat)
    (hp0 : p 0 < 255) (hp1 : p 1 < 255) (hp2 : p 2 < 255)
    (h01 : p 0 ≠ p 1) (h02 : p 0 ≠ p 2) (h12 : p 1 ≠ p 2)
    (he0 : e 0 < 256) (he1 : e 1 < 256) (he2 : e 2 < 256)
    (h0 : ss 0 = divide_out (e 0) (p 0) ^^^ divide_out (e 1) (p 1) ^^^ divide_out (e 2) (p 2))
    (h1 : ss 1 = e 0 ^^^ e 1 ^^^ e 2)
    (h2 : ss 2 = multiply_out (e 0) (p 0) ^^^ multiply_out (e 1) (p 1)
      ^^^ multiply_out (e 2) (p 2)) :
    (calculate_inverse 3 p inv).1 = 1 ∧
    determine 3 (calculate_inverse 3 p inv).2 ss es 0 = e 0 ∧
    determine 3 (calculate_inverse 3 p inv).2 ss es 1 = e 1 ∧
    determine 3 (calculate_inverse 3 p inv).2 ss es 2 = e 2 := by
  obtain ⟨hr, hz, v00, v01, v02, v10, v11, v12, v20, v21, v22⟩ :=
    @calculate_inverse_three p (p 0) (p 1) (p 2) rfl rfl rfl hp0 hp1 hp2 h01 h02 h12 inv
  have d2 : ∀ x y z : Nat, x < 256 → y < 256 → z < 256 → x ^^^ y ^^^ z < 256 :=
    fun x y z hx hy hz => byte_xor_lt (byte_xor_lt hx hy) hz
  have x3 : ∀ x y z : Nat, x < 256 → y < 256 → z < 256 →
      of (x ^^^ y ^^^ z) = of x + of y + of z := by
    intro x y z hx hy hz
    rw [of_xor (byte_xor_lt hx hy) hz, of_xor hx hy]
  have b0 : ss 0 < 256 := by
    rw [h0]
    exact d2 _ _ _ (divide_out_lt _ _) (divide_out_lt _ _) (divide_out_lt _ _)
  have b1 : ss 1 < 256 := by
    rw [h1]
    exact d2 _ _ _ he0 he1 he2
  have b2 : ss 2 < 256 := by
    rw [h2]
    exact d2 _ _ _ (multiply_out_lt _ _) (multiply_out_lt _ _) (multiply_out_lt _ _)
  have o0 : of (ss 0) = of (e 0) * (ap (p 0))⁻¹ + of (e 1) * (ap (p 1))⁻¹
      + of (e 2) * (ap (p 2))⁻¹ := by
    rw [h0, x3 _ _ _ (divide_out_lt _ _) (divide_out_lt _ _) (divide_out_lt _ _),
      of_divide_out he0 (by omega), of_divide_out he1 (by omega), of_divide_out he2 (by omega)]
  have o1 : of (ss 1) = of (e 0) + of (e 1) + of (e 2) := by
    rw [h1, x3 _ _ _ he0 he1 he2]
  have o2 : of (ss 2) = of (e 0) * ap (p 0) + of (e 1) * ap (p 1) + of (e 2) * ap (p 2) := by
    rw [h2, x3 _ _ _ (multiply_out_lt _ _) (multiply_out_lt _ _) (multiply_out_lt _ _),
      of_multiply_out he0 (by omega), of_multiply_out he1 (by omega),
      of_multiply_out he2 (by omega)]
  obtain ⟨ka, kb, kc⟩ := solve3 (det3_ap_ne hp0 hp1 hp2 h01 h02 h12) o0 o1 o2
  have m3 : ∀ i, i < 3 → of (multiply (ss 0) ((calculate_inverse 3 p inv).2.zs i 0)
      ^^^ multiply (ss 1) ((calculate_inverse 3 p inv).2.zs i 1)
      ^^^ multiply (ss 2) ((calculate_inverse 3 p inv).2.zs i 2))
      = of (ss 0) * of ((calculate_inverse 3 p inv).2.zs i 0)
        + of (ss 1) * of ((calculate_inverse 3 p inv).2.zs i 1)
        + of (ss 2) * of ((calculate_inverse 3 p inv).2.zs i 2) := by
    intro i hi
    rw [x3 _ _ _ (multiply_lt _ _) (multiply_lt _ _) (multiply_lt _ _),
      of_multiply b0 (hz i 0 hi (by decide)), of_multiply b1 (hz i 1 hi (by decide)),
      of_multiply b2 (hz i 2 hi (by decide))]
  refine ⟨hr, ?_, ?_, ?_⟩
  · rw [(determine_three _ _ _).1]
    apply (of_inj (d2 _ _ _ (multiply_lt _ _) (multiply_lt _ _) (multiply_lt _ _)) he0).1
    rw [m3 0 (by decide), v00, v01, v02]
    exact ka.symm
  · rw [(determine_three _ _ _).2.1]
    apply (of_inj (d2 _ _ _ (multiply_lt _ _) (multiply_lt _ _) (multiply_lt _ _)) he1).1
    rw [m3 1 (by decide), v10, v11, v12]
    exact kb.symm
  · rw [(determine_three _ _ _).2.2]
    apply (of_inj (d2 _ _ _ (multiply_lt _ _) (multiply_lt _ _) (multiply_lt _ _)) he2).1
    rw [m3 2 (by decide), v20, v21, v22]
    exact kc.symm

/-- C13. The inverse matrix recovers the error magnitudes: for `nerrs` 2 or 3,
pairwise distinct block indices `p k < 32` in any order and bytes `e k`, if
`ss[0] = XOR divide_out (e k, p k)`, `ss[1] = XOR e k` and
`ss[2] = XOR multiply_out (e k, p k)`, then `calculate_inverse` returns 1 and
`determine` sets `es[k] = e k` for every `k < nerrs`. -/
theorem calculate_inverse_determine_magnitudes (nerrs : Nat) (p e ss es : Nat → Nat)
    (inv : inv_mat) (hn : nerrs = 2 ∨ nerrs = 3) (hp : ∀ k, k < nerrs → p k < 32)
    (hdist : ∀ j k, j < nerrs → k < nerrs → j ≠ k → p j ≠ p k)
    (he : ∀ k, k < nerrs → e k < 256)
    (h0 : ss 0 = xor_sum (fun k => divide_out (e k) (p k)) nerrs)
    (h1 : ss 1 = xor_sum e nerrs)
    (h2 : ss 2 = xor_sum (fun k => multiply_out (e k) (p k)) nerrs) :
    (calculate_inverse nerrs p inv).1 = 1 ∧
    ∀ k, k < nerrs → determine nerrs (calculate_inverse nerrs p inv).2 ss es k = e k := by
  rcases hn with rfl | rfl
  · simp only [xor_sum, Nat.zero_xor] at h0 h1
    have q0 := hp 0 (by decide)
    have q1 := hp 1 (by decide)
    obtain ⟨hr, r0, r1⟩ := determine_recovers_two es inv (by omega) (by omega)
      (hdist 0 1 (by decide) (by decide) (by decide)) (he 0 (by decide)) (he 1 (by decide)) h0 h1
    refine ⟨hr, fun k hk => ?_⟩
    have hk2 : k = 0 ∨ k = 1 := by omega
    rcases hk2 with rfl | rfl
    · exact r0
    · exact r1
  · simp only [xor_sum, Nat.zero_xor] at h0 h1 h2
    have q0 := hp 0 (by decide)
    have q1 := hp 1 (by decide)
    have q2 := hp 2 (by decide)
    obtain ⟨hr, r0, r1, r2⟩ := determine_recovers_three es inv (by omega) (by omega) (by omega)
      (hdist 0 1 (by decide) (by decide) (by decide))
      (hdist 0 2 (by decide) (by decide) (by decide))
      (hdist 1 2 (by decide) (by decide) (by decide))
      (he 0 (by decide)) (he 1 (by decide)) (he 2 (by decide)) h0 h1 h2
    refine ⟨hr, fun k hk => ?_⟩
    have hk3 : k = 0 ∨ k = 1 ∨ k = 2 := by omega
    rcases hk3 with rfl | rfl | rfl
    · exact r0
    · exact r1
    · exact r2

theorem calculate_inverse_determine_magnitudes_witness :
    (calculate_inverse 2 (fun k => 5 + 12 * k) { log_denom := 0, zs := fun _ _ => 0 }).1 = 1 ∧
    ∀ k, k < 2 →
      determine 2
        (calculate_inverse 2 (fun k => 5 + 12 * k) { log_denom := 0, zs := fun _ _ => 0 }).2
        (fun i => if i = 0 then 219 else if i = 1 then 0 else 254) (fun _ => 0) k
        = (fun _ => 1) k :=
  calculate_inverse_determine_magnitudes 2 (fun k => 5 + 12 * k) (fun _ => 1)
    (fun i => if i = 0 then 219 else if i = 1 then 0 else 254) (fun _ => 0)
    { log_denom := 0, zs := fun _ _ => 0 } (Or.inl rfl)
    (fun k hk => by show 5 + 12 * k < 32; omega)
    (fun j k _ _ h => by show 5 + 12 * j ≠ 5 + 12 * k; omega)
    (fun _ _ => (by decide : 1 < 256)) (by decide!) (by decide!) (by decide!)

/-! ## Singular configurations -/

theorem calculate_inverse_lt_two {nerrs : Nat} (h : nerrs < 2) (p : Nat → Nat) (inv : inv_mat) :
    calculate_inverse nerrs p inv = (1, inv) := by
  unfold calculate_inverse
  rw [if_pos h]

theorem calculate_inverse_gt_three {nerrs : Nat} (h : nerrs > 3) (p : Nat → Nat)
    (inv : inv_mat) : calculate_inverse nerrs p inv = (0, inv) := by
  unfold calculate_inverse
  rw [if_neg (by omega), if_pos h]

/-- Two equal positions make the 2x2 determinant vanish. -/
theorem calculate_inverse_two_dup {p : Nat → Nat} (h : p 0 = p 1) (inv : inv_mat) :
    (calculate_inverse 2 p inv).1 = 0 := by
  unfold calculate_inverse
  simp only [h, Nat.xor_self, (by decide : ¬ (2 < 2)), (by decide : ¬ (2 > 3)), if_true,
    if_false]

/-- The determinant byte `calculate_inverse` forms for three positions. -/
theorem of_det3_byte {a b c : Nat} (ha : a < 255) (hb : b < 255) (hc : c < 255) :
    z_of_ab c a ^^^ z_of_ab b a ^^^ z_of_ab c b ^^^ z_of_ab b c ^^^ z_of_ab a b
      ^^^ z_of_ab a c < 256 ∧
    of (z_of_ab c a ^^^ z_of_ab b a ^^^ z_of_ab c b ^^^ z_of_ab b c ^^^ z_of_ab a b
      ^^^ z_of_ab a c) =
      ap c * (ap a)⁻¹ + ap b * (ap a)⁻¹ + ap c * (ap b)⁻¹ + ap b * (ap c)⁻¹
        + ap a * (ap b)⁻¹ + ap a * (ap c)⁻¹ := by
  have hz : ∀ p q, z_of_ab p q < 256 := fun p q => power_lt _
  have oz : ∀ p q, p < 255 → q < 255 → of (z_of_ab p q) = ap p * (ap q)⁻¹ :=
    fun p q hp hq => of_z_of_ab (by omega) (by omega)
  have l1 := byte_xor_lt (hz c a) (hz b a)
  have l2 := byte_xor_lt l1 (hz c b)
  have l3 := byte_xor_lt l2 (hz b c)
  have l4 := byte_xor_lt l3 (hz a b)
  refine ⟨byte_xor_lt l4 (hz a c), ?_⟩
  rw [of_xor l4 (hz _ _), of_xor l3 (hz _ _), of_xor l2 (hz _ _), of_xor l1 (hz _ _),
    of_xor (hz _ _) (hz _ _), oz _ _ hc ha, oz _ _ hb ha, oz _ _ hc hb, oz _ _ hb hc,
    oz _ _ ha hb, oz _ _ ha hc]

/-- Two equal positions among three make the 3x3 determinant vanish. -/
theorem calculate_inverse_three_dup {p : Nat → Nat} (h0 : p 0 < 255) (h1 : p 1 < 255)
    (h2 : p 2 < 255) (h : p 0 = p 1 ∨ p 0 = p 2 ∨ p 1 = p 2) (inv : inv_mat) :
    (calculate_inverse 3 p inv).1 = 0 := by
  have hma : p 0 % 256 = p 0 := Nat.mod_eq_of_lt (by omega)
  have hmb : p 1 % 256 = p 1 := Nat.mod_eq_of_lt (by omega)
  have hmc : p 2 % 256 = p 2 := Nat.mod_eq_of_lt (by omega)
  obtain ⟨hlt, hof⟩ := of_det3_byte h0 h1 h2
  have hd0 : z_of_ab (p 2) (p 0) ^^^ z_of_ab (p 1) (p 0) ^^^ z_of_ab (p 2) (p 1)
      ^^^ z_of_ab (p 1) (p 2) ^^^ z_of_ab (p 0) (p 1) ^^^ z_of_ab (p 0) (p 2) = 0 := by
    apply (of_eq_zero hlt).1
    rw [hof]
    rcases h with h | h | h
    · rw [h]
      linear_combination (ap (p 2) * (ap (p 1))⁻¹ + ap (p 1) * (ap (p 1))⁻¹
        + ap (p 1) * (ap (p 2))⁻¹) * two_eq_zero
    · rw [h]
      linear_combination (ap (p 2) * (ap (p 2))⁻¹ + ap (p 1) * (ap (p 2))⁻¹
        + ap (p 2) * (ap (p 1))⁻¹) * two_eq_zero
    · rw [h]
      linear_combination (ap (p 2) * (ap (p 0))⁻¹ + ap (p 2) * (ap (p 2))⁻¹
        + ap (p 0) * (ap (p 2))⁻¹) * two_eq_zero
  unfold calculate_inverse
  simp only [hma, hmb, hmc, hd0, (by decide : ¬ (3 < 2)), (by decide : ¬ (3 > 3)),
    (by decide : ¬ (3 = 2)), if_true, if_false]

/-- C14. A configuration is singular exactly when positions are duplicated: for
positions in 0..254, `calculate_inverse 2` returns 0 if and only if
`p[0] = p[1]`, and `calculate_inverse 3` returns 0 if and only if at least two
of `p[0]`, `p[1]`, `p[2]` are equal; in every other case they return 1.  It
returns 1 for `nerrs < 2` and 0 for `nerrs > 3`. -/
theorem calculate_inverse_singular_iff (p : Nat → Nat) (inv : inv_mat) :
    (p 0 ≤ 254 → p 1 ≤ 254 →
      ((calculate_inverse 2 p inv).1 = 0 ↔ p 0 = p 1) ∧
      ((calculate_inverse 2 p inv).1 = 1 ↔ p 0 ≠ p 1)) ∧
    (p 0 ≤ 254 → p 1 ≤ 254 → p 2 ≤ 254 →
      ((calculate_inverse 3 p inv).1 = 0 ↔ (p 0 = p 1 ∨ p 0 = p 2 ∨ p 1 = p 2)) ∧
      ((calculate_inverse 3 p inv).1 = 1 ↔ ¬ (p 0 = p 1 ∨ p 0 = p 2 ∨ p 1 = p 2))) ∧
    (∀ nerrs, nerrs < 2 → (calculate_inverse nerrs p inv).1 = 1) ∧
    (∀ nerrs, nerrs > 3 → (calculate_inverse nerrs p inv).1 = 0) := by
  refine ⟨?_, ?_, ?_, ?_⟩
  · intro h0 h1
    have hdup : p 0 = p 1 → (calculate_inverse 2 p inv).1 = 0 :=
      fun h => calculate_inverse_two_dup h inv
    have hok : p 0 ≠ p 1 → (calculate_inverse 2 p inv).1 = 1 := fun h =>
      (@calculate_inverse_two p (p 0) (p 1) rfl rfl (by omega) (by omega) h inv).1
    by_cases h : p 0 = p 1
    · have e := hdup h
      exact ⟨⟨fun _ => h, fun _ => e⟩, ⟨fun h1 => by rw [e] at h1; exact absurd h1 (by decide),
        fun hne => absurd h hne⟩⟩
    · have e := hok h
      exact ⟨⟨fun h1 => by rw [e] at h1; exact absurd h1 (by decide), fun heq => absurd heq h⟩,
        ⟨fun _ => h, fun _ => e⟩⟩
  · intro h0 h1 h2
    have hdup : (p 0 = p 1 ∨ p 0 = p 2 ∨ p 1 = p 2) → (calculate_inverse 3 p inv).1 = 0 :=
      fun h => calculate_inverse_three_dup (by omega) (by omega) (by omega) h inv
    have hok : ¬ (p 0 = p 1 ∨ p 0 = p 2 ∨ p 1 = p 2) → (calculate_inverse 3 p inv).1 = 1 :=
      fun h => (@calculate_inverse_three p (p 0) (p 1) (p 2) rfl rfl rfl (by omega) (by omega)
        (by omega) (fun e => h (Or.inl e)) (fun e => h (Or.inr (Or.inl e)))
        (fun e => h (Or.inr (Or.inr e))) inv).1
    by_cases h : p 0 = p 1 ∨ p 0 = p 2 ∨ p 1 = p 2
    · have e := hdup h
      exact ⟨⟨fun _ => h, fun _ => e⟩, ⟨fun h1 => by rw [e] at h1; exact absurd h1 (by decide),
        fun hne => absurd h hne⟩⟩
    · have e := hok h
      exact ⟨⟨fun h1 => by rw [e] at h1; exact absurd h1 (by decide), fun heq => absurd heq h⟩,
        ⟨fun _ => h, fun _ => e⟩⟩
  · intro nerrs h
    rw [calculate_inverse_lt_two h]
  · intro nerrs h
    rw [calculate_inverse_gt_three h]

theorem calculate_inverse_singular_iff_witness :
    (calculate_inverse 3 (fun k => 2 * k) { log_denom := 0, zs := fun _ _ => 0 }).1 = 1 :=
  ((calculate_inverse_singular_iff (fun k => 2 * k) { log_denom := 0, zs := fun _ _ => 0 }).2.1
    (by decide) (by decide) (by decide)).2.2 (by decide)

/-! ## A second error location discovered next to a known one -/

/-- The `add failure` branch of `case 1` of the analysis, discovering location
`p`. -/
theorem analyze_one_add {n : Nat} {s : cp_state} {p : Nat} (h : s.crcerrs = 1)
    (hi1 : s.ss 2 ^^^ multiply_out (s.ss 1) (s.eblk 0) ≠ 0)
    (hi2 : s.ss 1 ^^^ multiply_out (s.ss 0) (s.eblk 0) ≠ 0)
    (hp : alpha_log.getD (divide (s.ss 2 ^^^ multiply_out (s.ss 1) (s.eblk 0))
      (s.ss 1 ^^^ multiply_out (s.ss 0) (s.eblk 0))) 0 = p)
    (hlt : p < n)
    (hci : (calculate_inverse 2 (upd s.eblk 1 p) s.inv).1 ≠ 0) :
    analyze n s = .next { s with
      eblk := upd s.eblk 1 p,
      crcerrs := 2,
      inv := (calculate_inverse 2 (upd s.eblk 1 p) s.inv).2,
      es := determine 2 (calculate_inverse 2 (upd s.eblk 1 p) s.inv).2 s.ss s.es } := by
  obtain ⟨data, crcerrs, eblk, ss, es, inv⟩ := s
  simp only at h hi1 hi2 hp hlt hci
  subst h
  subst hp
  unfold analyze
  simp only [hi1, hi2, false_and, or_self, if_false, upd_same, if_neg (Nat.not_le.2 hlt),
    Nat.reduceAdd, (by decide : ¬ (2 > 3)), if_neg hci]

/-- What is left of the syndromes of two errors, at `x` and `y`, once the part
explained by an error at `x` is taken off: both remainders are multiples of the
magnitude at `y`, and their ratio is `y`. -/
theorem solve_second {ea eb x y s0 s1 s2 : GF} (hx : x ≠ 0) (hy : y ≠ 0)
    (h0 : s0 = ea * x⁻¹ + eb * y⁻¹) (h1 : s1 = ea + eb) (h2 : s2 = ea * x + eb * y) :
    s2 + s1 * x = eb * (x + y) ∧ s1 + s0 * x = eb * y⁻¹ * (x + y) := by
  have hxx : x⁻¹ * x = 1 := inv_mul_cancel₀ hx
  have hyy : y⁻¹ * y = 1 := inv_mul_cancel₀ hy
  constructor
  · rw [h2, h1]
    linear_combination (ea * x) * two_eq_zero
  · rw [h1, h0]
    linear_combination ea * two_eq_zero + ea * hxx - eb * hyy

/-- A column step with one known error location `a`, all errors lying in the
blocks `a` and `b`: the second location is discovered in the first column that
has an error in block `b`, and kept. -/
theorem step_one_add {n : Nat} (hn : n ≤ 32) {enc : Buf} (henc : IsBytes enc)
    (hcode : ∀ col, col < 1024 → regs enc col n = (0, 0, 0)) {a b : Nat} (ha : a < n)
    (hb : b < n) (hab : a ≠ b) :
    ∀ col s, col < 1024 →
      ((s.crcerrs = 1 ∧ s.eblk 0 = a) ∨
        (s.crcerrs = 2 ∧ s.eblk 0 = a ∧ s.eblk 1 = b ∧ Inv2OK s.inv a b)) → IsBytes s.data →
      (∀ x, ¬ (x / 1024 = a ∨ x / 1024 = b) → s.data x = enc x) →
      ∃ s', check_column n col s = .next s' ∧
        ((s'.crcerrs = 1 ∧ s'.eblk 0 = a) ∨
          (s'.crcerrs = 2 ∧ s'.eblk 0 = a ∧ s'.eblk 1 = b ∧ Inv2OK s'.inv a b)) ∧
        (∀ x, x % 1024 = col → s'.data x = enc x) ∧
        (∀ x, x % 1024 ≠ col → s'.data x = s.data x) := by
  intro col s hc hI hd hP
  rcases hI with hI | hI
  swap
  · obtain ⟨s', h1, h2, h3, h4⟩ := step_two hn henc hcode ha hb hab col s hc hI hd hP
    exact ⟨s', h1, Or.inr h2, h3, h4⟩
  obtain ⟨hcr, hea⟩ := hI
  have hz := (regs_eq_zero_iff henc col n).1 (hcode col hc)
  obtain ⟨e0, e1, e2⟩ := @syn_err s.data _ _ _ hz
  have hoffz : ∀ i, ¬ (i = a ∨ i = b) → err s.data enc col i = 0 :=
    fun i hi => err_off (P := fun r => r = a ∨ r = b) hP hc hi
  rw [sum_support2 _ ha hb hab (fun i _ h1 h2 => by
    rw [hoffz i (fun h => h.elim h1 h2), zero_mul])] at e0 e2
  rw [sum_support2 _ ha hb hab (fun i _ h1 h2 => hoffz i (fun h => h.elim h1 h2))] at e1
  have hD := ap_inv_add_ne (by omega : a < 255) (by omega : b < 255) hab
  obtain ⟨ka, kb⟩ := solve2 hD e0 e1
  obtain ⟨q1, q2⟩ := solve_second (ap_ne_zero a) (ap_ne_zero b) e0 e1 e2
  by_cases hclean : syn0 s.data col n = 0 ∧ syn1 s.data col n = 0 ∧ syn2 s.data col n = 0
  · refine ⟨s, check_column_clean hd (by omega) hc hclean, Or.inl ⟨hcr, hea⟩, ?_,
      fun x _ => rfl⟩
    apply column_eq_of_err hd henc (P := fun r => r = a ∨ r = b) hP
    intro i hi
    rcases hi with hi | hi
    · rw [hi, ka, hclean.1, hclean.2.1, zero_mul, zero_mul, add_zero]
    · rw [hi, kb, hclean.1, hclean.2.1, zero_mul, zero_mul, add_zero]
  have hspec := (compute_syndromes_spec hd (by omega : n ≤ 255) hc s.ss).2 hclean
  obtain ⟨-, o0, o1, o2, b0, b1, b2, -⟩ := hspec
  have hxy : ap a + ap b ≠ 0 := fun h =>
    hab (ap_inj_lt (by omega) (by omega) ((add_eq_zero_iff _ _).1 h))
  have l1 : (compute_syndromes s.data n col s.ss).2 2 ^^^
      multiply_out ((compute_syndromes s.data n col s.ss).2 1) (s.eblk 0) < 256 :=
    byte_xor_lt b2 (multiply_out_lt _ _)
  have l2 : (compute_syndromes s.data n col s.ss).2 1 ^^^
      multiply_out ((compute_syndromes s.data n col s.ss).2 0) (s.eblk 0) < 256 :=
    byte_xor_lt b1 (multiply_out_lt _ _)
  have oi1 : of ((compute_syndromes s.data n col s.ss).2 2 ^^^
      multiply_out ((compute_syndromes s.data n col s.ss).2 1) (s.eblk 0))
      = err s.data enc col b * (ap a + ap b) := by
    rw [of_xor b2 (multiply_out_lt _ _), of_multiply_out b1 (by omega), o2, o1, hea]
    exact q1
  have oi2 : of ((compute_syndromes s.data n col s.ss).2 1 ^^^
      multiply_out ((compute_syndromes s.data n col s.ss).2 0) (s.eblk 0))
      = err s.data enc col b * (ap b)⁻¹ * (ap a + ap b) := by
    rw [of_xor b1 (multiply_out_lt _ _), of_multiply_out b0 (by omega), o1, o0, hea]
    exact q2
  by_cases heb : err s.data enc col b = 0
  · have hi1 := (of_eq_zero l1).1 (by rw [oi1, heb, zero_mul])
    have hi2 := (of_eq_zero l2).1 (by rw [oi2, heb, zero_mul, zero_mul])
    have han := analyze_one_single (n := n)
      (s := { s with ss := (compute_syndromes s.data n col s.ss).2,
                     es := upd (upd (upd s.es 2 0) 1 0) 0 0 }) hcr hi1 hi2
    obtain ⟨s', h1, h2, h3, -, h5, h6⟩ := check_column_fix hn hc henc (hcode col hc) hd hclean han
      rfl rfl
      (by
        intro j hj
        have hj0 : j = 0 := by
          have : j < s.crcerrs := hj
          omega
        subst hj0
        show s.eblk 0 < n
        omega)
      (by
        intro j j' hj hj' _
        have : j < s.crcerrs := hj
        have : j' < s.crcerrs := hj'
        omega)
      (by
        intro j hj
        have hj0 : j = 0 := by
          have : j < s.crcerrs := hj
          omega
        subst hj0
        show determine 1 _ _ _ 0 = s.data (col + 1024 * s.eblk 0) ^^^ enc (col + 1024 * s.eblk 0)
        rw [determine_one, hea]
        apply (of_inj (multiply_lt _ _) (byte_xor_lt (hd _) (henc _))).1
        simp only [upd2, and_self, if_true]
        rw [of_multiply b0 (power_lt _), o0, of_power (by omega), err_of hd henc, e0, heb,
          zero_mul, add_zero, mul_assoc, inv_mul_cancel₀ (ap_ne_zero a), mul_one])
      (by
        intro r hr hne
        have hra : r ≠ a := by
          have := hne 0 (by show 0 < s.crcerrs; omega)
          intro h
          apply this
          show r = s.eblk 0
          omega
        by_cases hrb : r = b
        · rw [hrb]
          exact (err_zero_iff hd henc col b).1 heb
        · apply hP
          rw [row_div hc]
          exact fun h => h.elim hra hrb)
    refine ⟨s', h1, Or.inl ⟨h2.trans hcr, by rw [h3]; exact hea⟩, ?_, ?_⟩
    · intro x hx
      by_cases hlt : x / 1024 < n
      · exact h5 x hx hlt
      · rw [h6 x (fun h => hlt h.2)]
        exact hP x (by omega)
    · intro x hx
      exact h6 x (fun h => hx h.1)
  · have hy0 := ap_ne_zero b
    have hi1 : (compute_syndromes s.data n col s.ss).2 2 ^^^
        multiply_out ((compute_syndromes s.data n col s.ss).2 1) (s.eblk 0) ≠ 0 := by
      intro h
      have h0 := (of_eq_zero l1).2 h
      rw [oi1] at h0
      rcases mul_eq_zero.1 h0 with h | h
      · exact heb h
      · exact hxy h
    have hi2 : (compute_syndromes s.data n col s.ss).2 1 ^^^
        multiply_out ((compute_syndromes s.data n col s.ss).2 0) (s.eblk 0) ≠ 0 := by
      intro h
      have h0 := (of_eq_zero l2).2 h
      rw [oi2] at h0
      rcases mul_eq_zero.1 h0 with h | h
      · rcases mul_eq_zero.1 h with h | h
        · exact heb h
        · exact inv_ne_zero hy0 h
      · exact hxy h
    have hdiv : divide ((compute_syndromes s.data n col s.ss).2 2 ^^^
          multiply_out ((compute_syndromes s.data n col s.ss).2 1) (s.eblk 0))
        ((compute_syndromes s.data n col s.ss).2 1 ^^^
          multiply_out ((compute_syndromes s.data n col s.ss).2 0) (s.eblk 0)) = apow b := by
      apply (of_inj (divide_lt _ _) (apow_lt b)).1
      rw [of_divide l1 l2, oi1, oi2]
      show _ = ap b
      field_simp
    have hlog : alpha_log.getD (divide ((compute_syndromes s.data n col s.ss).2 2 ^^^
          multiply_out ((compute_syndromes s.data n col s.ss).2 1) (s.eblk 0))
        ((compute_syndromes s.data n col s.ss).2 1 ^^^
          multiply_out ((compute_syndromes s.data n col s.ss).2 0) (s.eblk 0))) 0 = b := by
      rw [hdiv, log_apow]
      exact Nat.mod_eq_of_lt (by omega)
    have hp0 : upd s.eblk 1 b 0 = a := by
      rw [upd_other _ _ (by decide)]
      exact hea
    have hp1 : upd s.eblk 1 b 1 = b := upd_same _ _ _
    obtain ⟨c1, cinv⟩ := @calculate_inverse_two (upd s.eblk 1 b) a b hp0 hp1 (by omega)
      (by omega) hab s.inv
    have han := analyze_one_add (n := n) (p := b)
      (s := { s with ss := (compute_syndromes s.data n col s.ss).2,
                     es := upd (upd (upd s.es 2 0) 1 0) 0 0 }) hcr hi1 hi2 hlog hb
      (by
        show (calculate_inverse 2 (upd s.eblk 1 b) s.inv).1 ≠ 0
        rw [c1]
        decide)
    obtain ⟨z00, z01, z10, z11, v00, v01, v10, v11⟩ := cinv
    have hj2 : ∀ j : Nat, j < 2 → j = 0 ∨ j = 1 := by
      intro j hj
      omega
    obtain ⟨s', h1, h2, h3, h4, h5, h6⟩ := check_column_fix hn hc henc (hcode col hc) hd hclean
      han rfl rfl
      (by
        intro j hj
        rcases hj2 j hj with rfl | rfl
        · show upd s.eblk 1 b 0 < n
          rw [hp0]
          exact ha
        · show upd s.eblk 1 b 1 < n
          rw [hp1]
          exact hb)
      (by
        intro j j' hj hj' heq
        have heq' : upd s.eblk 1 b j = upd s.eblk 1 b j' := heq
        rcases hj2 j hj with rfl | rfl <;> rcases hj2 j' hj' with rfl | rfl
        · rfl
        · rw [hp0, hp1] at heq'
          exact absurd heq' hab
        · rw [hp0, hp1] at heq'
          exact absurd heq'.symm hab
        · rfl)
      (by
        intro j hj
        rcases hj2 j hj with rfl | rfl
        · show determine 2 _ _ _ 0
            = s.data (col + 1024 * upd s.eblk 1 b 0) ^^^ enc (col + 1024 * upd s.eblk 1 b 0)
          rw [(determine_two _ _ _).1, hp0]
          apply (of_inj (byte_xor_lt (multiply_lt _ _) (multiply_lt _ _))
            (byte_xor_lt (hd _) (henc _))).1
          rw [of_xor (multiply_lt _ _) (multiply_lt _ _), of_multiply b0 z00,
            of_multiply b1 z01, o0, o1, v00, v01, err_of hd henc]
          exact ka.symm
        · show determine 2 _ _ _ 1
            = s.data (col + 1024 * upd s.eblk 1 b 1) ^^^ enc (col + 1024 * upd s.eblk 1 b 1)
          rw [(determine_two _ _ _).2, hp1]
          apply (of_inj (byte_xor_lt (multiply_lt _ _) (multiply_lt _ _))
            (byte_xor_lt (hd _) (henc _))).1
          rw [of_xor (multiply_lt _ _) (multiply_lt _ _), of_multiply b0 z10,
            of_multiply b1 z11, o0, o1, v10, v11, err_of hd henc]
          exact kb.symm)
      (by
        intro r hr hne
        apply hP
        rw [row_div hc]
        have n0 : r ≠ upd s.eblk 1 b 0 := hne 0 Nat.zero_lt_two
        have n1 : r ≠ upd s.eblk 1 b 1 := hne 1 Nat.one_lt_two
        rw [hp0] at n0
        rw [hp1] at n1
        exact fun h => h.elim n0 n1)
    refine ⟨s', h1, Or.inr ⟨h2, by rw [h3]; exact hp0, by rw [h3]; exact hp1, ?_⟩, ?_, ?_⟩
    · rw [h4]
      exact ⟨z00, z01, z10, z11, v00, v01, v10, v11⟩
    · intro x hx
      by_cases hlt : x / 1024 < n
      · exact h5 x hx hlt
      · rw [h6 x (fun h => hlt h.2)]
        exact hP x (by omega)
    · intro x hx
      exact h6 x (fun h => hx h.1)

/-! ## One flagged block and one unlocated block -/

theorem flagged_single {crcmap n a : Nat} (ha : a < n)
    (hcrc : ∀ i, i < n → (crcmap.testBit i = true ↔ i = a)) : flagged crcmap 0 n = [a] := by
  have hfl := @flagged_of_set crcmap n {a} (fun k hk => by rw [Finset.mem_singleton.1 hk]; exact ha)
    (fun i hi => by rw [Finset.mem_singleton]; exact hcrc i hi)
  have hlen : (flagged crcmap 0 n).length = 1 := by rw [hfl.2, Finset.card_singleton]
  have hmem : a ∈ flagged crcmap 0 n := (hfl.1 a).2 (Finset.mem_singleton_self a)
  rcases hL : flagged crcmap 0 n with _ | ⟨c, _ | ⟨d, rest⟩⟩
  · rw [hL] at hlen
    exact absurd hlen (by decide)
  · rw [hL] at hmem
    rw [List.mem_singleton.1 hmem]
  · rw [hL] at hlen
    simp only [List.length_cons] at hlen
    omega

/-- C16. One erasure plus one unlocated error is corrected: a segment encoded by
`set_parity` with `badmap = 0` and then changed arbitrarily inside two distinct
blocks `a` and `b` is restored exactly by `check_parity` called with `badmap = 0`
and a `crcmap` flagging only block `a`, and the call returns 0. -/
theorem check_parity_erasure_and_error (buf buf' : Buf) (hb : IsBytes buf) (hb' : IsBytes buf')
    (a b : Nat) (ha : a < 32) (hb32 : b < 32) (hab : a ≠ b)
    (hchg : ∀ x, buf' x ≠ (set_parity buf 0).2 x → x / 1024 = a ∨ x / 1024 = b)
    (crcmap : Nat) (hcrc : ∀ i, i < 32 → (crcmap.testBit i = true ↔ i = a)) :
    check_parity buf' 0 crcmap = (0, (set_parity buf 0).2) := by
  have henc : IsBytes (set_parity buf 0).2 := set_parity_bytes hb 0
  have hcode : ∀ col, col < 1024 → regs (set_parity buf 0).2 col 32 = (0, 0, 0) := by
    rw [set_parity_eq, sect_count_zero]
    exact encoded_code buf (by decide)
  unfold check_parity
  simp only
  rw [crc_scan_eq, sect_count_zero, flagged_single ha hcrc]
  simp only [List.length_cons, List.length_nil, Nat.zero_add, Nat.one_le_ofNat, if_true]
  have hci : ∀ (e : Nat → Nat) (inv : inv_mat), calculate_inverse 1 e inv = (1, inv) := by
    intro e inv
    rfl
  rw [hci]
  simp only [QCV_BLKSIZE, Nat.succ_ne_zero, if_false]
  exact column_loop_restores henc
    (fun s => (s.crcerrs = 1 ∧ s.eblk 0 = a) ∨
      (s.crcerrs = 2 ∧ s.eblk 0 = a ∧ s.eblk 1 = b ∧ Inv2OK s.inv a b))
    (fun r => r = a ∨ r = b) (step_one_add (by decide) henc hcode ha hb32 hab) 1024 0 _
    (by omega) (Or.inl ⟨rfl, rfl⟩) hb' (fun x hx => by
      by_contra hne
      exact hx (hchg x hne)) (fun x hx => by omega)

theorem check_parity_erasure_and_error_witness :
    ((5 : Nat) < 32 ∧ (17 : Nat) < 32 ∧ (5 : Nat) ≠ 17 ∧
      ∀ i, i < 32 → (Nat.testBit 32 i = true ↔ i = 5)) ∧
    check_parity (fun x => if x = 5 * 1024 + 3 ∨ x = 17 * 1024 + 3 ∨ x = 17 * 1024 + 9 then 255
        else (set_parity (fun _ => 0) 0).2 x) 0 32
      = (0, (set_parity (fun _ => 0) 0).2) :=
  have hcrc : ∀ i, i < 32 → (Nat.testBit 32 i = true ↔ i = 5) := by decide
  ⟨⟨by decide, by decide, by decide, hcrc⟩,
    check_parity_erasure_and_error (fun _ => 0)
      (fun x => if x = 5 * 1024 + 3 ∨ x = 17 * 1024 + 3 ∨ x = 17 * 1024 + 9 then 255
        else (set_parity (fun _ => 0) 0).2 x) zero_bytes
      (by
        intro x
        by_cases h : x = 5 * 1024 + 3 ∨ x = 17 * 1024 + 3 ∨ x = 17 * 1024 + 9
        · simp only [h, if_true]
          decide
        · simp only [h, if_false]
          exact set_parity_bytes zero_bytes 0 x)
      5 17 (by decide) (by decide) (by decide)
      (by
        intro x hx
        by_cases h : x = 5 * 1024 + 3 ∨ x = 17 * 1024 + 3 ∨ x = 17 * 1024 + 9
        · rcases h with h | h | h <;> subst h <;> decide
        · simp only [h, if_false, ne_eq, not_true_eq_false] at hx)
      32 hcrc⟩

/-! ## Unlocated errors scattered over the columns -/

/-- A column step of a decode that knows no location yet, the errors of this
column all lying in block `c`: the location is discovered if the column has a
discrepancy. -/
theorem step_zero_col {n : Nat} (hn : n ≤ 32) {enc : Buf} (henc : IsBytes enc)
    (hcode : ∀ col, col < 1024 → regs enc col n = (0, 0, 0)) {c : Nat} (hcn : c < n)
    {col : Nat} (hc : col < 1024) (s : cp_state) (hcr : s.crcerrs = 0) (hd : IsBytes s.data)
    (hcol : ∀ r, r ≠ c → s.data (col + 1024 * r) = enc (col + 1024 * r)) :
    ∃ s', check_column n col s = .next s' ∧
      (s'.crcerrs = 0 ∨ (s'.crcerrs = 1 ∧ s'.eblk 0 = c)) ∧
      (∀ x, x % 1024 = col → s'.data x = enc x) ∧
      (∀ x, x % 1024 ≠ col → s'.data x = s.data x) := by
  have hz := (regs_eq_zero_iff henc col n).1 (hcode col hc)
  obtain ⟨e0, e1, e2⟩ := @syn_err s.data _ _ _ hz
  have hoffz : ∀ i, ¬ (i = c) → err s.data enc col i = 0 :=
    fun i hi => err_eq_zero (hcol i hi)
  rw [sum_support1 _ hcn (fun i _ hib => by rw [hoffz i hib, zero_mul])] at e0 e2
  rw [sum_support1 _ hcn (fun i _ hib => hoffz i hib)] at e1
  obtain ⟨k1, -, -⟩ := solve1 (ap_ne_zero c) e0 e1 e2
  have hrow : ∀ x, x % 1024 = col → x / 1024 ≠ c → s.data x = enc x := by
    intro x hx hne
    have e : col + 1024 * (x / 1024) = x := by omega
    have := hcol (x / 1024) hne
    rwa [e] at this
  by_cases hclean : syn0 s.data col n = 0 ∧ syn1 s.data col n = 0 ∧ syn2 s.data col n = 0
  · refine ⟨s, check_column_clean hd (by omega) hc hclean, Or.inl hcr, ?_, fun x _ => rfl⟩
    intro x hx
    by_cases hxc : x / 1024 = c
    · have hzero : err s.data enc col c = 0 := by rw [← k1, hclean.1, zero_mul]
      have := (err_zero_iff hd henc col c).1 hzero
      have e : col + 1024 * c = x := by omega
      rwa [e] at this
    · exact hrow x hx hxc
  · have hspec := (compute_syndromes_spec hd (by omega : n ≤ 255) hc s.ss).2 hclean
    obtain ⟨-, o0, o1, o2, b0, b1, b2, -⟩ := hspec
    have herr : err s.data enc col c ≠ 0 := by
      intro h
      apply hclean
      rw [e0, e1, e2, h]
      simp
    have hs0 : syn0 s.data col n ≠ 0 := by
      rw [e0]
      exact mul_ne_zero herr (inv_ne_zero (ap_ne_zero c))
    have hss0 : (compute_syndromes s.data n col s.ss).2 0 ≠ 0 := by
      intro h
      rw [h] at o0
      exact hs0 o0.symm
    have hdiv : divide ((compute_syndromes s.data n col s.ss).2 1)
        ((compute_syndromes s.data n col s.ss).2 0) = apow c := by
      apply (of_inj (divide_lt _ _) (apow_lt c)).1
      rw [of_divide b1 b0, o0, o1, e0, e1]
      show _ = ap c
      field_simp
    have hlog : alpha_log.getD (divide ((compute_syndromes s.data n col s.ss).2 1)
        ((compute_syndromes s.data n col s.ss).2 0)) 0 = c := by
      rw [hdiv, log_apow]
      exact Nat.mod_eq_of_lt (by omega)
    have han := analyze_zero (n := n)
      (s := { s with ss := (compute_syndromes s.data n col s.ss).2,
                     es := upd (upd (upd s.es 2 0) 1 0) 0 0 }) hcr hss0
      (by
        show alpha_log.getD (divide ((compute_syndromes s.data n col s.ss).2 1)
          ((compute_syndromes s.data n col s.ss).2 0)) 0 < n
        rw [hlog]
        exact hcn)
    have hj1 : ∀ j : Nat, j < 1 → j = 0 := by
      intro j hj
      omega
    obtain ⟨s', h1, h2, h3, -, h5, h6⟩ := check_column_fix hn hc henc (hcode col hc) hd hclean han
      rfl rfl
      (by
        intro j hj
        have hj0 := hj1 j hj
        subst hj0
        dsimp only
        rw [upd_same, hlog]
        exact hcn)
      (by
        intro j j' hj hj' _
        rw [hj1 j hj, hj1 j' hj'])
      (by
        intro j hj
        have hj0 := hj1 j hj
        subst hj0
        dsimp only
        rw [upd_same, upd_same, hlog]
        apply (of_inj b1 (byte_xor_lt (hd _) (henc _))).1
        rw [o1, e1, err_of hd henc])
      (by
        intro r hr hne
        apply hcol
        have := hne 0 Nat.zero_lt_one
        intro h
        apply this
        dsimp only
        rw [upd_same, hlog]
        exact h)
    refine ⟨s', h1, Or.inr ⟨h2, ?_⟩, ?_, ?_⟩
    · rw [h3]
      dsimp only
      rw [upd_same, hlog]
    · intro x hx
      by_cases hlt : x / 1024 < n
      · exact h5 x hx hlt
      · rw [h6 x (fun h => hlt h.2)]
        exact hrow x hx (by omega)
    · intro x hx
      exact h6 x (fun h => hx h.1)

/-- The state of a decode that started with no known location, on a segment whose
errors lie in the blocks `a` and `b`, at most one in a column. -/
def ScatteredState (enc : Buf) (a b : Nat) (s : cp_state) : Prop :=
  (∀ x y, x % 1024 = y % 1024 → s.data x ≠ enc x → s.data y ≠ enc y → x = y) ∧
  (s.crcerrs = 0 ∨
    ((s.crcerrs = 1 ∧ s.eblk 0 = a) ∨
      (s.crcerrs = 2 ∧ s.eblk 0 = a ∧ s.eblk 1 = b ∧ Inv2OK s.inv a b)) ∨
    ((s.crcerrs = 1 ∧ s.eblk 0 = b) ∨
      (s.crcerrs = 2 ∧ s.eblk 0 = b ∧ s.eblk 1 = a ∧ Inv2OK s.inv b a)))

/-- A column step of a decode that started with no known location, the errors
lying in two distinct blocks, at most one in a column. -/
theorem step_scattered {n : Nat} (hn : n ≤ 32) {enc : Buf} (henc : IsBytes enc)
    (hcode : ∀ col, col < 1024 → regs enc col n = (0, 0, 0)) {a b : Nat} (ha : a < n)
    (hb : b < n) (hab : a ≠ b) :
    ∀ col s, col < 1024 → ScatteredState enc a b s → IsBytes s.data →
      (∀ x, ¬ (x / 1024 = a ∨ x / 1024 = b) → s.data x = enc x) →
      ∃ s', check_column n col s = .next s' ∧ ScatteredState enc a b s' ∧
        (∀ x, x % 1024 = col → s'.data x = enc x) ∧
        (∀ x, x % 1024 ≠ col → s'.data x = s.data x) := by
  intro col s hc hI hd hP
  obtain ⟨hone, hst⟩ := hI
  have keep : ∀ s' : cp_state, (∀ x, x % 1024 = col → s'.data x = enc x) →
      (∀ x, x % 1024 ≠ col → s'.data x = s.data x) →
      ∀ x y, x % 1024 = y % 1024 → s'.data x ≠ enc x → s'.data y ≠ enc y → x = y := by
    intro s' h3 h4 x y hxy hx hy
    have hxc : x % 1024 ≠ col := fun h => hx (h3 x h)
    have hyc : y % 1024 ≠ col := fun h => hy (h3 y h)
    rw [h4 x hxc] at hx
    rw [h4 y hyc] at hy
    exact hone x y hxy hx hy
  rcases hst with h0 | h1 | h1
  · by_cases hbrow : s.data (col + 1024 * b) = enc (col + 1024 * b)
    · obtain ⟨s', h1, h2, h3, h4⟩ := step_zero_col hn henc hcode ha hc s h0 hd (by
        intro r hr
        by_cases hrb : r = b
        · rw [hrb]
          exact hbrow
        · apply hP
          rw [row_div hc]
          exact fun h => h.elim hr hrb)
      refine ⟨s', h1, ⟨keep s' h3 h4, ?_⟩, h3, h4⟩
      rcases h2 with h2 | h2
      · exact Or.inl h2
      · exact Or.inr (Or.inl (Or.inl h2))
    · obtain ⟨s', h1, h2, h3, h4⟩ := step_zero_col hn henc hcode hb hc s h0 hd (by
        intro r hr
        by_cases hra : r = a
        · by_contra hne
          have := hone (col + 1024 * r) (col + 1024 * b) (by omega) hne hbrow
          omega
        · apply hP
          rw [row_div hc]
          exact fun h => h.elim hra hr)
      refine ⟨s', h1, ⟨keep s' h3 h4, ?_⟩, h3, h4⟩
      rcases h2 with h2 | h2
      · exact Or.inl h2
      · exact Or.inr (Or.inr (Or.inl h2))
  · obtain ⟨s', h1', h2, h3, h4⟩ := step_one_add hn henc hcode ha hb hab col s hc h1 hd hP
    exact ⟨s', h1', ⟨keep s' h3 h4, Or.inr (Or.inl h2)⟩, h3, h4⟩
  · obtain ⟨s', h1', h2, h3, h4⟩ := step_one_add hn henc hcode hb ha (fun h => hab h.symm) col s
      hc h1 hd (fun x hx => hP x (fun h => hx h.symm))
    exact ⟨s', h1', ⟨keep s' h3 h4, Or.inr (Or.inr h2)⟩, h3, h4⟩

theorem set_parity_zero_segment (x : Nat) : (set_parity (fun _ => 0) 0).2 x = 0 := by
  rw [set_parity_eq]
  show parity_spec (fun _ => 0) _ x = 0
  unfold parity_spec
  rw [regs_zero]
  simp

/-- The encoded zero segment with one byte altered in each of the columns 0, 1
and 2: in block 0 of column 0, block 1 of column 1 and block 2 of column 2. -/
def three_blocks_data : Buf := fun x => if x = 0 ∨ x = 1025 ∨ x = 2050 then 1 else 0

theorem three_blocks_data_altered (x : Nat) :
    three_blocks_data x ≠ (set_parity (fun _ => 0) 0).2 x ↔ (x = 0 ∨ x = 1025 ∨ x = 2050) := by
  rw [set_parity_zero_segment]
  unfold three_blocks_data
  by_cases h : x = 0 ∨ x = 1025 ∨ x = 2050
  · simp only [h, if_true, iff_true]
    decide
  · simp only [h, if_false, iff_false]
    exact fun hne => hne rfl

theorem three_blocks_data_code : (check_parity three_blocks_data 0 0).1 = 1 := by
  decide!

/-- C15, counterexample. The zero segment is encoded to the zero segment;
`three_blocks_data` differs from it in exactly three bytes, one in each of the
columns 0, 1, 2 (blocks 0, 1, 2), so every column has at most one altered byte;
and `check_parity` with `badmap = 0` and `crcmap = 0` returns 1 on it: the
location found in column 0 and the one found in column 1 are both still in use
in column 2. -/
theorem check_parity_scattered_counterexample :
    (∀ x, three_blocks_data x ≠ (set_parity (fun _ => 0) 0).2 x ↔
      (x = 0 ∨ x = 1025 ∨ x = 2050)) ∧
    (∀ x y, x % 1024 = y % 1024 → three_blocks_data x ≠ (set_parity (fun _ => 0) 0).2 x →
      three_blocks_data y ≠ (set_parity (fun _ => 0) 0).2 y → x = y) ∧
    (check_parity three_blocks_data 0 0).1 = 1 ∧
    check_parity three_blocks_data 0 0 ≠ (0, (set_parity (fun _ => 0) 0).2) := by
  refine ⟨three_blocks_data_altered, ?_, three_blocks_data_code, ?_⟩
  · intro x y hxy hx hy
    rw [three_blocks_data_altered] at hx hy
    omega
  · intro h
    have h1 := three_blocks_data_code
    rw [h] at h1
    exact absurd h1 (by decide)

/-- C15, amended. A discovered error location stays in use for the later
columns, and at most two can be discovered: with `badmap = 0` and `crcmap = 0`,
a segment encoded by `set_parity` in which every column has at most one altered
byte, the altered bytes of all columns lying in at most two blocks `a` and `b`,
is restored exactly by `check_parity`, and the call returns 0. -/
theorem check_parity_scattered_two_blocks (buf buf' : Buf) (hb : IsBytes buf)
    (hb' : IsBytes buf') (a b : Nat) (ha : a < 32) (hb32 : b < 32)
    (hchg : ∀ x, buf' x ≠ (set_parity buf 0).2 x → x / 1024 = a ∨ x / 1024 = b)
    (hone : ∀ x y, x % 1024 = y % 1024 → buf' x ≠ (set_parity buf 0).2 x →
      buf' y ≠ (set_parity buf 0).2 y → x = y) :
    check_parity buf' 0 0 = (0, (set_parity buf 0).2) := by
  have henc : IsBytes (set_parity buf 0).2 := set_parity_bytes hb 0
  have hcode : ∀ col, col < 1024 → regs (set_parity buf 0).2 col 32 = (0, 0, 0) := by
    rw [set_parity_eq, sect_count_zero]
    exact encoded_code buf (by decide)
  unfold check_parity
  simp only
  rw [crc_scan_eq, flagged_of_zero, sect_count_zero]
  simp only [List.length_nil, Nat.zero_le, if_true]
  have hci : ∀ (e : Nat → Nat) (inv : inv_mat), calculate_inverse 0 e inv = (1, inv) := by
    intro e inv
    rfl
  rw [hci]
  simp only [QCV_BLKSIZE, Nat.succ_ne_zero, if_false]
  by_cases hab : a = b
  · exact column_loop_restores henc (fun s => s.crcerrs = 0 ∨ (s.crcerrs = 1 ∧ s.eblk 0 = a))
      (fun r => r = a) (step_zero (by decide) henc hcode ha) 1024 0 _ (by omega)
      (Or.inl rfl) hb' (fun x hx => by
        by_contra hne
        rcases hchg x hne with h | h
        · exact hx h
        · exact hx (h.trans hab.symm)) (fun x hx => by omega)
  · exact column_loop_restores henc (ScatteredState (set_parity buf 0).2 a b)
      (fun r => r = a ∨ r = b) (step_scattered (by decide) henc hcode ha hb32 hab) 1024 0 _
      (by omega) ⟨hone, Or.inl rfl⟩ hb' (fun x hx => by
        by_contra hne
        exact hx (hchg x hne)) (fun x hx => by omega)

theorem check_parity_scattered_two_blocks_witness :
    ((5 : Nat) < 32 ∧ (17 : Nat) < 32) ∧
    check_parity (fun x => if x = 5 * 1024 + 3 ∨ x = 17 * 1024 + 9 then 255
        else (set_parity (fun _ => 0) 0).2 x) 0 0
      = (0, (set_parity (fun _ => 0) 0).2) :=
  have hmem : ∀ x, (fun x => if x = 5 * 1024 + 3 ∨ x = 17 * 1024 + 9 then 255
      else (set_parity (fun _ => 0) 0).2 x) x ≠ (set_parity (fun _ => 0) 0).2 x →
      x = 5 * 1024 + 3 ∨ x = 17 * 1024 + 9 := by
    intro x hx
    by_contra h
    simp only [h, if_false, ne_eq, not_true_eq_false] at hx
  ⟨⟨by decide, by decide⟩,
    check_parity_scattered_two_blocks (fun _ => 0)
      (fun x => if x = 5 * 1024 + 3 ∨ x = 17 * 1024 + 9 then 255
        else (set_parity (fun _ => 0) 0).2 x) zero_bytes
      (by
        intro x
        by_cases h : x = 5 * 1024 + 3 ∨ x = 17 * 1024 + 9
        · simp only [h, if_true]
          decide
        · simp only [h, if_false]
          exact set_parity_bytes zero_bytes 0 x)
      5 17 (by decide) (by decide)
      (by
        intro x hx
        rcases hmem x hx with h | h <;> subst h <;> decide)
      (by
        intro x y hxy hx hy
        have h1 := hmem x hx
        have h2 := hmem y hy
        omega)⟩

/-! ## The multiplier table and the field multiplication -/

/-- C19. The encoder's multiplier table agrees with the field multiplication it
replaced: for every byte `t`, `mult_c0[t] = multiply (t, 0xc0)`. -/
theorem mult_c0_eq_multiply (t : Nat) (ht : t < 256) :
    mult_c0.getD t 0 = multiply t 0xc0 :=
  tbl_mult_c0 t ht

theorem mult_c0_eq_multiply_witness : mult_c0.getD 0x53 0 = multiply 0x53 0xc0 :=
  mult_c0_eq_multiply 0x53 (by decide)

/-- The product of two polynomials over GF(2), the polynomial of a number having
bit `i` as the coefficient of `x^i`: the sum of `a * x^i` over the set bits `i`
of `b` among the lowest `k`. -/
def clmul_bits (a b : Nat) : Nat → Nat
  | 0 => 0
  | k + 1 => if b.testBit k then clmul_bits a b k ^^^ (a <<< k) else clmul_bits a b k

/-- The product of two polynomials of degree below 8 over GF(2). -/
def clmul (a b : Nat) : Nat := clmul_bits a b 8

/-- One step of the division by `x^8 + x^7 + x^2 + x + 1` (0x187): the term of
degree `k` is cancelled with the modulus shifted up to it. -/
def polymod_step (k v : Nat) : Nat := if v.testBit k then v ^^^ (0x187 <<< (k - 8)) else v

/-- The terms of degree `k + 7` down to 8 cancelled in turn. -/
def polymod_loop : Nat → Nat → Nat
  | 0, v => v
  | k + 1, v => polymod_loop k (polymod_step (k + 8) v)

/-- The remainder of a polynomial of degree below 15 modulo
`x^8 + x^7 + x^2 + x + 1`. -/
def polymod (v : Nat) : Nat := polymod_loop 7 v

/-- The product of two bytes as polynomials over GF(2), reduced modulo
`x^8 + x^7 + x^2 + x + 1`. -/
def polymul (a b : Nat) : Nat := polymod (clmul a b)

theorem polymod_step_xor (k u v : Nat) :
    polymod_step k (u ^^^ v) = polymod_step k u ^^^ polymod_step k v := by
  unfold polymod_step
  rw [Nat.testBit_xor]
  cases hu : u.testBit k <;> cases hv : v.testBit k <;>
    simp only [Bool.xor_false, Bool.xor_true, Bool.not_false, Bool.not_true, if_true, if_false,
      Bool.false_eq_true]
  · rw [Nat.xor_assoc]
  · rw [Nat.xor_assoc, Nat.xor_comm v, ← Nat.xor_assoc]
  · rw [Nat.xor_assoc, Nat.xor_comm v, ← Nat.xor_assoc (0x187 <<< (k - 8)), Nat.xor_self,
      Nat.zero_xor]

theorem polymod_loop_xor : ∀ k u v,
    polymod_loop k (u ^^^ v) = polymod_loop k u ^^^ polymod_loop k v
  | 0, _, _ => rfl
  | k + 1, u, v => by
    show polymod_loop k (polymod_step (k + 8) (u ^^^ v)) = _
    rw [polymod_step_xor, polymod_loop_xor k]
    rfl

theorem polymod_xor (u v : Nat) : polymod (u ^^^ v) = polymod u ^^^ polymod v :=
  polymod_loop_xor 7 u v

theorem polymod_shift : ∀ a < 256, ∀ i < 8, polymod (a <<< i) = xpow i a := by
  decide!

theorem two_pow_eq_apow : ∀ i < 8, 2 ^ i = apow i := by
  decide

theorem mod_two_pow_succ_xor (b k : Nat) :
    b % 2 ^ (k + 1) = (b % 2 ^ k) ^^^ (if b.testBit k then 2 ^ k else 0) := by
  apply Nat.eq_of_testBit_eq
  intro i
  rw [Nat.testBit_xor, Nat.testBit_mod_two_pow, Nat.testBit_mod_two_pow]
  rcases Nat.lt_trichotomy i k with h | h | h
  · have h1 : i < k + 1 := by omega
    have h2 : (if b.testBit k then 2 ^ k else 0 : Nat).testBit i = false := by
      split
      · rw [Nat.testBit_two_pow]
        exact decide_eq_false (by omega)
      · exact Nat.zero_testBit i
    rw [h2, decide_eq_true h, decide_eq_true h1, Bool.xor_false]
  · subst h
    have h1 : ¬ (i < i) := by omega
    rw [decide_eq_true (Nat.lt_succ_self i), decide_eq_false h1, Bool.true_and, Bool.false_and,
      Bool.false_xor]
    cases hb : b.testBit i
    · simp only [Bool.false_eq_true, if_false]
      exact (Nat.zero_testBit i).symm
    · simp only [if_true]
      rw [Nat.testBit_two_pow_self]
  · have h1 : ¬ (i < k + 1) := by omega
    have h0 : ¬ (i < k) := by omega
    have h2 : (if b.testBit k then 2 ^ k else 0 : Nat).testBit i = false := by
      split
      · rw [Nat.testBit_two_pow]
        exact decide_eq_false (by omega)
      · exact Nat.zero_testBit i
    rw [h2, decide_eq_false h0, decide_eq_false h1]
    rfl

theorem polymod_zero : polymod 0 = 0 := by decide

/-- The table multiplication by the low `k` bits of `b` is the product of the
polynomials reduced modulo 0x187. -/
theorem multiply_low_bits {a : Nat} (ha : a < 256) (b : Nat) :
    ∀ k, k ≤ 8 → multiply a (b % 2 ^ k) = polymod (clmul_bits a b k) := by
  intro k
  induction k with
  | zero =>
    intro _
    rw [Nat.pow_zero, Nat.mod_one, multiply_zero_right]
    exact polymod_zero.symm
  | succ k ih =>
    intro hk
    have hk8 : k < 8 := by omega
    have hlt : b % 2 ^ k < 256 :=
      Nat.lt_of_lt_of_le (Nat.mod_lt _ (Nat.two_pow_pos k))
        (Nat.pow_le_pow_right (by decide) (by omega : k ≤ 8))
    have hp : 2 ^ k < 256 := Nat.pow_lt_pow_right (by decide) hk8
    rw [mod_two_pow_succ_xor]
    show _ = polymod (if b.testBit k then clmul_bits a b k ^^^ (a <<< k) else clmul_bits a b k)
    cases hb : b.testBit k
    · simp only [Bool.false_eq_true, if_false, Nat.xor_zero]
      exact ih (by omega)
    · simp only [if_true]
      rw [multiply_xor ha hlt hp, ih (by omega), polymod_xor, polymod_shift a ha k hk8,
        multiply_comm a, two_pow_eq_apow k hk8, multiply_apow_eq_xpow k ha]

/-- C20. `multiply` is the multiplication of a field on bytes whose addition is
XOR: it is associative, distributes over XOR, has 1 as its identity and every
nonzero byte has an inverse; and `multiply (a, b)` is the product of `a` and `b`
as polynomials over GF(2) reduced modulo `x^8 + x^7 + x^2 + x + 1` (0x187). -/
theorem multiply_field_polynomial (a b c : Nat) (ha : a < 256) (hb : b < 256) (hc : c < 256) :
    multiply a (multiply b c) = multiply (multiply a b) c ∧
    multiply a (b ^^^ c) = multiply a b ^^^ multiply a c ∧
    multiply a 1 = a ∧
    (a ≠ 0 → ∃ x, x < 256 ∧ multiply a x = 1) ∧
    multiply a b = polymul a b := by
  refine ⟨(multiply_assoc ha hb hc).symm, multiply_xor ha hb hc, multiply_one ha,
    fun h0 => ⟨divide 1 a, divide_lt _ _, multiply_divide_one ha h0⟩, ?_⟩
  have h := multiply_low_bits ha b 8 (Nat.le_refl _)
  rw [Nat.mod_eq_of_lt (by exact hb)] at h
  exact h

theorem multiply_field_polynomial_witness :
    multiply 0x53 (multiply 0xca 0x02) = multiply (multiply 0x53 0xca) 0x02 ∧
    multiply 0x53 (0xca ^^^ 0x02) = multiply 0x53 0xca ^^^ multiply 0x53 0x02 ∧
    multiply 0x53 1 = 0x53 ∧
    (0x53 ≠ 0 → ∃ x, x < 256 ∧ multiply 0x53 x = 1) ∧
    multiply 0x53 0xca = polymul 0x53 0xca :=
  multiply_field_polynomial 0x53 0xca 0x02 (by decide) (by decide) (by decide)

/-! ## Table, array and buffer accesses

The functions below list, in program order, the accesses the C code makes with a
computed index: every read of `alpha_power`, `alpha_log` and `mult_c0`, every
access to `eblk`, `ss`, `es` and `inv.zs` whose index is a variable (`i`, `j`,
`crcerrs`), and every access to a byte of the segment.  Accesses whose index is
a literal (`ss[0]`, `pblk[2]`, `inv->zs[0][1]`) are not listed.  Each function
follows the control flow of the function it instruments and takes the values it
needs from it. -/

/-- An access with a computed index.  The index of `alpha_power` is the `int` the
C code computes, before any conversion, so that a negative index would show. -/
inductive access where
  | power (i : Int)
  | log (i : Nat)
  | c0 (i : Nat)
  | cell (i : Nat)
  | byte (off : Nat)
  deriving DecidableEq

/-- The access is inside its object: the three tables have 256 entries, the
arrays `eblk`, `ss`, `es` and the rows and columns of `inv.zs` have 3, and the
segment has `nblks` blocks of 1024 bytes. -/
def access.ok (nblks : Nat) : access → Prop
  | .power i => 0 ≤ i ∧ i ≤ 255
  | .log i => i ≤ 255
  | .c0 i => i ≤ 255
  | .cell i => i ≤ 2
  | .byte off => off < nblks * 1024

/-- Accesses of `multiply`. -/
def multiply_accesses (a b : Nat) : List access :=
  if a = 0 ∨ b = 0 then []
  else
    let tmp := alpha_log.getD a 0 + alpha_log.getD b 0
    let tmp := if tmp > 254 then tmp - 255 else tmp
    [.log a, .log b, .power tmp]

/-- Accesses of `multiply_out`. -/
def multiply_out_accesses (a b : Nat) : List access :=
  if a = 0 then []
  else
    let tmp := alpha_log.getD a 0 + b
    let tmp := if tmp > 254 then tmp - 255 else tmp
    [.log a, .power tmp]

/-- Accesses of `divide`. -/
def divide_accesses (a b : Nat) : List access :=
  if a = 0 ∨ b = 0 then []
  else
    let tmp : Int := (alpha_log.getD a 0 : Int) - (alpha_log.getD b 0 : Int)
    let tmp := if tmp < 0 then tmp + 255 else tmp
    [.log a, .log b, .power tmp]

/-- Accesses of `divide_out`. -/
def divide_out_accesses (a b : Nat) : List access :=
  if a = 0 then []
  else
    let tmp : Int := (alpha_log.getD a 0 : Int) - (b : Int)
    let tmp := if tmp < 0 then tmp + 255 else tmp
    [.log a, .power tmp]

/-- Accesses of `z_of_ab`. -/
def z_of_ab_accesses (a b : Nat) : List access :=
  let tmp : Int := (a : Int) - (b : Int)
  let tmp := if tmp < 0 then tmp + 255 else tmp
  [.power tmp]

/-- Accesses of `calculate_inverse`. -/
def calculate_inverse_accesses (nerrs : Nat) (pblk : Nat → Nat) : List access :=
  if nerrs < 2 then []
  else if nerrs > 3 then []
  else
    let i0 := pblk 0 % 256
    let i1 := pblk 1 % 256
    let i2 := pblk 2 % 256
    if nerrs = 2 then
      let z01 := alpha_power.getD (255 - i0) 0
      let z02 := alpha_power.getD (255 - i1) 0
      let d := z01 ^^^ z02
      [.power (255 - (i0 : Int)), .power (255 - (i1 : Int))] ++
        if d = 0 then []
        else
          let ld := (255 - alpha_log.getD d 0) % 256
          [.log d] ++ multiply_out_accesses 1 ld ++ multiply_out_accesses z02 ld ++
            multiply_out_accesses 1 ld ++ multiply_out_accesses z01 ld
    else
      let z20 := z_of_ab i2 i0
      let z10 := z_of_ab i1 i0
      let z21 := z_of_ab i2 i1
      let z12 := z_of_ab i1 i2
      let z01 := z_of_ab i0 i1
      let z02 := z_of_ab i0 i2
      let d := z20 ^^^ z10 ^^^ z21 ^^^ z12 ^^^ z01 ^^^ z02
      z_of_ab_accesses i2 i0 ++ z_of_ab_accesses i1 i0 ++ z_of_ab_accesses i2 i1 ++
        z_of_ab_accesses i1 i2 ++ z_of_ab_accesses i0 i1 ++ z_of_ab_accesses i0 i2 ++
        if d = 0 then []
        else
          let ld := (255 - alpha_log.getD d 0) % 256
          let iv0 := alpha_power.getD (255 - i0) 0
          let iv1 := alpha_power.getD (255 - i1) 0
          let iv2 := alpha_power.getD (255 - i2) 0
          let a0 := alpha_power.getD i0 0
          let a1 := alpha_power.getD i1 0
          let a2 := alpha_power.getD i2 0
          [.log d, .power (255 - (i0 : Int)), .power (255 - (i1 : Int)),
            .power (255 - (i2 : Int)), .power i0, .power i1, .power i2] ++
            multiply_out_accesses (a1 ^^^ a2) ld ++ multiply_out_accesses (z21 ^^^ z12) ld ++
            multiply_out_accesses (iv1 ^^^ iv2) ld ++ multiply_out_accesses (a0 ^^^ a2) ld ++
            multiply_out_accesses (z20 ^^^ z02) ld ++ multiply_out_accesses (iv0 ^^^ iv2) ld ++
            multiply_out_accesses (a0 ^^^ a1) ld ++ multiply_out_accesses (z10 ^^^ z01) ld ++
            multiply_out_accesses (iv0 ^^^ iv1) ld

/-- Accesses of the inner loop of `determine`: `es[i] ^= multiply(ss[j],
inv->zs[i][j])` touches `es[i]`, `ss[j]` and `zs[i][j]`. -/
def determine_row_accesses (inv : inv_mat) (ss : Nat → Nat) (i : Nat) : Nat → Nat → List access
  | 0, _ => []
  | k + 1, j =>
    [.cell i, .cell j, .cell i, .cell j] ++ multiply_accesses (ss j) (inv.zs i j) ++
      determine_row_accesses inv ss i k (j + 1)

/-- Accesses of the outer loop of `determine`: `es[i] = 0`, then the inner loop. -/
def determine_loop_accesses (nerrs : Nat) (inv : inv_mat) (ss : Nat → Nat) :
    Nat → Nat → List access
  | 0, _ => []
  | k + 1, i =>
    [.cell i] ++ determine_row_accesses inv ss i nerrs 0 ++
      determine_loop_accesses nerrs inv ss k (i + 1)

/-- Accesses of `determine`. -/
def determine_accesses (nerrs : Nat) (inv : inv_mat) (ss : Nat → Nat) : List access :=
  determine_loop_accesses nerrs inv ss nerrs 0

/-- Accesses of the loop of `compute_syndromes`: the byte `*rptr` and the entry
`mult_c0[t1]`. -/
def syndrome_rows_accesses (data : Buf) (limit : Nat) :
    Nat → Nat → Nat × Nat × Nat → List access
  | 0, _, _ => []
  | fuel + 1, rptr, r =>
    if rptr < limit then
      [.byte rptr, .c0 (data rptr ^^^ r.1)] ++
        syndrome_rows_accesses data limit fuel (rptr + QCV_BLKSIZE) (lfsr_step (data rptr) r)
    else []

/-- Accesses of `compute_syndromes`. -/
def compute_syndromes_accesses (data : Buf) (nblks col : Nat) : List access :=
  let limit := nblks <<< 10
  let r := syndrome_rows data limit limit col (0, 0, 0)
  let r0 := r.1
  let r1 := r.2.1
  let r2 := r.2.2
  syndrome_rows_accesses data limit limit col (0, 0, 0) ++
    if r0 ≠ 0 ∨ r1 ≠ 0 ∨ r2 ≠ 0 then
      divide_out_accesses r2 1 ++ divide_out_accesses (r1 ^^^ divide_out r2 1) 1 ++
        divide_out_accesses (r0 ^^^ divide_out (r1 ^^^ divide_out r2 1) 1) (nblks % 256) ++
        multiply_out_accesses r2 1 ++ multiply_out_accesses (r1 ^^^ multiply_out r2 1) 1 ++
        multiply_out_accesses (r0 ^^^ multiply_out (r1 ^^^ multiply_out r2 1) 1) nblks
    else []

/-- Accesses of the scan loop of `check_parity`: `eblk[crcerrs++] = i`. -/
def crc_loop_accesses (crcmap : Nat) : Nat → Nat → Nat → List access
  | 0, _, _ => []
  | k + 1, i, crcerrs =>
    if crcmap &&& (1 <<< i) ≠ 0 then
      if crcerrs = 3 then []
      else [.cell crcerrs] ++ crc_loop_accesses crcmap k (i + 1) (crcerrs + 1)
    else crc_loop_accesses crcmap k (i + 1) crcerrs

/-- Accesses of the loop `Make corrections` of `check_parity`. -/
def correct_loop_accesses (col : Nat) (eblk es : Nat → Nat) : Nat → Nat → List access
  | 0, _ => []
  | k + 1, i =>
    [.cell i, .byte ((eblk i <<< 10) ||| col), .cell i, .cell i, .cell i] ++
      divide_out_accesses (es i) (eblk i % 256) ++ [.cell i, .cell i, .cell i] ++
      multiply_out_accesses (es i) (eblk i) ++ correct_loop_accesses col eblk es k (i + 1)

/-- Accesses of the `switch (crcerrs)` of `check_parity`. -/
def analyze_accesses (nblks : Nat) (s : cp_state) : List access :=
  match s.crcerrs with
  | 0 =>
    if s.ss 0 = 0 then []
    else
      divide_accesses (s.ss 1) (s.ss 0) ++
        [.log (divide (s.ss 1) (s.ss 0)), .cell s.crcerrs, .cell s.crcerrs]
  | 1 =>
    let i1 := s.ss 2 ^^^ multiply_out (s.ss 1) (s.eblk 0)
    let i2 := s.ss 1 ^^^ multiply_out (s.ss 0) (s.eblk 0)
    multiply_out_accesses (s.ss 1) (s.eblk 0) ++ multiply_out_accesses (s.ss 0) (s.eblk 0) ++
      if i1 = 0 ∧ i2 = 0 then
        let inv : inv_mat :=
          { log_denom := 0, zs := upd2 s.inv.zs 0 0 (alpha_power.getD (s.eblk 0) 0) }
        [.power (s.eblk 0)] ++ determine_accesses s.crcerrs inv s.ss
      else if i1 = 0 ∨ i2 = 0 then []
      else
        let eblk := upd s.eblk s.crcerrs (alpha_log.getD (divide i1 i2) 0)
        divide_accesses i1 i2 ++ [.log (divide i1 i2), .cell s.crcerrs, .cell s.crcerrs] ++
          if eblk s.crcerrs ≥ nblks then []
          else
            let crcerrs := s.crcerrs + 1
            if crcerrs > 3 then []
            else
              let ci := calculate_inverse crcerrs eblk s.inv
              calculate_inverse_accesses crcerrs eblk ++
                if ci.1 = 0 then [] else determine_accesses crcerrs ci.2 s.ss
  | 2 => determine_accesses s.crcerrs s.inv s.ss
  | 3 => determine_accesses s.crcerrs s.inv s.ss
  | _ => []

/-- Accesses of the body of the column loop of `check_parity`. -/
def check_column_accesses (nblks col : Nat) (s : cp_state) : List access :=
  let cs := compute_syndromes s.data nblks col s.ss
  compute_syndromes_accesses s.data nblks col ++
    if cs.1 ≠ 0 then []
    else
      let s := { s with ss := cs.2 }
      let s := { s with es := upd (upd (upd s.es 2 0) 1 0) 0 0 }
      analyze_accesses nblks s ++
        match analyze nblks s with
        | .ret _ _ => []
        | .next s => correct_loop_accesses col s.eblk s.es s.crcerrs 0

/-- Accesses of the column loop of `check_parity`, with `k` columns left. -/
def column_loop_accesses (nblks : Nat) : Nat → Nat → cp_state → List access
  | 0, _, _ => []
  | k + 1, col, s =>
    check_column_accesses nblks col s ++
      match check_column nblks col s with
      | .ret _ _ => []
      | .next s => column_loop_accesses nblks k (col + 1) s

/-- Accesses of `check_parity`. -/
def check_parity_accesses (data : Buf) (badmap crcmap : Nat) : List access :=
  let nblks := sect_count badmap
  let eblk : Nat → Nat := fun _ => 0
  let inv : inv_mat := { log_denom := 0, zs := fun _ _ => 0 }
  let scan := if crcmap ≠ 0 then crc_loop crcmap nblks 0 0 eblk else some (0, eblk)
  (if crcmap ≠ 0 then crc_loop_accesses crcmap nblks 0 0 else []) ++
    match scan with
    | none => []
    | some (crcerrs, eblk) =>
      let ci := calculate_inverse crcerrs eblk inv
      calculate_inverse_accesses crcerrs eblk ++
        if ci.1 = 0 then []
        else
          column_loop_accesses nblks QCV_BLKSIZE 0
            { data := data, crcerrs := crcerrs, eblk := eblk,
              ss := fun _ => 0, es := fun _ => 0, inv := ci.2 }

/-! ## Reads of the sentinel entry of the log table -/

theorem alpha_log_length : alpha_log.length = 256 := by decide!

theorem alpha_power_length : alpha_power.length = 256 := by decide!

theorem log_le (v : Nat) : alpha_log.getD v 0 ≤ 255 := by
  by_cases hv : v < 256
  · have h : ∀ w < 256, alpha_log.getD w 0 ≤ 255 := by decide!
    exact h v hv
  · rw [List.getD_eq_default _ _ (by rw [alpha_log_length]; omega)]
    exact Nat.zero_le _

theorem power_ne_zero {i : Nat} (hi : i ≤ 255) : alpha_power.getD i 0 ≠ 0 := by
  have h : ∀ w < 256, alpha_power.getD w 0 ≠ 0 := by decide!
  exact h i (by omega)

theorem log_sentinel : alpha_log.getD 0 0 = 255 := by decide!

/-- A quotient of nonzero operands is nonzero. -/
theorem divide_ne_zero {a b : Nat} (ha : a ≠ 0) (hb : b ≠ 0) : divide a b ≠ 0 := by
  have h1 := log_le a
  have h2 := log_le b
  unfold divide
  rw [if_neg (by simp [ha, hb])]
  simp only
  apply power_ne_zero
  split <;> omega

theorem log_zero_multiply (a b : Nat) : access.log 0 ∉ multiply_accesses a b := by
  unfold multiply_accesses
  split
  · exact List.not_mem_nil _
  · rename_i h
    simp only [List.mem_cons, access.log.injEq, List.mem_singleton, reduceCtorEq, or_false,
      List.mem_nil_iff]
    rintro (h0 | h0)
    · exact h (Or.inl h0.symm)
    · exact h (Or.inr h0.symm)

theorem log_zero_multiply_out (a b : Nat) : access.log 0 ∉ multiply_out_accesses a b := by
  unfold multiply_out_accesses
  split
  · exact List.not_mem_nil _
  · rename_i h
    simp only [List.mem_cons, access.log.injEq, List.mem_singleton, reduceCtorEq, or_false,
      List.mem_nil_iff]
    exact fun h0 => h h0.symm

theorem log_zero_divide (a b : Nat) : access.log 0 ∉ divide_accesses a b := by
  unfold divide_accesses
  split
  · exact List.not_mem_nil _
  · rename_i h
    simp only [List.mem_cons, access.log.injEq, List.mem_singleton, reduceCtorEq, or_false,
      List.mem_nil_iff]
    rintro (h0 | h0)
    · exact h (Or.inl h0.symm)
    · exact h (Or.inr h0.symm)

theorem log_zero_divide_out (a b : Nat) : access.log 0 ∉ divide_out_accesses a b := by
  unfold divide_out_accesses
  split
  · exact List.not_mem_nil _
  · rename_i h
    simp only [List.mem_cons, access.log.injEq, List.mem_singleton, reduceCtorEq, or_false,
      List.mem_nil_iff]
    exact fun h0 => h h0.symm

theorem log_zero_z_of_ab (a b : Nat) : access.log 0 ∉ z_of_ab_accesses a b := by
  unfold z_of_ab_accesses
  simp only [List.mem_singleton, reduceCtorEq, not_false_eq_true]

theorem log_zero_calculate_inverse (nerrs : Nat) (pblk : Nat → Nat) :
    access.log 0 ∉ calculate_inverse_accesses nerrs pblk := by
  unfold calculate_inverse_accesses
  simp only
  split
  · exact List.not_mem_nil _
  split
  · exact List.not_mem_nil _
  split
  · split
    · simp
    · rename_i hd
      have hd' := fun h => hd (Eq.symm h)
      simp only [List.mem_append, List.mem_cons, List.mem_singleton, List.mem_nil_iff,
        reduceCtorEq, access.log.injEq, false_or, or_false, not_or, log_zero_multiply_out,
        not_false_eq_true, and_true, true_and]
      exact hd'
  · split
    · simp [log_zero_z_of_ab]
    · rename_i hd
      have hd' := fun h => hd (Eq.symm h)
      simp only [List.mem_append, List.mem_cons, List.mem_singleton, List.mem_nil_iff,
        reduceCtorEq, access.log.injEq, false_or, or_false, not_or, log_zero_multiply_out,
        log_zero_z_of_ab, not_false_eq_true, and_true, true_and]
      exact hd'

theorem log_zero_determine_row (inv : inv_mat) (ss : Nat → Nat) (i : Nat) :
    ∀ k j, access.log 0 ∉ determine_row_accesses inv ss i k j := by
  intro k
  induction k with
  | zero => intro j; exact List.not_mem_nil _
  | succ k ih =>
    intro j
    unfold determine_row_accesses
    simp [log_zero_multiply, ih]

theorem log_zero_determine_loop (nerrs : Nat) (inv : inv_mat) (ss : Nat → Nat) :
    ∀ k i, access.log 0 ∉ determine_loop_accesses nerrs inv ss k i := by
  intro k
  induction k with
  | zero => intro i; exact List.not_mem_nil _
  | succ k ih =>
    intro i
    unfold determine_loop_accesses
    simp [log_zero_determine_row, ih]

theorem log_zero_determine (nerrs : Nat) (inv : inv_mat) (ss : Nat → Nat) :
    access.log 0 ∉ determine_accesses nerrs inv ss :=
  log_zero_determine_loop nerrs inv ss nerrs 0

theorem log_zero_syndrome_rows (data : Buf) (limit : Nat) :
    ∀ fuel rptr r, access.log 0 ∉ syndrome_rows_accesses data limit fuel rptr r := by
  intro fuel
  induction fuel with
  | zero => intro rptr r; exact List.not_mem_nil _
  | succ fuel ih =>
    intro rptr r
    unfold syndrome_rows_accesses
    split
    · simp [ih]
    · exact List.not_mem_nil _

theorem log_zero_compute_syndromes (data : Buf) (nblks col : Nat) :
    access.log 0 ∉ compute_syndromes_accesses data nblks col := by
  unfold compute_syndromes_accesses
  simp only
  split
  · simp [log_zero_syndrome_rows, log_zero_divide_out, log_zero_multiply_out]
  · simp [log_zero_syndrome_rows]

theorem log_zero_crc_loop (crcmap : Nat) :
    ∀ k i c, access.log 0 ∉ crc_loop_accesses crcmap k i c := by
  intro k
  induction k with
  | zero => intro i c; exact List.not_mem_nil _
  | succ k ih =>
    intro i c
    unfold crc_loop_accesses
    split
    · split
      · exact List.not_mem_nil _
      · simp [ih]
    · exact ih _ _

theorem log_zero_correct_loop (col : Nat) (eblk es : Nat → Nat) :
    ∀ k i, access.log 0 ∉ correct_loop_accesses col eblk es k i := by
  intro k
  induction k with
  | zero => intro i; exact List.not_mem_nil _
  | succ k ih =>
    intro i
    unfold correct_loop_accesses
    simp [log_zero_divide_out, log_zero_multiply_out, ih]

/-- The only read of the sentinel in the analysis of a column is the location
lookup of `case 0` when `ss[1]` is zero, and the analysis then fails: the entry
read, 255, is not a block of the segment. -/
theorem analyze_log_zero {n : Nat} (hn : n ≤ 255) (s : cp_state)
    (h : access.log 0 ∈ analyze_accesses n s) :
    analyze n s = .ret 1 s.data ∧ s.crcerrs = 0 ∧ s.ss 0 ≠ 0 ∧ divide (s.ss 1) (s.ss 0) = 0 := by
  obtain ⟨data, crcerrs, eblk, ss, es, inv⟩ := s
  rcases crcerrs with _ | _ | _ | _ | c
  · simp only [analyze_accesses] at h
    split at h
    · exact absurd h (List.not_mem_nil _)
    · rename_i h0
      simp only [List.mem_append, List.mem_cons, List.mem_singleton, List.mem_nil_iff,
        reduceCtorEq, access.log.injEq, or_false] at h
      rcases h with h | h
      · exact absurd h (log_zero_divide _ _)
      · simp only [analyze, if_neg h0, ← h, log_sentinel, upd_same]
        exact ⟨if_pos hn, trivial, h0, trivial⟩
  · exfalso
    simp only [analyze_accesses, Nat.zero_add] at h
    simp only [List.mem_append] at h
    rcases h with (h | h) | h
    · exact log_zero_multiply_out _ _ h
    · exact log_zero_multiply_out _ _ h
    · split at h
      · simp only [List.mem_append, List.mem_singleton, reduceCtorEq, false_or] at h
        exact log_zero_determine _ _ _ h
      · rename_i hboth
        split at h
        · exact List.not_mem_nil _ h
        · rename_i hone
          have hi1 : ss 2 ^^^ multiply_out (ss 1) (eblk 0) ≠ 0 := fun e => hone (Or.inl e)
          have hi2 : ss 1 ^^^ multiply_out (ss 0) (eblk 0) ≠ 0 := fun e => hone (Or.inr e)
          simp only [List.mem_append, List.mem_cons, List.mem_singleton, List.mem_nil_iff,
            reduceCtorEq, access.log.injEq, or_false] at h
          rcases h with (h | h) | h
          · exact log_zero_divide _ _ h
          · exact divide_ne_zero hi1 hi2 h.symm
          · split at h
            · exact List.not_mem_nil _ h
            · split at h
              · exact List.not_mem_nil _ h
              · simp only [List.mem_append] at h
                rcases h with h | h
                · exact log_zero_calculate_inverse _ _ h
                · split at h
                  · exact List.not_mem_nil _ h
                  · exact log_zero_determine _ _ _ h
  · exact absurd h (log_zero_determine _ _ _)
  · exact absurd h (log_zero_determine _ _ _)
  · exact absurd h (List.not_mem_nil _)

theorem check_column_log_zero {n : Nat} (hn : n ≤ 255) (col : Nat) (s : cp_state)
    (h : access.log 0 ∈ check_column_accesses n col s) :
    ∃ d, check_column n col s = .ret 1 d := by
  unfold check_column_accesses at h
  simp only [List.mem_append] at h
  rcases h with h | h
  · exact absurd h (log_zero_compute_syndromes _ _ _)
  unfold check_column
  simp only
  split at h
  · exact absurd h (List.not_mem_nil _)
  · rename_i hcs
    rw [if_neg hcs]
    simp only [List.mem_append] at h
    rcases h with h | h
    · have := (analyze_log_zero hn _ h).1
      rw [this]
      exact ⟨_, rfl⟩
    · split at h
      · exact absurd h (List.not_mem_nil _)
      · exact absurd h (log_zero_correct_loop _ _ _ _ _)

theorem column_loop_log_zero {n : Nat} (hn : n ≤ 255) :
    ∀ k col s, access.log 0 ∈ column_loop_accesses n k col s → (column_loop n k col s).1 = 1 := by
  intro k
  induction k with
  | zero =>
    intro col s h
    exact absurd h (List.not_mem_nil _)
  | succ k ih =>
    intro col s h
    unfold column_loop_accesses at h
    rw [column_loop_succ]
    simp only [List.mem_append] at h
    rcases h with h | h
    · obtain ⟨d, hd⟩ := check_column_log_zero hn col s h
      rw [hd]
    · cases hr : check_column n col s with
      | ret code d =>
        rw [hr] at h
        exact absurd h (List.not_mem_nil _)
      | next s' =>
        rw [hr] at h
        exact ih _ _ h

/-- Whenever `check_parity` reads the sentinel entry of `alpha_log`, it returns
1. -/
theorem check_parity_log_zero (data : Buf) (badmap crcmap : Nat)
    (h : access.log 0 ∈ check_parity_accesses data badmap crcmap) :
    (check_parity data badmap crcmap).1 = 1 := by
  have hn : sect_count badmap ≤ 255 := Nat.le_trans (sect_count_le badmap) (by decide)
  unfold check_parity_accesses at h
  unfold check_parity
  simp only [List.mem_append] at h ⊢
  rcases h with h | h
  · split at h
    · exact absurd h (log_zero_crc_loop _ _ _ _)
    · exact absurd h (List.not_mem_nil _)
  · generalize (if crcmap ≠ 0 then crc_loop crcmap (sect_count badmap) 0 0 (fun _ => 0)
      else some (0, fun _ => 0)) = scan at h ⊢
    rcases scan with _ | ⟨crcerrs, eblk⟩
    · exact absurd h (List.not_mem_nil _)
    · simp only at h ⊢
      rw [List.mem_append] at h
      rcases h with h | h
      · exact absurd h (log_zero_calculate_inverse _ _)
      · by_cases hci : (calculate_inverse crcerrs eblk { log_denom := 0, zs := fun _ _ => 0 }).1 = 0
        · rw [if_pos hci] at h
          exact absurd h (List.not_mem_nil _)
        · rw [if_neg hci] at h
          rw [if_neg hci]
          exact column_loop_log_zero hn _ _ _ h

/-- The zero segment with the byte 1 put into blocks 0 and 1 of column 0. -/
def two_bytes_data : Buf := fun x => if x = 0 ∨ x = 1024 then 1 else 0

theorem two_bytes_data_sentinel : access.log 0 ∈ check_parity_accesses two_bytes_data 0 0 := by
  decide!

theorem two_bytes_data_syndromes :
    (compute_syndromes two_bytes_data 32 0 (fun _ => 0)).2 0 ≠ 0 ∧
    (compute_syndromes two_bytes_data 32 0 (fun _ => 0)).2 1 = 0 := by
  decide!

/-- C18, counterexample. On the segment `two_bytes_data`, with `badmap = 0` and
`crcmap = 0`, `check_parity` reads `alpha_log[0]`: in column 0 the syndrome
`ss[0]` is nonzero and `ss[1]` is zero, so `case 0` looks up
`alpha_log[divide(ss[1], ss[0])] = alpha_log[0]`.  The call returns 1. -/
theorem alpha_log_sentinel_counterexample :
    access.log 0 ∈ check_parity_accesses two_bytes_data 0 0 ∧
    (compute_syndromes two_bytes_data 32 0 (fun _ => 0)).2 0 ≠ 0 ∧
    (compute_syndromes two_bytes_data 32 0 (fun _ => 0)).2 1 = 0 ∧
    (check_parity two_bytes_data 0 0).1 = 1 :=
  ⟨two_bytes_data_sentinel, two_bytes_data_syndromes.1, two_bytes_data_syndromes.2,
    check_parity_log_zero _ _ _ two_bytes_data_sentinel⟩

/-- C18, amended. In every execution of `multiply`, `multiply_out`, `divide`,
`divide_out` and `calculate_inverse` every index used to read `alpha_log` is
nonzero; `check_parity` reads the sentinel entry `alpha_log[0]` only in
executions that return 1 (in `case 0`, when `ss[1]` is zero, where the sentinel
value 255 fails the range check). -/
theorem alpha_log_sentinel_reads (data : Buf) (badmap crcmap : Nat) :
    (∀ a b i, access.log i ∈ multiply_accesses a b → i ≠ 0) ∧
    (∀ a b i, access.log i ∈ multiply_out_accesses a b → i ≠ 0) ∧
    (∀ a b i, access.log i ∈ divide_accesses a b → i ≠ 0) ∧
    (∀ a b i, access.log i ∈ divide_out_accesses a b → i ≠ 0) ∧
    (∀ nerrs pblk i, access.log i ∈ calculate_inverse_accesses nerrs pblk → i ≠ 0) ∧
    (access.log 0 ∈ check_parity_accesses data badmap crcmap →
      (check_parity data badmap crcmap).1 = 1) := by
  refine ⟨?_, ?_, ?_, ?_, ?_, check_parity_log_zero data badmap crcmap⟩
  · intro a b i h hi
    rw [hi] at h
    exact log_zero_multiply a b h
  · intro a b i h hi
    rw [hi] at h
    exact log_zero_multiply_out a b h
  · intro a b i h hi
    rw [hi] at h
    exact log_zero_divide a b h
  · intro a b i h hi
    rw [hi] at h
    exact log_zero_divide_out a b h
  · intro nerrs pblk i h hi
    rw [hi] at h
    exact log_zero_calculate_inverse nerrs pblk h

/-! ## Every access is in range -/

/-- Every access of the list is inside its object. -/
def AllOk (n : Nat) (l : List access) : Prop := ∀ a ∈ l, access.ok n a

theorem allOk_nil (n : Nat) : AllOk n [] := fun _ h => absurd h (List.not_mem_nil _)

theorem allOk_cons {n : Nat} {a : access} {l : List access} :
    AllOk n (a :: l) ↔ access.ok n a ∧ AllOk n l := by
  unfold AllOk
  exact List.forall_mem_cons

theorem allOk_append {n : Nat} {l₁ l₂ : List access} :
    AllOk n (l₁ ++ l₂) ↔ AllOk n l₁ ∧ AllOk n l₂ := by
  unfold AllOk
  exact List.forall_mem_append

theorem multiply_accesses_ok (n : Nat) {a b : Nat} (ha : a < 256) (hb : b < 256) :
    AllOk n (multiply_accesses a b) := by
  unfold multiply_accesses
  split
  · exact allOk_nil n
  · rename_i h
    have h1 := log_lt ha (fun e => h (Or.inl e))
    have h2 := log_lt hb (fun e => h (Or.inr e))
    simp only [allOk_cons, access.ok]
    refine ⟨by omega, by omega, ?_, allOk_nil n⟩
    split <;> omega

theorem multiply_out_accesses_ok (n : Nat) {a b : Nat} (ha : a < 256) (hb : b ≤ 255) :
    AllOk n (multiply_out_accesses a b) := by
  unfold multiply_out_accesses
  split
  · exact allOk_nil n
  · rename_i h
    have h1 := log_lt ha h
    simp only [allOk_cons, access.ok]
    refine ⟨by omega, ?_, allOk_nil n⟩
    split <;> omega

theorem divide_accesses_ok (n : Nat) {a b : Nat} (ha : a < 256) (hb : b < 256) :
    AllOk n (divide_accesses a b) := by
  unfold divide_accesses
  split
  · exact allOk_nil n
  · rename_i h
    have h1 := log_lt ha (fun e => h (Or.inl e))
    have h2 := log_lt hb (fun e => h (Or.inr e))
    simp only [allOk_cons, access.ok]
    refine ⟨by omega, by omega, ?_, allOk_nil n⟩
    split <;> omega

theorem divide_out_accesses_ok (n : Nat) {a b : Nat} (ha : a < 256) (hb : b ≤ 255) :
    AllOk n (divide_out_accesses a b) := by
  unfold divide_out_accesses
  split
  · exact allOk_nil n
  · rename_i h
    have h1 := log_lt ha h
    simp only [allOk_cons, access.ok]
    refine ⟨by omega, ?_, allOk_nil n⟩
    split <;> omega

theorem z_of_ab_accesses_ok (n : Nat) {a b : Nat} (ha : a ≤ 255) (hb : b ≤ 255) :
    AllOk n (z_of_ab_accesses a b) := by
  unfold z_of_ab_accesses
  simp only [allOk_cons, access.ok]
  refine ⟨?_, allOk_nil n⟩
  split <;> omega

theorem z_of_ab_lt (a b : Nat) : z_of_ab a b < 256 := power_lt _

theorem calculate_inverse_accesses_ok (n nerrs : Nat) (pblk : Nat → Nat) :
    AllOk n (calculate_inverse_accesses nerrs pblk) := by
  have m0 : pblk 0 % 256 < 256 := Nat.mod_lt _ (by decide)
  have m1 : pblk 1 % 256 < 256 := Nat.mod_lt _ (by decide)
  have m2 : pblk 2 % 256 < 256 := Nat.mod_lt _ (by decide)
  have hld : ∀ d, (255 - alpha_log.getD d 0) % 256 ≤ 255 := fun d => by omega
  have hmo : ∀ x d, x < 256 → AllOk n (multiply_out_accesses x ((255 - alpha_log.getD d 0) % 256)) :=
    fun x d hx => multiply_out_accesses_ok n hx (hld d)
  have hz : ∀ p q, p < 256 → q < 256 → AllOk n (z_of_ab_accesses p q) :=
    fun p q hp hq => z_of_ab_accesses_ok n (by omega) (by omega)
  unfold calculate_inverse_accesses
  simp only
  split
  · exact allOk_nil n
  split
  · exact allOk_nil n
  split
  · have hd := byte_xor_lt (power_lt (255 - pblk 0 % 256)) (power_lt (255 - pblk 1 % 256))
    split
    · simp only [List.append_nil, allOk_cons, access.ok]
      exact ⟨by omega, by omega, allOk_nil n⟩
    · simp only [allOk_append, allOk_cons, access.ok]
      exact ⟨⟨by omega, by omega, allOk_nil n⟩, ⟨⟨⟨⟨by omega, allOk_nil n⟩,
        hmo _ _ (by decide)⟩, hmo _ _ (power_lt _)⟩, hmo _ _ (by decide)⟩, hmo _ _ (power_lt _)⟩
  · have hd : z_of_ab (pblk 2 % 256) (pblk 0 % 256) ^^^ z_of_ab (pblk 1 % 256) (pblk 0 % 256)
        ^^^ z_of_ab (pblk 2 % 256) (pblk 1 % 256) ^^^ z_of_ab (pblk 1 % 256) (pblk 2 % 256)
        ^^^ z_of_ab (pblk 0 % 256) (pblk 1 % 256) ^^^ z_of_ab (pblk 0 % 256) (pblk 2 % 256)
        < 256 :=
      byte_xor_lt (byte_xor_lt (byte_xor_lt (byte_xor_lt (byte_xor_lt (z_of_ab_lt _ _)
        (z_of_ab_lt _ _)) (z_of_ab_lt _ _)) (z_of_ab_lt _ _)) (z_of_ab_lt _ _)) (z_of_ab_lt _ _)
    have hzs : AllOk n (z_of_ab_accesses (pblk 2 % 256) (pblk 0 % 256) ++
        z_of_ab_accesses (pblk 1 % 256) (pblk 0 % 256) ++
        z_of_ab_accesses (pblk 2 % 256) (pblk 1 % 256) ++
        z_of_ab_accesses (pblk 1 % 256) (pblk 2 % 256) ++
        z_of_ab_accesses (pblk 0 % 256) (pblk 1 % 256) ++
        z_of_ab_accesses (pblk 0 % 256) (pblk 2 % 256)) := by
      simp only [allOk_append]
      exact ⟨⟨⟨⟨⟨hz _ _ m2 m0, hz _ _ m1 m0⟩, hz _ _ m2 m1⟩, hz _ _ m1 m2⟩, hz _ _ m0 m1⟩,
        hz _ _ m0 m2⟩
    rw [allOk_append]
    refine ⟨hzs, ?_⟩
    split
    · exact allOk_nil n
    · have hx : ∀ u v, AllOk n (multiply_out_accesses (alpha_power.getD u 0 ^^^
          alpha_power.getD v 0) ((255 - alpha_log.getD (z_of_ab (pblk 2 % 256) (pblk 0 % 256)
            ^^^ z_of_ab (pblk 1 % 256) (pblk 0 % 256) ^^^ z_of_ab (pblk 2 % 256) (pblk 1 % 256)
            ^^^ z_of_ab (pblk 1 % 256) (pblk 2 % 256) ^^^ z_of_ab (pblk 0 % 256) (pblk 1 % 256)
            ^^^ z_of_ab (pblk 0 % 256) (pblk 2 % 256)) 0) % 256)) :=
        fun u v => hmo _ _ (byte_xor_lt (power_lt _) (power_lt _))
      have hy : ∀ p q p' q', AllOk n (multiply_out_accesses (z_of_ab p q ^^^ z_of_ab p' q')
          ((255 - alpha_log.getD (z_of_ab (pblk 2 % 256) (pblk 0 % 256)
            ^^^ z_of_ab (pblk 1 % 256) (pblk 0 % 256) ^^^ z_of_ab (pblk 2 % 256) (pblk 1 % 256)
            ^^^ z_of_ab (pblk 1 % 256) (pblk 2 % 256) ^^^ z_of_ab (pblk 0 % 256) (pblk 1 % 256)
            ^^^ z_of_ab (pblk 0 % 256) (pblk 2 % 256)) 0) % 256)) :=
        fun p q p' q' => hmo _ _ (byte_xor_lt (z_of_ab_lt _ _) (z_of_ab_lt _ _))
      simp only [allOk_append, allOk_cons, access.ok]
      exact ⟨⟨⟨⟨⟨⟨⟨⟨⟨⟨by omega, ⟨by omega, by omega⟩, ⟨by omega, by omega⟩,
        ⟨by omega, by omega⟩, ⟨by omega, by omega⟩, ⟨by omega, by omega⟩,
        ⟨by omega, by omega⟩, allOk_nil n⟩, hx _ _⟩, hy _ _ _ _⟩, hx _ _⟩, hx _ _⟩,
        hy _ _ _ _⟩, hx _ _⟩, hx _ _⟩, hy _ _ _ _⟩, hx _ _⟩

theorem upd2_lt {m : Nat → Nat → Nat} (hm : ∀ i j, m i j < 256) (a b : Nat) {v : Nat}
    (hv : v < 256) : ∀ i j, upd2 m a b v i j < 256 := by
  intro i j
  unfold upd2
  split
  · exact hv
  · exact hm i j

/-- The matrix entries `calculate_inverse` leaves are bytes. -/
theorem calculate_inverse_zs_lt (nerrs : Nat) (pblk : Nat → Nat) {inv : inv_mat}
    (hinv : ∀ i j, inv.zs i j < 256) :
    ∀ i j, (calculate_inverse nerrs pblk inv).2.zs i j < 256 := by
  unfold calculate_inverse
  simp only
  split
  · exact hinv
  split
  · exact hinv
  split
  · split
    · exact hinv
    · exact upd2_lt (upd2_lt (upd2_lt (upd2_lt hinv _ _ (multiply_out_lt _ _)) _ _
        (multiply_out_lt _ _)) _ _ (multiply_out_lt _ _)) _ _ (multiply_out_lt _ _)
  · split
    · exact hinv
    · exact upd2_lt (upd2_lt (upd2_lt (upd2_lt (upd2_lt (upd2_lt (upd2_lt (upd2_lt (upd2_lt hinv
        _ _ (multiply_out_lt _ _)) _ _ (multiply_out_lt _ _)) _ _ (multiply_out_lt _ _)) _ _
        (multiply_out_lt _ _)) _ _ (multiply_out_lt _ _)) _ _ (multiply_out_lt _ _)) _ _
        (multiply_out_lt _ _)) _ _ (multiply_out_lt _ _)) _ _ (multiply_out_lt _ _)

theorem determine_row_bytes (inv : inv_mat) (ss : Nat → Nat) (i : Nat) :
    ∀ k j es, IsBytes es → IsBytes (determine_row inv ss i k j es) := by
  intro k
  induction k with
  | zero => intro j es h; exact h
  | succ k ih =>
    intro j es h
    unfold determine_row
    exact ih _ _ (h.upd _ (byte_xor_lt (h _) (multiply_lt _ _)))

theorem determine_loop_bytes (nerrs : Nat) (inv : inv_mat) (ss : Nat → Nat) :
    ∀ k i es, IsBytes es → IsBytes (determine_loop nerrs inv ss k i es) := by
  intro k
  induction k with
  | zero => intro i es h; exact h
  | succ k ih =>
    intro i es h
    unfold determine_loop
    exact ih _ _ (determine_row_bytes _ _ _ _ _ _ (h.upd _ (by decide)))

/-- The magnitudes `determine` leaves are bytes. -/
theorem determine_bytes (nerrs : Nat) (inv : inv_mat) (ss : Nat → Nat) {es : Nat → Nat}
    (h : IsBytes es) : IsBytes (determine nerrs inv ss es) :=
  determine_loop_bytes nerrs inv ss nerrs 0 es h

theorem determine_row_accesses_ok (n : Nat) {inv : inv_mat} {ss : Nat → Nat}
    (hss : IsBytes ss) (hinv : ∀ i j, inv.zs i j < 256) {i : Nat} (hi : i ≤ 2) :
    ∀ k j, j + k ≤ 3 → AllOk n (determine_row_accesses inv ss i k j) := by
  intro k
  induction k with
  | zero => intro j _; exact allOk_nil n
  | succ k ih =>
    intro j hj
    unfold determine_row_accesses
    simp only [allOk_append, allOk_cons, access.ok]
    exact ⟨⟨⟨hi, by omega, hi, by omega, allOk_nil n⟩,
      multiply_accesses_ok n (hss _) (hinv _ _)⟩, ih (j + 1) (by omega)⟩

theorem determine_loop_accesses_ok (n : Nat) {nerrs : Nat} (hn : nerrs ≤ 3) {inv : inv_mat}
    {ss : Nat → Nat} (hss : IsBytes ss) (hinv : ∀ i j, inv.zs i j < 256) :
    ∀ k i, i + k ≤ 3 → AllOk n (determine_loop_accesses nerrs inv ss k i) := by
  intro k
  induction k with
  | zero => intro i _; exact allOk_nil n
  | succ k ih =>
    intro i hi
    unfold determine_loop_accesses
    simp only [allOk_append, allOk_cons, access.ok]
    exact ⟨⟨⟨by omega, allOk_nil n⟩,
      determine_row_accesses_ok n hss hinv (by omega) nerrs 0 (by omega)⟩, ih (i + 1) (by omega)⟩

/-- The accesses of `determine` are in range when at most three magnitudes are
asked for. -/
theorem determine_accesses_ok (n : Nat) {nerrs : Nat} (hn : nerrs ≤ 3) {inv : inv_mat}
    {ss : Nat → Nat} (hss : IsBytes ss) (hinv : ∀ i j, inv.zs i j < 256) :
    AllOk n (determine_accesses nerrs inv ss) :=
  determine_loop_accesses_ok n hn hss hinv nerrs 0 (by omega)

theorem syndrome_rows_lt {d : Buf} (hd : IsBytes d) (limit : Nat) :
    ∀ fuel rptr (r : Nat × Nat × Nat), (r.1 < 256 ∧ r.2.1 < 256 ∧ r.2.2 < 256) →
      (syndrome_rows d limit fuel rptr r).1 < 256 ∧
      (syndrome_rows d limit fuel rptr r).2.1 < 256 ∧
      (syndrome_rows d limit fuel rptr r).2.2 < 256 := by
  intro fuel
  induction fuel with
  | zero => intro rptr r hr; exact hr
  | succ fuel ih =>
    intro rptr r hr
    unfold syndrome_rows
    split
    · exact ih _ _ (lfsr_step_lt (hd _) hr)
    · exact hr

theorem syndrome_rows_accesses_ok {d : Buf} (hd : IsBytes d) (n : Nat) :
    ∀ fuel rptr (r : Nat × Nat × Nat), (r.1 < 256 ∧ r.2.1 < 256 ∧ r.2.2 < 256) →
      AllOk n (syndrome_rows_accesses d (n * 1024) fuel rptr r) := by
  intro fuel
  induction fuel with
  | zero => intro rptr r _; exact allOk_nil n
  | succ fuel ih =>
    intro rptr r hr
    unfold syndrome_rows_accesses
    split
    · rename_i hlt
      simp only [allOk_append, allOk_cons, access.ok]
      have hx := byte_xor_lt (hd rptr) hr.1
      exact ⟨⟨hlt, by omega, allOk_nil n⟩, ih _ _ (lfsr_step_lt (hd _) hr)⟩
    · exact allOk_nil n

/-- The loop of `compute_syndromes` stops at the end of the segment, not for
lack of fuel: more fuel gives the same accesses. -/
theorem syndrome_rows_accesses_fuel (d : Buf) (limit : Nat) :
    ∀ fuel rptr r extra, limit ≤ rptr + 1024 * fuel →
      syndrome_rows_accesses d limit (fuel + extra) rptr r =
        syndrome_rows_accesses d limit fuel rptr r := by
  intro fuel
  induction fuel with
  | zero =>
    intro rptr r extra h
    cases extra with
    | zero => rfl
    | succ e =>
      rw [Nat.zero_add]
      show syndrome_rows_accesses d limit (e + 1) rptr r = []
      unfold syndrome_rows_accesses
      rw [if_neg (by omega)]
  | succ fuel ih =>
    intro rptr r extra h
    have e : fuel + 1 + extra = (fuel + extra) + 1 := by omega
    rw [e]
    unfold syndrome_rows_accesses
    split
    · rw [ih _ _ _ (by unfold QCV_BLKSIZE; omega)]
    · rfl

/-- The same for the registers the loop computes. -/
theorem syndrome_rows_fuel (d : Buf) (limit : Nat) :
    ∀ fuel rptr r extra, limit ≤ rptr + 1024 * fuel →
      syndrome_rows d limit (fuel + extra) rptr r = syndrome_rows d limit fuel rptr r := by
  intro fuel
  induction fuel with
  | zero =>
    intro rptr r extra h
    cases extra with
    | zero => rfl
    | succ e =>
      rw [Nat.zero_add]
      show syndrome_rows d limit (e + 1) rptr r = r
      unfold syndrome_rows
      rw [if_neg (by omega)]
  | succ fuel ih =>
    intro rptr r extra h
    have e : fuel + 1 + extra = (fuel + extra) + 1 := by omega
    rw [e]
    unfold syndrome_rows
    split
    · rw [ih _ _ _ (by unfold QCV_BLKSIZE; omega)]
    · rfl

theorem shl10 (n : Nat) : n <<< 10 = n * 1024 := by
  rw [Nat.shiftLeft_eq]

/-- The accesses of `compute_syndromes` are in range. -/
theorem compute_syndromes_accesses_ok {d : Buf} (hd : IsBytes d) {n : Nat} (hn : n ≤ 255)
    (col : Nat) : AllOk n (compute_syndromes_accesses d n col) := by
  have hr := syndrome_rows_lt hd (n * 1024) (n * 1024) col (0, 0, 0)
    ⟨by decide, by decide, by decide⟩
  unfold compute_syndromes_accesses
  simp only [shl10]
  rw [allOk_append]
  refine ⟨syndrome_rows_accesses_ok hd n _ _ _ ⟨by decide, by decide, by decide⟩, ?_⟩
  split
  · simp only [allOk_append]
    exact ⟨⟨⟨⟨⟨divide_out_accesses_ok n hr.2.2 (by decide),
      divide_out_accesses_ok n (byte_xor_lt hr.2.1 (divide_out_lt _ _)) (by decide)⟩,
      divide_out_accesses_ok n (byte_xor_lt hr.1 (divide_out_lt _ _)) (by omega)⟩,
      multiply_out_accesses_ok n hr.2.2 (by decide)⟩,
      multiply_out_accesses_ok n (byte_xor_lt hr.2.1 (multiply_out_lt _ _)) (by decide)⟩,
      multiply_out_accesses_ok n (byte_xor_lt hr.1 (multiply_out_lt _ _)) hn⟩
  · exact allOk_nil n

/-- The syndromes `compute_syndromes` stores are bytes. -/
theorem compute_syndromes_bytes {d : Buf} (hd : IsBytes d) (n col : Nat) {ss : Nat → Nat}
    (hss : IsBytes ss) : IsBytes (compute_syndromes d n col ss).2 := by
  have hr := syndrome_rows_lt hd (n <<< 10) (n <<< 10) col (0, 0, 0)
    ⟨by decide, by decide, by decide⟩
  unfold compute_syndromes
  simp only
  split
  · exact ((hss.upd _ (divide_out_lt _ _)).upd _
      (byte_xor_lt (byte_xor_lt hr.1 hr.2.1) hr.2.2)).upd _ (multiply_out_lt _ _)
  · exact hss

/-- What keeps every access of the column loop in range: at most three
locations are known, each a block of the segment, and the segment, the
syndromes, the magnitudes and the matrix hold bytes. -/
def SafeState (n : Nat) (s : cp_state) : Prop :=
  s.crcerrs ≤ 3 ∧ (∀ j, j < s.crcerrs → s.eblk j < n) ∧ IsBytes s.data ∧ IsBytes s.ss ∧
    IsBytes s.es ∧ (∀ i j, s.inv.zs i j < 256)

/-- The accesses of the analysis of a column are in range. -/
theorem analyze_accesses_ok {n : Nat} (hn : n ≤ 255) (s : cp_state) (hs : SafeState n s) :
    AllOk n (analyze_accesses n s) := by
  obtain ⟨data, crcerrs, eblk, ss, es, inv⟩ := s
  obtain ⟨h3, he, hd, hss, hes, hinv⟩ := hs
  simp only at h3 he hd hss hes hinv
  have hcases : crcerrs = 0 ∨ crcerrs = 1 ∨ crcerrs = 2 ∨ crcerrs = 3 := by omega
  rcases hcases with rfl | rfl | rfl | rfl
  · simp only [analyze_accesses]
    split
    · exact allOk_nil n
    · simp only [allOk_append, allOk_cons, access.ok]
      have := divide_lt (ss 1) (ss 0)
      exact ⟨divide_accesses_ok n (hss 1) (hss 0), by omega, by decide, by decide, allOk_nil n⟩
  · have he0 : eblk 0 < n := he 0 (by decide)
    have l1 : ss 2 ^^^ multiply_out (ss 1) (eblk 0) < 256 :=
      byte_xor_lt (hss 2) (multiply_out_lt _ _)
    have l2 : ss 1 ^^^ multiply_out (ss 0) (eblk 0) < 256 :=
      byte_xor_lt (hss 1) (multiply_out_lt _ _)
    simp only [analyze_accesses, Nat.zero_add]
    rw [allOk_append, allOk_append]
    refine ⟨⟨multiply_out_accesses_ok n (hss 1) (by omega),
      multiply_out_accesses_ok n (hss 0) (by omega)⟩, ?_⟩
    split
    · simp only [allOk_append, allOk_cons, access.ok]
      exact ⟨⟨⟨by omega, by omega⟩, allOk_nil n⟩,
        determine_accesses_ok n (by decide) hss (upd2_lt hinv _ _ (power_lt _))⟩
    · split
      · exact allOk_nil n
      · have := divide_lt (ss 2 ^^^ multiply_out (ss 1) (eblk 0))
          (ss 1 ^^^ multiply_out (ss 0) (eblk 0))
        simp only [allOk_append, allOk_cons, access.ok]
        refine ⟨⟨divide_accesses_ok n l1 l2, by omega, by decide, by decide, allOk_nil n⟩, ?_⟩
        split
        · exact allOk_nil n
        · split
          · exact allOk_nil n
          · rw [allOk_append]
            refine ⟨calculate_inverse_accesses_ok n _ _, ?_⟩
            split
            · exact allOk_nil n
            · exact determine_accesses_ok n (by decide) hss
                (calculate_inverse_zs_lt _ _ hinv)
  · exact determine_accesses_ok n h3 hss hinv
  · exact determine_accesses_ok n h3 hss hinv

/-- The analysis of a column keeps the state safe. -/
theorem analyze_safe {n : Nat} (s : cp_state) (hs : SafeState n s) :
    match analyze n s with
    | .ret _ _ => True
    | .next s1 => SafeState n s1 := by
  obtain ⟨data, crcerrs, eblk, ss, es, inv⟩ := s
  obtain ⟨h3, he, hd, hss, hes, hinv⟩ := hs
  simp only at h3 he hd hss hes hinv
  have hcases : crcerrs = 0 ∨ crcerrs = 1 ∨ crcerrs = 2 ∨ crcerrs = 3 := by omega
  rcases hcases with rfl | rfl | rfl | rfl
  · simp only [analyze]
    split_ifs with h1 h2 h3
    · trivial
    · trivial
    · trivial
    · refine ⟨(by decide : (0 + 1 : Nat) ≤ 3), ?_, hd, hss, hes.upd _ (hss 1), hinv⟩
      intro j hj
      have hj0 : j = 0 := by
        have : j < 0 + 1 := hj
        omega
      subst hj0
      exact Nat.lt_of_not_le h2
  · simp only [analyze]
    split_ifs with h1 h2 h3 h4 h5
    · exact ⟨h3, he, hd, hss, determine_bytes _ _ _ hes, upd2_lt hinv _ _ (power_lt _)⟩
    · trivial
    · trivial
    · trivial
    · trivial
    · refine ⟨(by decide : (1 + 1 : Nat) ≤ 3), ?_, hd, hss, determine_bytes _ _ _ hes,
        calculate_inverse_zs_lt _ _ hinv⟩
      intro j hj
      have hj2 : j = 0 ∨ j = 1 := by
        have : j < 1 + 1 := hj
        omega
      rcases hj2 with rfl | rfl
      · dsimp only
        rw [upd_other _ _ (show (0 : Nat) ≠ 1 by decide)]
        exact he 0 (by decide)
      · exact Nat.lt_of_not_le h3
  · exact ⟨h3, he, hd, hss, determine_bytes _ _ _ hes, hinv⟩
  · exact ⟨h3, he, hd, hss, determine_bytes _ _ _ hes, hinv⟩

/-- The accesses of the correction loop are in range. -/
theorem correct_loop_accesses_ok {n : Nat} (hn : n ≤ 255) {col : Nat} (hc : col < 1024)
    (eblk : Nat → Nat) {es : Nat → Nat} (hes : IsBytes es) :
    ∀ k i, i + k ≤ 3 → (∀ j, i ≤ j → j < i + k → eblk j < n) →
      AllOk n (correct_loop_accesses col eblk es k i) := by
  intro k
  induction k with
  | zero => intro i _ _; exact allOk_nil n
  | succ k ih =>
    intro i hi he
    have hb := he i (Nat.le_refl _) (by omega)
    unfold correct_loop_accesses
    simp only [allOk_append, allOk_cons, access.ok]
    refine ⟨⟨⟨⟨⟨by omega, ?_, by omega, by omega, by omega, allOk_nil n⟩,
      divide_out_accesses_ok n (hes _) (by omega)⟩, by omega, by omega, by omega, allOk_nil n⟩,
      multiply_out_accesses_ok n (hes _) (by omega)⟩,
      ih (i + 1) (by omega) (fun j h1 h2 => he j (by omega) (by omega))⟩
    rw [shl_or_eq _ hc]
    omega

/-- The correction loop leaves bytes in the segment and in the syndromes. -/
theorem correct_loop_bytes (col : Nat) (eblk : Nat → Nat) {es : Nat → Nat} (hes : IsBytes es) :
    ∀ k i data ss, IsBytes data → IsBytes ss →
      IsBytes (correct_loop col eblk es k i data ss).1 ∧
      IsBytes (correct_loop col eblk es k i data ss).2 := by
  intro k
  induction k with
  | zero => intro i data ss hd hss; exact ⟨hd, hss⟩
  | succ k ih =>
    intro i data ss hd hss
    unfold correct_loop
    exact ih _ _ _ (hd.upd _ (byte_xor_lt (hd _) (hes _)))
      (((hss.upd _ (byte_xor_lt (hss _) (divide_out_lt _ _))).upd _
        (byte_xor_lt ((hss.upd _ (byte_xor_lt (hss _) (divide_out_lt _ _))) _) (hes _))).upd _
        (byte_xor_lt (((hss.upd _ (byte_xor_lt (hss _) (divide_out_lt _ _))).upd _
          (byte_xor_lt ((hss.upd _ (byte_xor_lt (hss _) (divide_out_lt _ _))) _) (hes _))) _)
          (multiply_out_lt _ _)))

/-- One column of the decode: its accesses are in range and it keeps the state
safe. -/
theorem check_column_safe {n : Nat} (hn : n ≤ 255) {col : Nat} (hc : col < 1024)
    (s : cp_state) (hs : SafeState n s) :
    AllOk n (check_column_accesses n col s) ∧
    match check_column n col s with
    | .ret _ _ => True
    | .next s' => SafeState n s' := by
  obtain ⟨h3, he, hd, hss, hes, hinv⟩ := hs
  have hs0 : SafeState n { s with ss := (compute_syndromes s.data n col s.ss).2,
                                  es := upd (upd (upd s.es 2 0) 1 0) 0 0 } :=
    ⟨h3, he, hd, compute_syndromes_bytes hd n col hss,
      ((hes.upd _ (by decide)).upd _ (by decide)).upd _ (by decide), hinv⟩
  have ha := analyze_accesses_ok hn _ hs0
  have hsafe := analyze_safe _ hs0
  unfold check_column_accesses check_column
  simp only
  rw [allOk_append]
  constructor
  · refine ⟨compute_syndromes_accesses_ok hd hn col, ?_⟩
    split
    · exact allOk_nil n
    · rw [allOk_append]
      refine ⟨ha, ?_⟩
      cases hr : analyze n { s with ss := (compute_syndromes s.data n col s.ss).2,
                                    es := upd (upd (upd s.es 2 0) 1 0) 0 0 } with
      | ret code d => exact allOk_nil n
      | next s1 =>
        rw [hr] at hsafe
        obtain ⟨g3, ge, gd, gss, ges, ginv⟩ := hsafe
        exact correct_loop_accesses_ok hn hc _ ges _ _ (by omega)
          (fun j _ hj => ge j (by omega))
  · by_cases hcs : (compute_syndromes s.data n col s.ss).1 ≠ 0
    · rw [if_pos hcs]
      exact ⟨h3, he, hd, hss, hes, hinv⟩
    · rw [if_neg hcs]
      cases hr : analyze n { s with ss := (compute_syndromes s.data n col s.ss).2,
                                    es := upd (upd (upd s.es 2 0) 1 0) 0 0 } with
      | ret code d => trivial
      | next s1 =>
        rw [hr] at hsafe
        obtain ⟨g3, ge, gd, gss, ges, ginv⟩ := hsafe
        have hb := correct_loop_bytes col s1.eblk ges s1.crcerrs 0 s1.data s1.ss gd gss
        simp only
        by_cases hres : (correct_loop col s1.eblk s1.es s1.crcerrs 0 s1.data s1.ss).2 0 ≠ 0 ∨
            (correct_loop col s1.eblk s1.es s1.crcerrs 0 s1.data s1.ss).2 1 ≠ 0 ∨
            (correct_loop col s1.eblk s1.es s1.crcerrs 0 s1.data s1.ss).2 2 ≠ 0
        · rw [if_pos hres]
          trivial
        · rw [if_neg hres]
          exact ⟨g3, ge, hb.1, hb.2, ges, ginv⟩

/-- The column loop: its accesses are in range. -/
theorem column_loop_accesses_ok {n : Nat} (hn : n ≤ 255) :
    ∀ k col s, col + k ≤ 1024 → SafeState n s → AllOk n (column_loop_accesses n k col s) := by
  intro k
  induction k with
  | zero => intro col s _ _; exact allOk_nil n
  | succ k ih =>
    intro col s hk hs
    obtain ⟨h1, h2⟩ := check_column_safe hn (by omega : col < 1024) s hs
    unfold column_loop_accesses
    rw [allOk_append]
    refine ⟨h1, ?_⟩
    cases hr : check_column n col s with
    | ret code d => exact allOk_nil n
    | next s' =>
      rw [hr] at h2
      exact ih (col + 1) s' (by omega) h2

theorem crc_loop_accesses_ok (n crcmap : Nat) :
    ∀ k i c, c ≤ 3 → AllOk n (crc_loop_accesses crcmap k i c) := by
  intro k
  induction k with
  | zero => intro i c _; exact allOk_nil n
  | succ k ih =>
    intro i c hc
    unfold crc_loop_accesses
    split
    · split
      · exact allOk_nil n
      · simp only [allOk_append, allOk_cons, access.ok]
        exact ⟨⟨by omega, allOk_nil n⟩, ih _ _ (by omega)⟩
    · exact ih _ _ hc

theorem flagged_getD_lt (crcmap n : Nat) {j : Nat} (hj : j < (flagged crcmap 0 n).length) :
    (flagged crcmap 0 n).getD j 0 < n := by
  rw [List.getD_eq_getElem _ _ hj]
  exact flagged_lt (List.getElem_mem hj)

/-- Every access of `check_parity` is in range. -/
theorem check_parity_accesses_ok {data : Buf} (hd : IsBytes data) (badmap crcmap : Nat) :
    AllOk (sect_count badmap) (check_parity_accesses data badmap crcmap) := by
  have hn : sect_count badmap ≤ 255 := Nat.le_trans (sect_count_le badmap) (by decide)
  unfold check_parity_accesses
  simp only
  rw [allOk_append, crc_scan_eq]
  constructor
  · split
    · exact crc_loop_accesses_ok _ _ _ _ _ (by decide)
    · exact allOk_nil _
  · split
    · exact allOk_nil _
    · rename_i crcerrs eblk hscan
      split at hscan
      swap
      · exact absurd hscan (by simp)
      rename_i hlen
      simp only [Option.some.injEq, Prod.mk.injEq] at hscan
      obtain ⟨h1, h2⟩ := hscan
      subst h1
      subst h2
      rw [allOk_append]
      refine ⟨calculate_inverse_accesses_ok _ _ _, ?_⟩
      split
      · exact allOk_nil _
      · apply column_loop_accesses_ok hn 1024 0 _ (by omega)
        refine ⟨hlen, ?_, hd, zero_bytes, zero_bytes,
          calculate_inverse_zs_lt _ _ (fun _ _ => Nat.zero_lt_succ _)⟩
        intro j hj
        have hj' : j < (flagged crcmap 0 (sect_count badmap)).length := hj
        show (if j < (flagged crcmap 0 (sect_count badmap)).length
          then (flagged crcmap 0 (sect_count badmap)).getD j 0 else 0) < _
        rw [if_pos hj']
        exact flagged_getD_lt _ _ hj'

/-- C17. No crash on any data: for every badmap (`sect_count badmap` is at most
32), every byte content of the segment and every crcmap, `check_parity` returns
0 or 1 and every index it computes is in range: indices into `alpha_power`,
`alpha_log` and `mult_c0` lie in 0..255, indices into `eblk`, `ss`, `es` and
`inv.zs` lie in 0..2, and every byte of the segment read or written lies inside
the blocks `0 .. sect_count badmap - 1`.  The row loop of `compute_syndromes`
ends at the end of the segment and not for lack of fuel. -/
theorem check_parity_no_crash (data : Buf) (hd : IsBytes data) (badmap crcmap : Nat) :
    sect_count badmap ≤ 32 ∧
    ((check_parity data badmap crcmap).1 = 0 ∨ (check_parity data badmap crcmap).1 = 1) ∧
    (∀ a ∈ check_parity_accesses data badmap crcmap, access.ok (sect_count badmap) a) ∧
    (∀ (d : Buf) (col extra : Nat),
      syndrome_rows d (sect_count badmap <<< 10) (sect_count badmap <<< 10 + extra) col
          (0, 0, 0) =
        syndrome_rows d (sect_count badmap <<< 10) (sect_count badmap <<< 10) col (0, 0, 0) ∧
      syndrome_rows_accesses d (sect_count badmap <<< 10) (sect_count badmap <<< 10 + extra) col
          (0, 0, 0) =
        syndrome_rows_accesses d (sect_count badmap <<< 10) (sect_count badmap <<< 10) col
          (0, 0, 0)) := by
  refine ⟨sect_count_le badmap, (check_parity_general data badmap crcmap).1,
    check_parity_accesses_ok hd badmap crcmap, ?_⟩
  intro d col extra
  exact ⟨syndrome_rows_fuel d _ _ col _ extra (by omega),
    syndrome_rows_accesses_fuel d _ _ col _ extra (by omega)⟩

theorem check_parity_no_crash_witness :
    (sect_count 0 ≤ 32 ∧
      ((check_parity (fun x => x % 256) 0 5).1 = 0 ∨
        (check_parity (fun x => x % 256) 0 5).1 = 1)) ∧
    AllOk (sect_count 0) (check_parity_accesses (fun x => x % 256) 0 5) :=
  ⟨⟨(check_parity_no_crash (fun x => x % 256) (fun x => Nat.mod_lt x (by decide)) 0 5).1,
    (check_parity_no_crash (fun x => x % 256) (fun x => Nat.mod_lt x (by decide)) 0 5).2.1⟩,
    (check_parity_no_crash (fun x => x % 256) (fun x => Nat.mod_lt x (by decide)) 0 5).2.2.1⟩

/-! ## A successful decode leaves a consistent segment -/

/-- The syndromes of a column depend on the bytes of that column only. -/
theorem syn_congr {d d' : Buf} {c : Nat} (n : Nat)
    (h : ∀ i, d (c + 1024 * i) = d' (c + 1024 * i)) :
    syn0 d c n = syn0 d' c n ∧ syn1 d c n = syn1 d' c n ∧ syn2 d c n = syn2 d' c n := by
  have hcv : ∀ i, cv d c i = cv d' c i := fun i => by
    unfold cv
    rw [h i]
  unfold syn0 syn1 syn2
  exact ⟨Finset.sum_congr rfl (fun i _ => by rw [hcv i]),
    Finset.sum_congr rfl (fun i _ => hcv i),
    Finset.sum_congr rfl (fun i _ => by rw [hcv i])⟩

/-- The analysis of a column changes neither the segment nor the syndromes. -/
theorem analyze_keeps (n : Nat) (s : cp_state) :
    match analyze n s with
    | .ret code _ => code = 1
    | .next s1 => s1.data = s.data ∧ s1.ss = s.ss := by
  obtain ⟨data, crcerrs, eblk, ss, es, inv⟩ := s
  rcases crcerrs with _ | _ | _ | _ | c
  · simp only [analyze]
    split_ifs <;> first | rfl | exact ⟨rfl, rfl⟩
  · simp only [analyze]
    split_ifs <;> first | rfl | exact ⟨rfl, rfl⟩
  · exact ⟨rfl, rfl⟩
  · exact ⟨rfl, rfl⟩
  · rfl

/-- One column of the decode: it fails with code 1, or it leaves the column with
zero syndromes, the other columns as they were and the state safe. -/
theorem check_column_consistent {n : Nat} (hn : n ≤ 255) {col : Nat} (hc : col < 1024)
    (s : cp_state) (hs : SafeState n s) :
    match check_column n col s with
    | .ret code _ => code = 1
    | .next s' => SafeState n s' ∧
        (syn0 s'.data col n = 0 ∧ syn1 s'.data col n = 0 ∧ syn2 s'.data col n = 0) ∧
        ∀ x, x % 1024 ≠ col → s'.data x = s.data x := by
  obtain ⟨h3, he, hd, hss, hes, hinv⟩ := hs
  by_cases hclean : syn0 s.data col n = 0 ∧ syn1 s.data col n = 0 ∧ syn2 s.data col n = 0
  · rw [check_column_clean hd hn hc hclean]
    exact ⟨⟨h3, he, hd, hss, hes, hinv⟩, hclean, fun _ _ => rfl⟩
  rw [check_column_disc hd hn hc hclean]
  have hs0 : SafeState n { s with ss := (compute_syndromes s.data n col s.ss).2,
                                  es := upd (upd (upd s.es 2 0) 1 0) 0 0 } :=
    ⟨h3, he, hd, compute_syndromes_bytes hd n col hss,
      ((hes.upd _ (by decide)).upd _ (by decide)).upd _ (by decide), hinv⟩
  have hsafe := analyze_safe _ hs0
  have hkeep := analyze_keeps n { s with ss := (compute_syndromes s.data n col s.ss).2,
                                         es := upd (upd (upd s.es 2 0) 1 0) 0 0 }
  obtain ⟨-, o0, o1, o2, b0, b1, b2, -⟩ :=
    (compute_syndromes_spec hd hn hc s.ss).2 hclean
  cases hr : analyze n { s with ss := (compute_syndromes s.data n col s.ss).2,
                                es := upd (upd (upd s.es 2 0) 1 0) 0 0 } with
  | ret code d =>
    rw [hr] at hkeep
    exact hkeep
  | next s1 =>
    rw [hr] at hsafe hkeep
    obtain ⟨g3, ge, gd, gss, ges, ginv⟩ := hsafe
    obtain ⟨kd, ks⟩ := hkeep
    have kd' : s1.data = s.data := kd
    have ks' : s1.ss = (compute_syndromes s.data n col s.ss).2 := ks
    have hsyn : SynOK n col s1.data s1.ss := by
      rw [kd', ks']
      exact ⟨b0, b1, b2, o0, o1, o2⟩
    have hloop := correct_loop_synOK hn hc s1.eblk s1.es s1.crcerrs 0 s1.data s1.ss
      (fun j _ hj => ge j (by omega)) (fun j _ _ => ges j) gd hsyn
    have hother := fun x => correct_loop_other col s1.eblk s1.es x s1.crcerrs 0 s1.data s1.ss
    simp only
    by_cases hres : (correct_loop col s1.eblk s1.es s1.crcerrs 0 s1.data s1.ss).2 0 ≠ 0 ∨
        (correct_loop col s1.eblk s1.es s1.crcerrs 0 s1.data s1.ss).2 1 ≠ 0 ∨
        (correct_loop col s1.eblk s1.es s1.crcerrs 0 s1.data s1.ss).2 2 ≠ 0
    · rw [if_pos hres]
    · rw [if_neg hres]
      obtain ⟨hb1, c0, c1, c2, q0, q1, q2⟩ := hloop
      have z0 : (correct_loop col s1.eblk s1.es s1.crcerrs 0 s1.data s1.ss).2 0 = 0 := by
        by_contra h
        exact hres (Or.inl h)
      have z1 : (correct_loop col s1.eblk s1.es s1.crcerrs 0 s1.data s1.ss).2 1 = 0 := by
        by_contra h
        exact hres (Or.inr (Or.inl h))
      have z2 : (correct_loop col s1.eblk s1.es s1.crcerrs 0 s1.data s1.ss).2 2 = 0 := by
        by_contra h
        exact hres (Or.inr (Or.inr h))
      have zero_of : of 0 = (0 : GF) := rfl
      refine ⟨⟨g3, ge, hb1, ?_, ges, ginv⟩, ⟨?_, ?_, ?_⟩, ?_⟩
      · exact (correct_loop_bytes col s1.eblk ges s1.crcerrs 0 s1.data s1.ss gd gss).2
      · rw [← q0, z0, zero_of]
      · rw [← q1, z1, zero_of]
      · rw [← q2, z2, zero_of]
      · intro x hx
        show (correct_loop col s1.eblk s1.es s1.crcerrs 0 s1.data s1.ss).1 x = s.data x
        rw [hother x (fun j _ _ => by
          rw [shl_or_eq _ hc]
          omega), kd']

/-- The column loop: when it ends with code 0, every column of the segment it
leaves has zero syndromes. -/
theorem column_loop_consistent {n : Nat} (hn : n ≤ 255) :
    ∀ k col s, col + k = 1024 → SafeState n s →
      (∀ c, c < col → syn0 s.data c n = 0 ∧ syn1 s.data c n = 0 ∧ syn2 s.data c n = 0) →
      (column_loop n k col s).1 = 0 →
      IsBytes (column_loop n k col s).2 ∧
      ∀ c, c < 1024 → syn0 (column_loop n k col s).2 c n = 0 ∧
        syn1 (column_loop n k col s).2 c n = 0 ∧ syn2 (column_loop n k col s).2 c n = 0 := by
  intro k
  induction k with
  | zero =>
    intro col s hk hs hdone _
    rw [column_loop_zero]
    exact ⟨hs.2.2.1, fun c hc => hdone c (by omega)⟩
  | succ k ih =>
    intro col s hk hs hdone h0
    have hstep := check_column_consistent hn (by omega : col < 1024) s hs
    rw [column_loop_succ] at h0 ⊢
    cases hr : check_column n col s with
    | ret code d =>
      rw [hr] at hstep h0
      have h1 : code = 1 := hstep
      have h2 : code = 0 := h0
      omega
    | next s' =>
      rw [hr] at hstep h0
      obtain ⟨hs', hz, hrest⟩ := hstep
      apply ih (col + 1) s' (by omega) hs' _ h0
      intro c hc
      by_cases hcc : c = col
      · rw [hcc]
        exact hz
      · obtain ⟨e0, e1, e2⟩ := @syn_congr s'.data s.data c n
          (fun i => hrest _ (by omega))
        rw [e0, e1, e2]
        exact hdone c (by omega)

/-- The run of `check_parity`: the scan for flagged blocks, the inverse matrix,
then the column loop from the state the scan leaves. -/
theorem check_parity_eq (data : Buf) (badmap crcmap : Nat) :
    check_parity data badmap crcmap =
      if (flagged crcmap 0 (sect_count badmap)).length ≤ 3 then
        if (calculate_inverse (flagged crcmap 0 (sect_count badmap)).length
            (fun j => if j < (flagged crcmap 0 (sect_count badmap)).length
              then (flagged crcmap 0 (sect_count badmap)).getD j 0 else 0)
            { log_denom := 0, zs := fun _ _ => 0 }).1 = 0 then (1, data)
        else
          column_loop (sect_count badmap) 1024 0
            { data := data, crcerrs := (flagged crcmap 0 (sect_count badmap)).length,
              eblk := fun j => if j < (flagged crcmap 0 (sect_count badmap)).length
                then (flagged crcmap 0 (sect_count badmap)).getD j 0 else 0,
              ss := fun _ => 0, es := fun _ => 0,
              inv := (calculate_inverse (flagged crcmap 0 (sect_count badmap)).length
                (fun j => if j < (flagged crcmap 0 (sect_count badmap)).length
                  then (flagged crcmap 0 (sect_count badmap)).getD j 0 else 0)
                { log_denom := 0, zs := fun _ _ => 0 }).2 }
      else (1, data) := by
  unfold check_parity
  simp only
  rw [crc_scan_eq]
  by_cases hlen : (flagged crcmap 0 (sect_count badmap)).length ≤ 3
  · rw [if_pos hlen, if_pos hlen]
    rfl
  · rw [if_neg hlen, if_neg hlen]

/-- The state the scan leaves is safe. -/
theorem scan_state_safe {data : Buf} (hd : IsBytes data) (badmap crcmap : Nat)
    (hlen : (flagged crcmap 0 (sect_count badmap)).length ≤ 3) :
    SafeState (sect_count badmap)
      { data := data, crcerrs := (flagged crcmap 0 (sect_count badmap)).length,
        eblk := fun j => if j < (flagged crcmap 0 (sect_count badmap)).length
          then (flagged crcmap 0 (sect_count badmap)).getD j 0 else 0,
        ss := fun _ => 0, es := fun _ => 0,
        inv := (calculate_inverse (flagged crcmap 0 (sect_count badmap)).length
          (fun j => if j < (flagged crcmap 0 (sect_count badmap)).length
            then (flagged crcmap 0 (sect_count badmap)).getD j 0 else 0)
          { log_denom := 0, zs := fun _ _ => 0 }).2 } := by
  refine ⟨hlen, ?_, hd, zero_bytes, zero_bytes,
    calculate_inverse_zs_lt _ _ (fun _ _ => Nat.zero_lt_succ _)⟩
  intro j hj
  have hj' : j < (flagged crcmap 0 (sect_count badmap)).length := hj
  show (if j < (flagged crcmap 0 (sect_count badmap)).length
    then (flagged crcmap 0 (sect_count badmap)).getD j 0 else 0) < _
  rw [if_pos hj']
  exact flagged_getD_lt _ _ hj'

/-- C21. A successful decode always leaves a self-consistent segment: for every
badmap (`sect_count badmap` is at most 32), every byte content of the segment
and every crcmap, if `check_parity` returns 0 then every column 0..1023 of the
segment it leaves has all-zero syndromes: `compute_syndromes` returns 1 for
it. -/
theorem check_parity_success_consistent (data : Buf) (hd : IsBytes data)
    (badmap crcmap : Nat) (h0 : (check_parity data badmap crcmap).1 = 0) :
    ∀ col, col < 1024 → ∀ ss : Nat → Nat,
      compute_syndromes (check_parity data badmap crcmap).2 (sect_count badmap) col ss
        = (1, ss) := by
  have hn : sect_count badmap ≤ 255 := Nat.le_trans (sect_count_le badmap) (by decide)
  rw [check_parity_eq] at h0 ⊢
  by_cases hlen : (flagged crcmap 0 (sect_count badmap)).length ≤ 3
  swap
  · rw [if_neg hlen] at h0
    exact absurd h0 Nat.one_ne_zero
  rw [if_pos hlen] at h0 ⊢
  by_cases hci : (calculate_inverse (flagged crcmap 0 (sect_count badmap)).length
      (fun j => if j < (flagged crcmap 0 (sect_count badmap)).length
        then (flagged crcmap 0 (sect_count badmap)).getD j 0 else 0)
      { log_denom := 0, zs := fun _ _ => 0 }).1 = 0
  · rw [if_pos hci] at h0
    exact absurd h0 Nat.one_ne_zero
  rw [if_neg hci] at h0 ⊢
  obtain ⟨hb, hz⟩ := column_loop_consistent hn 1024 0 _ (by omega)
    (scan_state_safe hd badmap crcmap hlen) (fun c hc => absurd hc (Nat.not_lt_zero c)) h0
  intro col hc ss
  exact (compute_syndromes_spec hb hn hc ss).1 (hz col hc)

theorem check_parity_success_consistent_witness :
    compute_syndromes (check_parity (set_parity (fun x => x % 256) 0).2 0 0).2 (sect_count 0) 7
      (fun _ => 0) = (1, fun _ => 0) :=
  check_parity_success_consistent (set_parity (fun x => x % 256) 0).2
    (set_parity_bytes (fun x => Nat.mod_lt x (by decide)) 0) 0 0
    (by rw [check_parity_keeps_encoded _ (fun x => Nat.mod_lt x (by decide))]) 7 (by decide)
    (fun _ => 0)

/-! ## Three flagged blocks -/

instance GF.finite : Finite GF :=
  Finite.of_injective (fun g : GF => (⟨g.val, g.lt⟩ : Fin 256))
    (fun _ _ h => GF.ext (congrArg Fin.val h))

/-- Every triple of syndromes is the syndrome triple of some three magnitudes at
three positions with a nonzero determinant. -/
theorem solve3_exists {x0 x1 x2 : GF} (hD : det3 x0 x1 x2 ≠ 0) (s0 s1 s2 : GF) :
    ∃ e0 e1 e2 : GF, s0 = e0 * x0⁻¹ + e1 * x1⁻¹ + e2 * x2⁻¹ ∧ s1 = e0 + e1 + e2 ∧
      s2 = e0 * x0 + e1 * x1 + e2 * x2 := by
  have hinj : Function.Injective (fun e : GF × GF × GF =>
      (e.1 * x0⁻¹ + e.2.1 * x1⁻¹ + e.2.2 * x2⁻¹, e.1 + e.2.1 + e.2.2,
        e.1 * x0 + e.2.1 * x1 + e.2.2 * x2)) := by
    intro e e' h
    simp only [Prod.mk.injEq] at h
    obtain ⟨h0, h1, h2⟩ := h
    obtain ⟨a0, a1, a2⟩ := solve3 hD h0 h1 h2
    obtain ⟨b0, b1, b2⟩ := solve3 hD (rfl : e.1 * x0⁻¹ + e.2.1 * x1⁻¹ + e.2.2 * x2⁻¹ = _)
      (rfl : e.1 + e.2.1 + e.2.2 = _) (rfl : e.1 * x0 + e.2.1 * x1 + e.2.2 * x2 = _)
    exact Prod.ext (b0.trans a0.symm) (Prod.ext (b1.trans a1.symm) (b2.trans a2.symm))
  obtain ⟨e, he⟩ := (Finite.injective_iff_surjective.1 hinj) (s0, s1, s2)
  simp only [Prod.mk.injEq] at he
  exact ⟨e.1, e.2.1, e.2.2, he.1.symm, he.2.1.symm, he.2.2.symm⟩

/-- The magnitudes the inverse matrix gives for any syndromes reproduce those
syndromes. -/
theorem solve3_right {x0 x1 x2 : GF} (hD : det3 x0 x1 x2 ≠ 0) (s0 s1 s2 : GF) :
    s0 = (s0 * ((x1 + x2) * (det3 x0 x1 x2)⁻¹) +
        s1 * ((x2 * x1⁻¹ + x1 * x2⁻¹) * (det3 x0 x1 x2)⁻¹) +
        s2 * ((x1⁻¹ + x2⁻¹) * (det3 x0 x1 x2)⁻¹)) * x0⁻¹ +
      (s0 * ((x0 + x2) * (det3 x0 x1 x2)⁻¹) +
        s1 * ((x2 * x0⁻¹ + x0 * x2⁻¹) * (det3 x0 x1 x2)⁻¹) +
        s2 * ((x0⁻¹ + x2⁻¹) * (det3 x0 x1 x2)⁻¹)) * x1⁻¹ +
      (s0 * ((x0 + x1) * (det3 x0 x1 x2)⁻¹) +
        s1 * ((x1 * x0⁻¹ + x0 * x1⁻¹) * (det3 x0 x1 x2)⁻¹) +
        s2 * ((x0⁻¹ + x1⁻¹) * (det3 x0 x1 x2)⁻¹)) * x2⁻¹ ∧
    s1 = (s0 * ((x1 + x2) * (det3 x0 x1 x2)⁻¹) +
        s1 * ((x2 * x1⁻¹ + x1 * x2⁻¹) * (det3 x0 x1 x2)⁻¹) +
        s2 * ((x1⁻¹ + x2⁻¹) * (det3 x0 x1 x2)⁻¹)) +
      (s0 * ((x0 + x2) * (det3 x0 x1 x2)⁻¹) +
        s1 * ((x2 * x0⁻¹ + x0 * x2⁻¹) * (det3 x0 x1 x2)⁻¹) +
        s2 * ((x0⁻¹ + x2⁻¹) * (det3 x0 x1 x2)⁻¹)) +
      (s0 * ((x0 + x1) * (det3 x0 x1 x2)⁻¹) +
        s1 * ((x1 * x0⁻¹ + x0 * x1⁻¹) * (det3 x0 x1 x2)⁻¹) +
        s2 * ((x0⁻¹ + x1⁻¹) * (det3 x0 x1 x2)⁻¹)) ∧
    s2 = (s0 * ((x1 + x2) * (det3 x0 x1 x2)⁻¹) +
        s1 * ((x2 * x1⁻¹ + x1 * x2⁻¹) * (det3 x0 x1 x2)⁻¹) +
        s2 * ((x1⁻¹ + x2⁻¹) * (det3 x0 x1 x2)⁻¹)) * x0 +
      (s0 * ((x0 + x2) * (det3 x0 x1 x2)⁻¹) +
        s1 * ((x2 * x0⁻¹ + x0 * x2⁻¹) * (det3 x0 x1 x2)⁻¹) +
        s2 * ((x0⁻¹ + x2⁻¹) * (det3 x0 x1 x2)⁻¹)) * x1 +
      (s0 * ((x0 + x1) * (det3 x0 x1 x2)⁻¹) +
        s1 * ((x1 * x0⁻¹ + x0 * x1⁻¹) * (det3 x0 x1 x2)⁻¹) +
        s2 * ((x0⁻¹ + x1⁻¹) * (det3 x0 x1 x2)⁻¹)) * x2 := by
  obtain ⟨e0, e1, e2, h0, h1, h2⟩ := solve3_exists hD s0 s1 s2
  obtain ⟨k0, k1, k2⟩ := solve3 hD h0 h1 h2
  rw [← k0, ← k1, ← k2]
  exact ⟨h0, h1, h2⟩

/-- Three passes of the correction loop XOR the three corrections into `ss`. -/
theorem correct_loop_three_ss (col : Nat) (eblk es : Nat → Nat) (data : Buf) (ss : Nat → Nat) :
    (correct_loop col eblk es 3 0 data ss).2 0 = ss 0 ^^^ divide_out (es 0) (eblk 0 % 256)
      ^^^ divide_out (es 1) (eblk 1 % 256) ^^^ divide_out (es 2) (eblk 2 % 256) ∧
    (correct_loop col eblk es 3 0 data ss).2 1 = ss 1 ^^^ es 0 ^^^ es 1 ^^^ es 2 ∧
    (correct_loop col eblk es 3 0 data ss).2 2 = ss 2 ^^^ multiply_out (es 0) (eblk 0)
      ^^^ multiply_out (es 1) (eblk 1) ^^^ multiply_out (es 2) (eblk 2) := by
  simp [correct_loop, upd]

/-- With the inverse matrix of three distinct positions, the magnitudes that
`determine` computes from any syndromes cancel those syndromes exactly. -/
theorem determine_three_residual {a b c : Nat} (ha : a < 255) (hb : b < 255) (hc : c < 255)
    (hab : a ≠ b) (hac : a ≠ c) (hbc : b ≠ c) {inv : inv_mat} (hinv : Inv3OK inv a b c)
    {ss : Nat → Nat} (b0 : ss 0 < 256) (b1 : ss 1 < 256) (b2 : ss 2 < 256) (es : Nat → Nat)
    {eblk : Nat → Nat} (hea : eblk 0 = a) (heb : eblk 1 = b) (hec : eblk 2 = c) (col : Nat)
    (data : Buf) :
    (correct_loop col eblk (determine 3 inv ss es) 3 0 data ss).2 0 = 0 ∧
    (correct_loop col eblk (determine 3 inv ss es) 3 0 data ss).2 1 = 0 ∧
    (correct_loop col eblk (determine 3 inv ss es) 3 0 data ss).2 2 = 0 := by
  obtain ⟨zlt, v00, v01, v02, v10, v11, v12, v20, v21, v22⟩ := hinv
  have xl : ∀ u v w : Nat, u < 256 → v < 256 → w < 256 → u ^^^ v ^^^ w < 256 :=
    fun u v w hu hv hw => byte_xor_lt (byte_xor_lt hu hv) hw
  have x4 : ∀ t u v w : Nat, t < 256 → u < 256 → v < 256 → w < 256 →
      of (t ^^^ u ^^^ v ^^^ w) = of t + of u + of v + of w := by
    intro t u v w ht hu hv hw
    rw [of_xor (xl _ _ _ ht hu hv) hw, of_xor (byte_xor_lt ht hu) hv, of_xor ht hu]
  have m3 : ∀ i, i < 3 → of (multiply (ss 0) (inv.zs i 0) ^^^ multiply (ss 1) (inv.zs i 1)
      ^^^ multiply (ss 2) (inv.zs i 2))
      = of (ss 0) * of (inv.zs i 0) + of (ss 1) * of (inv.zs i 1)
        + of (ss 2) * of (inv.zs i 2) := by
    intro i hi
    rw [of_xor (byte_xor_lt (multiply_lt _ _) (multiply_lt _ _)) (multiply_lt _ _),
      of_xor (multiply_lt _ _) (multiply_lt _ _),
      of_multiply b0 (zlt i 0 hi (by decide)), of_multiply b1 (zlt i 1 hi (by decide)),
      of_multiply b2 (zlt i 2 hi (by decide))]
  have l0 : determine 3 inv ss es 0 < 256 := by
    rw [(determine_three _ _ _).1]
    exact xl _ _ _ (multiply_lt _ _) (multiply_lt _ _) (multiply_lt _ _)
  have l1 : determine 3 inv ss es 1 < 256 := by
    rw [(determine_three _ _ _).2.1]
    exact xl _ _ _ (multiply_lt _ _) (multiply_lt _ _) (multiply_lt _ _)
  have l2 : determine 3 inv ss es 2 < 256 := by
    rw [(determine_three _ _ _).2.2]
    exact xl _ _ _ (multiply_lt _ _) (multiply_lt _ _) (multiply_lt _ _)
  have f0 : of (determine 3 inv ss es 0) = of (ss 0) * ((ap b + ap c) * (det3 (ap a) (ap b) (ap c))⁻¹) +
      of (ss 1) * ((ap c * (ap b)⁻¹ + ap b * (ap c)⁻¹) * (det3 (ap a) (ap b) (ap c))⁻¹) +
      of (ss 2) * (((ap b)⁻¹ + (ap c)⁻¹) * (det3 (ap a) (ap b) (ap c))⁻¹) := by
    rw [(determine_three _ _ _).1, m3 0 (by decide), v00, v01, v02]
  have f1 : of (determine 3 inv ss es 1) = of (ss 0) * ((ap a + ap c) * (det3 (ap a) (ap b) (ap c))⁻¹) +
      of (ss 1) * ((ap c * (ap a)⁻¹ + ap a * (ap c)⁻¹) * (det3 (ap a) (ap b) (ap c))⁻¹) +
      of (ss 2) * (((ap a)⁻¹ + (ap c)⁻¹) * (det3 (ap a) (ap b) (ap c))⁻¹) := by
    rw [(determine_three _ _ _).2.1, m3 1 (by decide), v10, v11, v12]
  have f2 : of (determine 3 inv ss es 2) = of (ss 0) * ((ap a + ap b) * (det3 (ap a) (ap b) (ap c))⁻¹) +
      of (ss 1) * ((ap b * (ap a)⁻¹ + ap a * (ap b)⁻¹) * (det3 (ap a) (ap b) (ap c))⁻¹) +
      of (ss 2) * (((ap a)⁻¹ + (ap b)⁻¹) * (det3 (ap a) (ap b) (ap c))⁻¹) := by
    rw [(determine_three _ _ _).2.2, m3 2 (by decide), v20, v21, v22]
  have key := solve3_right (det3_ap_ne ha hb hc hab hac hbc) (of (ss 0)) (of (ss 1)) (of (ss 2))
  rw [← f0, ← f1, ← f2] at key
  obtain ⟨k0, k1, k2⟩ := key
  obtain ⟨r0, r1, r2⟩ := correct_loop_three_ss col eblk (determine 3 inv ss es) data ss
  have hma : a % 256 = a := Nat.mod_eq_of_lt (by omega)
  have hmb : b % 256 = b := Nat.mod_eq_of_lt (by omega)
  have hmc : c % 256 = c := Nat.mod_eq_of_lt (by omega)
  rw [r0, r1, r2, hea, heb, hec, hma, hmb, hmc]
  refine ⟨?_, ?_, ?_⟩
  · apply (of_eq_zero (byte_xor_lt (xl _ _ _ b0 (divide_out_lt _ _) (divide_out_lt _ _))
      (divide_out_lt _ _))).1
    rw [x4 _ _ _ _ b0 (divide_out_lt _ _) (divide_out_lt _ _) (divide_out_lt _ _),
      of_divide_out l0 (by omega), of_divide_out l1 (by omega), of_divide_out l2 (by omega)]
    linear_combination k0 + (of (determine 3 inv ss es 0) * (ap a)⁻¹
      + of (determine 3 inv ss es 1) * (ap b)⁻¹
      + of (determine 3 inv ss es 2) * (ap c)⁻¹) * two_eq_zero
  · apply (of_eq_zero (byte_xor_lt (xl _ _ _ b1 l0 l1) l2)).1
    rw [x4 _ _ _ _ b1 l0 l1 l2]
    linear_combination k1 + (of (determine 3 inv ss es 0) + of (determine 3 inv ss es 1)
      + of (determine 3 inv ss es 2)) * two_eq_zero
  · apply (of_eq_zero (byte_xor_lt (xl _ _ _ b2 (multiply_out_lt _ _) (multiply_out_lt _ _))
      (multiply_out_lt _ _))).1
    rw [x4 _ _ _ _ b2 (multiply_out_lt _ _) (multiply_out_lt _ _) (multiply_out_lt _ _),
      of_multiply_out l0 (by omega), of_multiply_out l1 (by omega), of_multiply_out l2 (by omega)]
    linear_combination k2 + (of (determine 3 inv ss es 0) * ap a
      + of (determine 3 inv ss es 1) * ap b
      + of (determine 3 inv ss es 2) * ap c) * two_eq_zero

/-- One column with three flagged blocks: whatever the column holds, the
corrections computed from its syndromes cancel them, so the loop goes on. -/
theorem check_column_three {n col : Nat} (hn : n ≤ 32) (hc : col < 1024) {a b c : Nat}
    (ha : a < n) (hb : b < n) (hcn : c < n) (hab : a ≠ b) (hac : a ≠ c) (hbc : b ≠ c)
    (s : cp_state)
    (hI : s.crcerrs = 3 ∧ s.eblk 0 = a ∧ s.eblk 1 = b ∧ s.eblk 2 = c ∧ Inv3OK s.inv a b c)
    (hd : IsBytes s.data) :
    ∃ s', check_column n col s = .next s' ∧
      (s'.crcerrs = 3 ∧ s'.eblk 0 = a ∧ s'.eblk 1 = b ∧ s'.eblk 2 = c ∧ Inv3OK s'.inv a b c) ∧
      IsBytes s'.data := by
  obtain ⟨hcr, hea, heb, hec, hinv⟩ := hI
  by_cases hclean : syn0 s.data col n = 0 ∧ syn1 s.data col n = 0 ∧ syn2 s.data col n = 0
  · exact ⟨s, check_column_clean hd (by omega) hc hclean, ⟨hcr, hea, heb, hec, hinv⟩, hd⟩
  · have hspec := (compute_syndromes_spec hd (by omega : n ≤ 255) hc s.ss).2 hclean
    obtain ⟨-, o0, o1, o2, b0, b1, b2, -⟩ := hspec
    have han := analyze_three (n := n)
      (s := { s with ss := (compute_syndromes s.data n col s.ss).2,
                     es := upd (upd (upd s.es 2 0) 1 0) 0 0 }) hcr
    obtain ⟨r0, r1, r2⟩ := determine_three_residual (by omega : a < 255) (by omega : b < 255)
      (by omega : c < 255) hab hac hbc hinv b0 b1 b2 (upd (upd (upd s.es 2 0) 1 0) 0 0)
      hea heb hec col s.data
    have xl : ∀ u v w : Nat, u < 256 → v < 256 → w < 256 → u ^^^ v ^^^ w < 256 :=
      fun u v w hu hv hw => byte_xor_lt (byte_xor_lt hu hv) hw
    have hbytes := (correct_loop_synOK (by omega : n ≤ 255) hc s.eblk
      (determine 3 s.inv (compute_syndromes s.data n col s.ss).2
        (upd (upd (upd s.es 2 0) 1 0) 0 0)) 3 0 s.data (compute_syndromes s.data n col s.ss).2
      (by
        intro j _ hj
        have hj3 : j = 0 ∨ j = 1 ∨ j = 2 := by omega
        rcases hj3 with rfl | rfl | rfl
        · rw [hea]; exact ha
        · rw [heb]; exact hb
        · rw [hec]; exact hcn)
      (by
        intro j _ hj
        have hj3 : j = 0 ∨ j = 1 ∨ j = 2 := by omega
        rcases hj3 with rfl | rfl | rfl
        · rw [(determine_three _ _ _).1]
          exact xl _ _ _ (multiply_lt _ _) (multiply_lt _ _) (multiply_lt _ _)
        · rw [(determine_three _ _ _).2.1]
          exact xl _ _ _ (multiply_lt _ _) (multiply_lt _ _) (multiply_lt _ _)
        · rw [(determine_three _ _ _).2.2]
          exact xl _ _ _ (multiply_lt _ _) (multiply_lt _ _) (multiply_lt _ _))
      hd ⟨b0, b1, b2, o0, o1, o2⟩).1
    rw [check_column_disc hd (by omega) hc hclean, han]
    dsimp only
    rw [hcr, r0, r1, r2, if_neg (by simp)]
    exact ⟨_, rfl, ⟨rfl, hea, heb, hec, hinv⟩, hbytes⟩

/-- The column loop with three flagged blocks runs to the end and returns 0. -/
theorem column_loop_three {n : Nat} (hn : n ≤ 32) {a b c : Nat}
    (ha : a < n) (hb : b < n) (hcn : c < n) (hab : a ≠ b) (hac : a ≠ c) (hbc : b ≠ c) :
    ∀ k col s, col + k ≤ 1024 →
      (s.crcerrs = 3 ∧ s.eblk 0 = a ∧ s.eblk 1 = b ∧ s.eblk 2 = c ∧ Inv3OK s.inv a b c) →
      IsBytes s.data → (column_loop n k col s).1 = 0 := by
  intro k
  induction k with
  | zero =>
    intro col s _ _ _
    rfl
  | succ k ih =>
    intro col s hk hI hd
    obtain ⟨s', h1, hI', hd'⟩ :=
      check_column_three hn (by omega : col < 1024) ha hb hcn hab hac hbc s hI hd
    rw [column_loop_succ, h1]
    exact ih (col + 1) s' (by omega) hI' hd'

/-- C22. With three flagged blocks the residual check can never fail: for every
badmap, with `n = sect_count badmap` (at most 32, and at least 3 since three of
the `n` blocks are flagged), every crcmap with exactly three of its low `n`
bits set and every byte content of the segment whatsoever, corruption outside
the flagged blocks included, `check_parity` returns 0. -/
theorem check_parity_three_flagged (data : Buf) (hd : IsBytes data) (badmap crcmap : Nat)
    (h3 : (List.range (sect_count badmap)).countP (fun i => crcmap.testBit i) = 3) :
    (check_parity data badmap crcmap).1 = 0 := by
  have hn32 := sect_count_le badmap
  rw [countP_eq_flagged] at h3
  have hlt : ∀ x, x ∈ flagged crcmap 0 (sect_count badmap) → x < sect_count badmap :=
    fun x hx => flagged_lt hx
  have hnd := flagged_nodup crcmap (sect_count badmap)
  rw [check_parity_eq, if_pos (by omega)]
  generalize flagged crcmap 0 (sect_count badmap) = L at h3 hlt hnd
  generalize sect_count badmap = n at hn32 hlt
  rcases L with _ | ⟨a, _ | ⟨b, _ | ⟨c, _ | ⟨d, rest⟩⟩⟩⟩
  · simp at h3
  · simp at h3
  · simp at h3
  · simp only [List.length_cons, List.length_nil]
    have ha : a < n := hlt a (by simp)
    have hbn : b < n := hlt b (by simp)
    have hcn : c < n := hlt c (by simp)
    have hab : a ≠ b := by
      intro h
      subst h
      simp at hnd
    have hac : a ≠ c := by
      intro h
      subst h
      simp at hnd
    have hbc : b ≠ c := by
      intro h
      subst h
      simp at hnd
    obtain ⟨h1, h2⟩ := @calculate_inverse_three
      (fun j => if j < 0 + 1 + 1 + 1 then [a, b, c].getD j 0 else 0) a b c rfl rfl rfl
      (by omega) (by omega) (by omega) hab hac hbc { log_denom := 0, zs := fun _ _ => 0 }
    rw [if_neg (by rw [h1]; decide)]
    exact column_loop_three hn32 ha hbn hcn hab hac hbc 1024 0 _ (by omega)
      ⟨rfl, rfl, rfl, rfl, h2⟩ hd
  · simp at h3

theorem check_parity_three_flagged_witness :
    (List.range (sect_count 0)).countP (fun i => Nat.testBit 7 i) = 3 ∧
      (check_parity (fun x => x % 256) 0 7).1 = 0 :=
  ⟨by rw [sect_count_zero]; decide,
    check_parity_three_flagged (fun x => x % 256) (fun x => Nat.mod_lt x (by decide)) 0 7
      (by rw [sect_count_zero]; decide)⟩

/-! ## Failure on corruption out of reach -/

end Ftecc
